import Mathlib

/-!
# cpp-circular-list: a verification development of `circular_list.h`

The header defines `ext_std::circular_list<T>`: a pool `all_nodes` of nodes
linked by integer indices `fwd` / `bwd`, an index `head` of the head node
(`-1` for the empty ring), and a lap-aware iterator `(node, branch)`.

Embedding decisions.
* `std::vector<node>` is a `List`; an access `all_nodes[i]` outside the vector
  is undefined behaviour in C++ and is the fault `Fault.bounds` here.
* `assert(...)` is checked: a failing assertion is the fault `Fault.assertion`.
* Loops whose termination depends on the data (`it != end()` walks, the freeing
  walk of `erase`, the free-slot scan of `insert`) take a fuel argument and
  return `Fault.fuel` when it runs out.
* `int` fields are `Int`. In `inc`, `dec`, `erase_loop` and the guard of
  `erase` the lap arithmetic is exact: these definitions describe the executions
  in which no lap counter leaves the range of `int` (`is_int`), the only ones for
  which C++ defines a result. The overflow of an `int` is undefined in C++; the
  usual targets wrap around modulo `2^32`, and `inc_wrapping`, `dec_wrapping`,
  `erase_loop_wrapping`, `erase_core_wrapping`, `erase_wrapping` are the same
  functions with that arithmetic (`wrap_int`). The two families agree wherever
  the exact laps are `int`s (`inc_wrapping_eq`, `dec_wrapping_eq`,
  `erase_wrapping_eq`). What is stated about laps at the limits of `int`, or
  depends on what an overflow does, is stated over the wrapping definitions.
  Slot indices are assumed to stay inside the range of `int`.
* The one place where the source relies on unsigned wrap-around
  (`(i-1+values.size()) % values.size()`) is computed modulo `2^64`.
* The `list` pointer of an iterator is left implicit: every iterator is used
  with the ring it was created from, and every comparison in the header
  compares two iterators of the same ring, so the conjunct
  `l.list == r.list` of `operator==` is true throughout.
-/

namespace ext_std

/-- Ways in which an execution of the C++ code can fail to produce a value. -/
inductive Fault where
  | assertion
  | bounds
  | fuel
  deriving DecidableEq, Repr

/-- The struct `circular_list<T>::node`. -/
structure node (T : Type) where
  fwd : Int
  bwd : Int
  value : T
  free : Bool
  is_head : Bool
  deriving DecidableEq, Repr

/-- The struct `generic_iterator` without its `list` pointer. The two-argument
constructor `generic_iterator(list, node)` sets `branch` to `0`. -/
structure generic_iterator where
  node : Int
  branch : Int
  deriving DecidableEq, Repr

/-- The struct `circular_list<T>`: `head` and `all_nodes`. -/
structure circular_list (T : Type) where
  head : Int
  all_nodes : List (node T)
  deriving DecidableEq, Repr

variable {T : Type}

/-- The vector access `all_nodes[i]` for an `int` index `i`. -/
def node_at (ns : List (node T)) (i : Int) : Except Fault (node T) :=
  if i < 0 then .error .bounds
  else match ns[i.toNat]? with
    | some n => .ok n
    | none => .error .bounds

/-- Checked `assert(b)`. -/
def assert (b : Bool) : Except Fault Unit :=
  if b then .ok () else .error .assertion

/-- The default constructor `circular_list() : head(-1), all_nodes() {}`. -/
def circular_list.mk_empty : circular_list T :=
  ⟨-1, []⟩

/-- The body of the constructor loop `for (int i = 0; i < n_values; ++i)`:
node `i` receives `values[i]`, `fwd = (i+1) % n`, `bwd = (i-1+n) % n` (the sum
taken in `size_t`, hence modulo `2^64`), `free = false`, `is_head = (i == 0)`.
The first argument is `values.size()`, the second the loop index `i`, the third
the values from index `i` on. -/
def construct_nodes (n : Nat) : Nat → List T → List (node T)
  | _, [] => []
  | i, v :: vs =>
    { fwd := ((i : Int) + 1) % (n : Int)
      bwd := (((i : Int) - 1 + (n : Int)) % (2 ^ 64 : Int)) % (n : Int)
      value := v
      free := false
      is_head := (i == 0) } :: construct_nodes n (i + 1) vs

/-- The constructor `circular_list(const std::vector<T>& values)`. Note the
unconditional `head = 0` at its end. -/
def circular_list.of_vector (values : List T) : circular_list T :=
  ⟨0, construct_nodes values.length 0 values⟩

/-- The members `begin()` and `cbegin()`: `iterator(this, head, 0)`. -/
def circular_list.begin (l : circular_list T) : generic_iterator :=
  ⟨l.head, 0⟩

/-- The members `end()` and `cend()`: `iterator(this, head, 1)`. -/
def circular_list.end_ (l : circular_list T) : generic_iterator :=
  ⟨l.head, 1⟩

/-- The member `empty()`: `head < 0`. -/
def circular_list.empty (l : circular_list T) : Bool :=
  decide (l.head < 0)

/-- The friend `operator==` of two iterators of the same ring:
`l.node == r.node && (l.node < 0 || l.branch == r.branch)`. -/
def generic_iterator.eq (l r : generic_iterator) : Bool :=
  decide (l.node = r.node) && (decide (l.node < 0) || decide (l.branch = r.branch))

/-- The friend `operator!=`: `!(l == r)`. -/
def generic_iterator.ne (l r : generic_iterator) : Bool :=
  !(l.eq r)

/-- The dereference `operator*`: asserts the node is not free, returns its value. -/
def circular_list.deref (l : circular_list T) (it : generic_iterator) : Except Fault T := do
  let n ← node_at l.all_nodes it.node
  assert (!n.free)
  pure n.value

/-- The pre-increment `operator++`: two assertions, `node = fwd`, and the lap
counter is incremented when the node arrived at has `is_head`. The increment is
exact: this is `operator++` for a lap below the greatest `int`, where
`branch++` does not overflow; `inc_wrapping` covers the overflow. -/
def circular_list.inc (l : circular_list T) (it : generic_iterator) :
    Except Fault generic_iterator := do
  let n ← node_at l.all_nodes it.node
  assert (!n.free)
  let f ← node_at l.all_nodes n.fwd
  assert (!f.free)
  pure ⟨n.fwd, if f.is_head then it.branch + 1 else it.branch⟩

/-- The pre-decrement `operator--`: two assertions, the lap counter is
decremented when the node left has `is_head`, then `node = bwd`. The decrement
is exact: this is `operator--` for a lap above the least `int`, where
`branch--` does not overflow; `dec_wrapping` covers the overflow. -/
def circular_list.dec (l : circular_list T) (it : generic_iterator) :
    Except Fault generic_iterator := do
  let n ← node_at l.all_nodes it.node
  assert (!n.free)
  let b ← node_at l.all_nodes n.bwd
  assert (!b.free)
  pure ⟨n.bwd, if n.is_head then it.branch - 1 else it.branch⟩

/-- The increment `++it` repeated `k` times. -/
def circular_list.inc_n (l : circular_list T) : Nat → generic_iterator → Except Fault generic_iterator
  | 0, it => .ok it
  | k + 1, it => do
    let it1 ← l.inc it
    l.inc_n k it1

/-- The decrement `--it` repeated `k` times. -/
def circular_list.dec_n (l : circular_list T) : Nat → generic_iterator → Except Fault generic_iterator
  | 0, it => .ok it
  | k + 1, it => do
    let it1 ← l.dec it
    l.dec_n k it1

/-- The library function `std::advance` on a bidirectional iterator: `n`
increments for `n >= 0`, `-n` decrements for `n < 0`. -/
def circular_list.advance (l : circular_list T) (it : generic_iterator) : Int → Except Fault generic_iterator
  | Int.ofNat k => l.inc_n k it
  | Int.negSucc k => l.dec_n (k + 1) it

/-- The call `std::next(it, n)`, which is also `operator+`. -/
def circular_list.next (l : circular_list T) (it : generic_iterator) (n : Int) :
    Except Fault generic_iterator :=
  l.advance it n

/-- The call `std::prev(it, n)`, which is also `operator-`. -/
def circular_list.prev (l : circular_list T) (it : generic_iterator) (n : Int) :
    Except Fault generic_iterator :=
  l.advance it (-n)

/-- The library function `std::distance(first, last)` on a bidirectional
iterator: the number of increments until `first == last`. -/
def circular_list.distance (l : circular_list T) : Nat → generic_iterator → generic_iterator → Except Fault Nat
  | 0, _, _ => .error .fuel
  | fuel + 1, first, last =>
    if first.eq last then .ok 0
    else do
      let first1 ← l.inc first
      let r ← l.distance fuel first1 last
      pure (r + 1)

/-- The member `size()`: `std::distance(cbegin(), cend())`. -/
def circular_list.size (l : circular_list T) (fuel : Nat) : Except Fault Nat :=
  l.distance fuel l.begin l.end_

/-- The range-based loop `for (auto d : list)`, collecting the values `d`:
from `it`, while `it != end()`, take `*it` and `++it`. -/
def circular_list.walk (l : circular_list T) : Nat → generic_iterator → Except Fault (List T)
  | 0, _ => .error .fuel
  | fuel + 1, it =>
    if it.ne l.end_ then do
      let v ← l.deref it
      let it1 ← l.inc it
      let rest ← l.walk fuel it1
      pure (v :: rest)
    else .ok []

/-- The values read by one lap of forward traversal from `begin()` to `end()`. -/
def circular_list.to_vector (l : circular_list T) (fuel : Nat) : Except Fault (List T) :=
  l.walk fuel l.begin

/-- The loop of `_list_is_consistent`, from iterator `it` on; `true` means the
loop ran to `cend()` without returning `false`. -/
def circular_list.consistent_loop (l : circular_list T) : Nat → generic_iterator → Except Fault Bool
  | 0, _ => .error .fuel
  | fuel + 1, it =>
    if it.ne l.end_ then do
      let n ← node_at l.all_nodes it.node
      if (it.eq l.begin && !n.is_head) || (it.ne l.begin && n.is_head) then pure false
      else if n.free then pure false
      else do
        let nx ← l.next it 1
        if n.fwd != nx.node then pure false
        else do
          let pv ← l.prev it 1
          if n.bwd != pv.node then pure false
          else do
            let it1 ← l.inc it
            l.consistent_loop fuel it1
    else .ok true

/-- The member `_list_is_consistent()`. -/
def circular_list._list_is_consistent (l : circular_list T) (fuel : Nat) : Except Fault Bool := do
  let ok ← l.consistent_loop fuel l.begin
  if !ok then pure false
  else if !l.empty && l.head != l.begin.node then pure false
  else if l.empty && decide (l.head ≥ 0) then pure false
  else pure true

/-- The freeing walk of `erase`: the `for` loop over `cur`, carrying the pool,
`cur`, `cur_branch` and `beheaded`; `head` is the member `head`, which the loop
does not change. The increment of `cur_branch` is exact: this is the walk as
long as `cur_branch++` does not overflow; `erase_loop_wrapping` covers the
overflow. -/
def erase_loop (head : Int) (last_it : generic_iterator) :
    Nat → List (node T) → Int → Int → Bool → Except Fault (List (node T) × Bool)
  | 0, _, _, _, _ => .error .fuel
  | fuel + 1, ns, cur, cur_branch, beheaded =>
    if cur != last_it.node || cur_branch != last_it.branch then do
      let cur_node ← node_at ns cur
      let beheaded1 := if cur == head then true else beheaded
      let ns1 := ns.set cur.toNat { cur_node with free := true, is_head := false }
      let cur_branch1 := if cur_node.fwd == head then cur_branch + 1 else cur_branch
      erase_loop head last_it fuel ns1 cur_node.fwd cur_branch1 beheaded1
    else .ok (ns, beheaded)

/-- The member `erase(first_it, last_it)` up to, and without, the final
`assert(_list_is_consistent())` and the return statement. -/
def circular_list.erase_core (l : circular_list T) (fuel : Nat)
    (first_it last_it : generic_iterator) : Except Fault (circular_list T) := do
  assert (decide (last_it.branch = first_it.branch) || decide (last_it.branch = first_it.branch + 1))
  let first_node ← node_at l.all_nodes first_it.node
  let before_first := first_node.bwd
  let (ns1, beheaded) ← erase_loop l.head last_it fuel l.all_nodes first_it.node first_it.branch false
  let last_node ← node_at ns1 last_it.node
  let ns2 := ns1.set last_it.node.toNat { last_node with bwd := before_first }
  let bf_node ← node_at ns2 before_first
  let ns3 := ns2.set before_first.toNat { bf_node with fwd := last_it.node }
  if beheaded then do
    let last_node3 ← node_at ns3 last_it.node
    if last_node3.free then pure ⟨-1, ns3⟩
    else pure ⟨last_it.node, ns3.set last_it.node.toNat { last_node3 with is_head := true }⟩
  else pure ⟨l.head, ns3⟩

/-- The member `erase(first_it, last_it)`: the updated ring and the returned
iterator. -/
def circular_list.erase (l : circular_list T) (fuel : Nat)
    (first_it last_it : generic_iterator) : Except Fault (circular_list T × generic_iterator) := do
  let l1 ← l.erase_core fuel first_it last_it
  let c ← l1._list_is_consistent fuel
  assert c
  let last_node ← node_at l1.all_nodes last_it.node
  if !last_node.free then pure (l1, last_it)
  else pure (l1, l1.end_)

/-- The node appended by `all_nodes.resize(..., node{ .free = true, .is_head = false })`:
the fields not named are value-initialised. -/
def fresh_node [Inhabited T] : node T :=
  { fwd := 0, bwd := 0, value := default, free := true, is_head := false }

/-- The scan `while(!all_nodes[next_free].free)` of `insert`, with the
`resize` inside it; `remaining` is `values.size() - i`. -/
def find_free [Inhabited T] (remaining : Nat) :
    Nat → List (node T) → Int → Except Fault (List (node T) × Int)
  | 0, _, _ => .error .fuel
  | fuel + 1, ns, next_free => do
    let n ← node_at ns next_free
    if !n.free then
      let next_free1 := next_free + 1
      let ns1 := if next_free1 == (ns.length : Int) then ns ++ List.replicate remaining fresh_node else ns
      find_free remaining fuel ns1 next_free1
    else pure (ns, next_free)

/-- The loop `for (int i = 0; i < values.size(); ++i)` of `insert`, over the
values from index `i` on, carrying the ring, `last` and `next_free`. -/
def insert_loop [Inhabited T] (pos : generic_iterator) (fuel : Nat) :
    List T → circular_list T → Int → Int → Except Fault (circular_list T × Int)
  | [], l, last, _ => .ok (l, last)
  | v :: vs, l, last, next_free => do
    let (ns0, nf) ← find_free (vs.length + 1) fuel l.all_nodes next_free
    let new_node ← node_at ns0 nf
    let ns1 := ns0.set nf.toNat { new_node with free := false, value := v, bwd := last }
    let last_node ← node_at ns1 last
    let ns2 := ns1.set last.toNat { last_node with fwd := nf }
    let pos_node ← node_at ns2 pos.node
    if pos_node.is_head && decide (pos.branch = 0) then do
      let ns3 := ns2.set pos.node.toNat { pos_node with is_head := false }
      let new_node3 ← node_at ns3 nf
      let ns4 := ns3.set nf.toNat { new_node3 with is_head := true }
      insert_loop pos fuel vs ⟨nf, ns4⟩ nf nf
    else insert_loop pos fuel vs ⟨l.head, ns2⟩ nf nf

/-- The member `insert(pos, values)` up to, and without, the final
`assert(_list_is_consistent())`. -/
def circular_list.insert_core [Inhabited T] (l : circular_list T) (fuel : Nat)
    (pos : generic_iterator) (values : List T) : Except Fault (circular_list T) := do
  let pos_node ← node_at l.all_nodes pos.node
  let (l1, last) ← insert_loop pos fuel values l pos_node.bwd 0
  let last_node ← node_at l1.all_nodes last
  let ns1 := l1.all_nodes.set last.toNat { last_node with fwd := pos.node }
  let pos_node1 ← node_at ns1 pos.node
  pure ⟨l1.head, ns1.set pos.node.toNat { pos_node1 with bwd := last }⟩

/-- The member `insert(pos, values)`. -/
def circular_list.insert [Inhabited T] (l : circular_list T) (fuel : Nat)
    (pos : generic_iterator) (values : List T) : Except Fault (circular_list T) := do
  let l1 ← l.insert_core fuel pos values
  let c ← l1._list_is_consistent fuel
  assert c
  pure l1

/-- The loop of the ring `operator==`, from the iterator pair `(l_it, r_it)` on,
followed by its return expression. -/
def eq_loop [DecidableEq T] (l r : circular_list T) :
    Nat → generic_iterator → generic_iterator → Except Fault Bool
  | 0, _, _ => .error .fuel
  | fuel + 1, l_it, r_it =>
    if l_it.ne l.end_ && r_it.ne r.end_ then do
      let a ← l.deref l_it
      let b ← r.deref r_it
      if a != b then pure false
      else do
        let l_it1 ← l.inc l_it
        let r_it1 ← r.inc r_it
        eq_loop l r fuel l_it1 r_it1
    else .ok (l_it.eq l.end_ && r_it.eq r.end_)

/-- The ring `operator==`. -/
def circular_list.eq [DecidableEq T] (l r : circular_list T) (fuel : Nat) : Except Fault Bool :=
  eq_loop l r fuel l.begin r.begin

/-! ## Representation predicates -/

/-- The update `all_nodes[i].field = ...` as a function on pools: slot `i` is
replaced by `f` of itself. -/
def upd (ns : List (node T)) (i : Nat) (f : node T → node T) : List (node T) :=
  List.modify f i ns

/-- The two field writes `free = true; is_head = false` of the freeing walk. -/
def freed (nd : node T) : node T :=
  { nd with free := true, is_head := false }

/-- The pool after the slots of `es` have been freed, in order. -/
def free_all : List Nat → List (node T) → List (node T)
  | [], ns => ns
  | x :: es, ns => free_all es (upd ns x freed)

/-- The value stored in slot `i` of the pool, if the pool has a slot `i`. -/
def value_at (ns : List (node T)) (i : Nat) : Option T :=
  (ns[i]?).map node.value

/-- The slot at position `q` of the cycle `cy`, positions counted modulo the
length of the cycle. -/
def slot (cy : List Nat) (q : Nat) : Nat :=
  (cy[q % cy.length]?).getD 0

/-- The iterator `q` forward steps after the first slot of `cy` at lap `b`: it addresses
the slot at position `q mod n` and has lap `b + q / n`. -/
def cursor_at (cy : List Nat) (b : Int) (q : Nat) : generic_iterator :=
  ⟨(slot cy q : Nat), b + ((q / cy.length : Nat) : Int)⟩

/-- The occupied slots of the pool `ns` are exactly the slots of `cy`, without
repetition, and `fwd` / `bwd` link each slot of `cy` to the next one, the last
to the first. -/
structure Cyc (ns : List (node T)) (cy : List Nat) : Prop where
  nodup : cy.Nodup
  occ : ∀ i : Nat, i ∈ cy ↔ ∃ nd, ns[i]? = some nd ∧ nd.free = false
  fwd : ∀ p x y : Nat, cy[p]? = some x → cy[(p + 1) % cy.length]? = some y →
    ∃ nd, ns[x]? = some nd ∧ nd.fwd = (y : Int)
  bwd : ∀ p x y : Nat, cy[p]? = some x → cy[(p + 1) % cy.length]? = some y →
    ∃ nd, ns[y]? = some nd ∧ nd.bwd = (x : Int)

/-- The head designation of ring `l` with respect to the cycle `cy`: `head` is
the first slot of `cy` (the sentinel `-1` when `cy` is empty), and a slot of the
pool, occupied or free, has `is_head` exactly when its index is `head`. -/
structure Headed (l : circular_list T) (cy : List Nat) : Prop where
  head : l.head = match cy with
    | [] => -1
    | h :: _ => (h : Int)
  flag : ∀ (i : Nat) (nd : node T), l.all_nodes[i]? = some nd → (nd.is_head = true ↔ (i : Int) = l.head)

/-- The part of well-formedness that forward traversal relies on: the slots of
`cy` are the occupied slots, `fwd` links them in a cycle, and the head is
designated as in `Headed`. -/
structure Fwd (l : circular_list T) (cy : List Nat) : Prop where
  nodup : cy.Nodup
  occ : ∀ i : Nat, i ∈ cy ↔ ∃ nd, l.all_nodes[i]? = some nd ∧ nd.free = false
  fwd : ∀ p x y : Nat, cy[p]? = some x → cy[(p + 1) % cy.length]? = some y →
    ∃ nd, l.all_nodes[x]? = some nd ∧ nd.fwd = (y : Int)
  headed : Headed l cy

/-- Ring `l` is well-formed with cycle `cy`: the occupied slots are the slots of
`cy`, linked in that order into one cycle by `fwd` with `bwd` its inverse, the
head is the first slot of `cy` and carries the only head flag; an empty ring has `head = -1`
and no head flag. -/
structure Rep (l : circular_list T) (cy : List Nat) : Prop where
  cyc : Cyc l.all_nodes cy
  headed : Headed l cy

/-- Ring `l` is well-formed. -/
def well_formed (l : circular_list T) : Prop :=
  ∃ cy, Rep l cy

/-- The trace of the freeing walk of `erase`: from `(cur, cur_branch)` the walk
visits the slots of `es` in order, following `fwd`, counting a lap whenever the
`fwd` neighbour is `head`, does not meet `last_it` before the end of `es`, and
meets it there. -/
def erase_trace (ns : List (node T)) (head : Int) (last_it : generic_iterator) :
    Int → Int → List Nat → Prop
  | cur, cur_branch, [] => cur = last_it.node ∧ cur_branch = last_it.branch
  | cur, cur_branch, x :: es =>
    cur = (x : Int) ∧ (cur ≠ last_it.node ∨ cur_branch ≠ last_it.branch) ∧
      ∃ nd, ns[x]? = some nd ∧
        erase_trace ns head last_it nd.fwd (if nd.fwd = head then cur_branch + 1 else cur_branch) es

/-- The effect of the freeing walk and of the reconnection of `erase` on slot
`i`: the slots of `es` are freed and lose the head flag, slot `bf` (the slot
before the first erased one) gets `fwd = lt`, slot `lt` (the slot of
`last_it`) gets `bwd = bf`. -/
def relinked (es : List Nat) (bf lt : Nat) (i : Nat) (nd : node T) : node T :=
  { fwd := if i = bf then (lt : Int) else nd.fwd
    bwd := if i = lt then (bf : Int) else nd.bwd
    value := nd.value
    free := if i ∈ es then true else nd.free
    is_head := if i ∈ es then false else nd.is_head }

/-- The cycle left by erasing the `m` slots from position `a` on of the cycle
`cy`: when the run contains position `0` (the head) the cycle restarts at the
slot after the run, otherwise the run is cut out. -/
def erase_cycle (cy : List Nat) (a m : Nat) : List Nat :=
  if (a = 0 ∧ 0 < m) ∨ cy.length < a + m then (cy.rotate a).drop m
  else cy.take a ++ cy.drop (a + m)

/-- The occupied slots of the pool `ns` are exactly the slots of `s`, without
repetition, and `fwd` / `bwd` link each slot of `s` to the next one; the last
slot is not linked to the first. This is the shape of the ring in the middle of
`insert`. -/
structure Lin (ns : List (node T)) (s : List Nat) : Prop where
  nodup : s.Nodup
  occ : ∀ i : Nat, i ∈ s ↔ ∃ nd, ns[i]? = some nd ∧ nd.free = false
  fwd : ∀ p x y : Nat, s[p]? = some x → s[p + 1]? = some y →
    ∃ nd, ns[x]? = some nd ∧ nd.fwd = (y : Int)
  bwd : ∀ p x y : Nat, s[p]? = some x → s[p + 1]? = some y →
    ∃ nd, ns[y]? = some nd ∧ nd.bwd = (x : Int)

/-- The effect on slot `i` of splicing the new slot `k`, holding `v`, after
slot `lastN`: the writes `new_node.free = false`, `new_node.value = v`,
`new_node.bwd = last` and `all_nodes[last].fwd = next_free` of `insert`. -/
def spliced (k lastN : Nat) (v : T) (i : Nat) (nd : node T) : node T :=
  { fwd := if i = lastN then (k : Int) else nd.fwd
    bwd := if i = k then (lastN : Int) else nd.bwd
    value := if i = k then v else nd.value
    free := if i = k then false else nd.free
    is_head := nd.is_head }

/-- The effect on slot `i` of the head special case of `insert`: slot `posN`
loses the head flag and slot `k` gets it. -/
def reheaded (k posN : Nat) (i : Nat) (nd : node T) : node T :=
  { nd with is_head := if i = k then true else if i = posN then false else nd.is_head }

/-- The state of the loop of `insert` after the values `done` have been stored
in the new slots `news`: `r` is the cycle of the ring before the call, read
from the slot of `pos` on; `ns0` and `head0` are the pool and the head before
the call; `ah` tells whether `pos` is the head at lap `0`. -/
structure InsInv (r : List Nat) (ns0 : List (node T)) (head0 : Int) (ah : Bool)
    (news : List Nat) (done : List T) (l : circular_list T) (lastN : Nat) (nf : Nat) : Prop where
  lin : Lin l.all_nodes (r ++ news)
  last_eq : (r ++ news)[(r ++ news).length - 1]? = some lastN
  flag : ∀ (i : Nat) (nd : node T), l.all_nodes[i]? = some nd → (nd.is_head = true ↔ (i : Int) = l.head)
  head : l.head = if ah = true then ((news.head?).map (fun k : Nat => (k : Int))).getD head0 else head0
  head_mem : ∃ h : Nat, l.head = (h : Int) ∧ h ∈ r ++ news
  old_values : ∀ i, i ∈ r → value_at l.all_nodes i = value_at ns0 i
  new_values : news.map (value_at l.all_nodes) = done.map some
  nf_lt : nf < l.all_nodes.length
  below : ∀ i, i < nf → i ∈ r ++ news
  first_fit : ∀ t k : Nat, news[t]? = some k → ∀ i, i < k → i ∈ r ∨ i ∈ news.take t
  grow : ns0.length ≤ l.all_nodes.length

/-- The effect on slot `i` of the two closing writes of `insert`,
`all_nodes[last].fwd = pos.node` and `all_nodes[pos.node].bwd = last`. -/
def closed (posN lastN : Nat) (i : Nat) (nd : node T) : node T :=
  { nd with
    fwd := if i = lastN then (posN : Int) else nd.fwd
    bwd := if i = posN then (lastN : Int) else nd.bwd }

/-- The cycle after `insert`: the new slots `news` are placed before position
`p` of the cycle `cy`; when that position is the head and the iterator is not
at lap `0`, they follow the last slot instead of preceding the head. -/
def insert_cycle (cy : List Nat) (p : Nat) (at_begin : Bool) (news : List Nat) : List Nat :=
  if p = 0 ∧ at_begin = false then cy ++ news else cy.take p ++ news ++ cy.drop p

/-- The number of pool slots whose `free` flag is false. -/
def circular_list.occupied_count (l : circular_list T) : Nat :=
  List.countP (fun nd => !nd.free) l.all_nodes

/-- The structural invariants of a ring in the words of the specification: with
no occupied slot, `head` is the sentinel `-1` and no slot has the head flag;
otherwise exactly one occupied slot has the head flag and its index is `head`;
and the occupied slots form a single cycle under `fwd` with `bwd` its exact
inverse: from an occupied slot `fwd` and `bwd` lead to occupied slots whose
`bwd`, respectively `fwd`, leads back, and every occupied slot is reached from
`begin()` by fewer forward steps than there are occupied slots. -/
def circular_list.invariants (l : circular_list T) : Prop :=
  (l.occupied_count = 0 → l.head = -1 ∧ ∀ nd, nd ∈ l.all_nodes → nd.is_head = false) ∧
  (0 < l.occupied_count → ∃ h : Nat, l.head = (h : Int) ∧
    (∃ nd, l.all_nodes[h]? = some nd ∧ nd.free = false ∧ nd.is_head = true) ∧
    ∀ (i : Nat) (nd : node T), l.all_nodes[i]? = some nd → nd.free = false →
      nd.is_head = true → i = h) ∧
  (∀ (i : Nat) (nd : node T), l.all_nodes[i]? = some nd → nd.free = false →
    (∃ (j : Nat) (nf : node T), nd.fwd = (j : Int) ∧ l.all_nodes[j]? = some nf ∧
      nf.free = false ∧ nf.bwd = (i : Int)) ∧
    (∃ (j : Nat) (nb : node T), nd.bwd = (j : Int) ∧ l.all_nodes[j]? = some nb ∧
      nb.free = false ∧ nb.fwd = (i : Int)) ∧
    ∃ (k : Nat) (it : generic_iterator), k < l.occupied_count ∧
      l.inc_n k l.begin = .ok it ∧ it.node = (i : Int))

/-- The length of the pool in the loop of `insert`, with `rem` values still to
be stored: either the pool `ns` still has the length of the pool `ns0` before
the call, or it has grown: then `nf`, the slot taken last, is a new slot beyond
`ns0`, and exactly `rem` slots follow it, all of them free. -/
def InsLen (ns0 : List (node T)) (news : List Nat) (ns : List (node T)) (nf rem : Nat) : Prop :=
  ns.length = ns0.length ∨
    (nf ∈ news ∧ ns0.length ≤ nf ∧ ns.length = nf + 1 + rem ∧
      ∀ i, nf < i → i < ns.length → ∃ nd, ns[i]? = some nd ∧ nd.free = true)

/-- The number of pool slots whose `free` flag is true. -/
def circular_list.free_count (l : circular_list T) : Nat :=
  List.countP (fun nd => nd.free) l.all_nodes

/-- The values of the C++ type `int` (32 bits, two's complement), the type of
the lap counter `branch` and of `cur_branch`. -/
@[reducible] def is_int (x : Int) : Prop :=
  -2 ^ 31 ≤ x ∧ x < 2 ^ 31

/-- The `int` that a two's-complement target stores for the exact value `x`:
`x` itself when it is an `int`, and otherwise the `int` congruent to it modulo
`2^32`. In C++ the overflow of an `int` is undefined; this is what the usual
targets compute. -/
def wrap_int (x : Int) : Int :=
  (x + 2 ^ 31) % 2 ^ 32 - 2 ^ 31

/-- The freeing walk of `erase` as `erase_loop`, with the increment
`cur_branch++` wrapping around at the greatest `int`. -/
def erase_loop_wrapping (head : Int) (last_it : generic_iterator) :
    Nat → List (node T) → Int → Int → Bool → Except Fault (List (node T) × Bool)
  | 0, _, _, _, _ => .error .fuel
  | fuel + 1, ns, cur, cur_branch, beheaded =>
    if cur != last_it.node || cur_branch != last_it.branch then do
      let cur_node ← node_at ns cur
      let beheaded1 := if cur == head then true else beheaded
      let ns1 := ns.set cur.toNat { cur_node with free := true, is_head := false }
      let cur_branch1 := if cur_node.fwd == head then wrap_int (cur_branch + 1) else cur_branch
      erase_loop_wrapping head last_it fuel ns1 cur_node.fwd cur_branch1 beheaded1
    else .ok (ns, beheaded)

/-- The member `erase(first_it, last_it)` up to its final assertion, as
`erase_core`, with wrapping `int` arithmetic: the sum `first_it.branch + 1` of
the guard and the increments of the freeing walk. -/
def circular_list.erase_core_wrapping (l : circular_list T) (fuel : Nat)
    (first_it last_it : generic_iterator) : Except Fault (circular_list T) := do
  assert (decide (last_it.branch = first_it.branch) ||
    decide (last_it.branch = wrap_int (first_it.branch + 1)))
  let first_node ← node_at l.all_nodes first_it.node
  let before_first := first_node.bwd
  let (ns1, beheaded) ←
    erase_loop_wrapping l.head last_it fuel l.all_nodes first_it.node first_it.branch false
  let last_node ← node_at ns1 last_it.node
  let ns2 := ns1.set last_it.node.toNat { last_node with bwd := before_first }
  let bf_node ← node_at ns2 before_first
  let ns3 := ns2.set before_first.toNat { bf_node with fwd := last_it.node }
  if beheaded then do
    let last_node3 ← node_at ns3 last_it.node
    if last_node3.free then pure ⟨-1, ns3⟩
    else pure ⟨last_it.node, ns3.set last_it.node.toNat { last_node3 with is_head := true }⟩
  else pure ⟨l.head, ns3⟩

/-- The member `erase(first_it, last_it)` with wrapping `int` arithmetic. The
walk of `_list_is_consistent` goes from `begin()`, lap `0`, to `end()`, lap
`1`, so that no lap counter can overflow in it. -/
def circular_list.erase_wrapping (l : circular_list T) (fuel : Nat)
    (first_it last_it : generic_iterator) : Except Fault (circular_list T × generic_iterator) := do
  let l1 ← l.erase_core_wrapping fuel first_it last_it
  let c ← l1._list_is_consistent fuel
  assert c
  let last_node ← node_at l1.all_nodes last_it.node
  if !last_node.free then pure (l1, last_it)
  else pure (l1, l1.end_)

/-- The iterator `q` forward steps after the first slot of `cy` at lap `b`, the
lap counted with wrapping `int` arithmetic. -/
def cursor_wrapping (cy : List Nat) (b : Int) (q : Nat) : generic_iterator :=
  ⟨(slot cy q : Nat), wrap_int (b + ((q / cy.length : Nat) : Int))⟩

/-- The pre-increment `operator++` as `inc`, with the increment `branch++`
wrapping around at the greatest `int`. -/
def circular_list.inc_wrapping (l : circular_list T) (it : generic_iterator) :
    Except Fault generic_iterator := do
  let n ← node_at l.all_nodes it.node
  assert (!n.free)
  let f ← node_at l.all_nodes n.fwd
  assert (!f.free)
  pure ⟨n.fwd, if f.is_head then wrap_int (it.branch + 1) else it.branch⟩

/-- The wrapping increment `++it` repeated `k` times. -/
def circular_list.inc_n_wrapping (l : circular_list T) :
    Nat → generic_iterator → Except Fault generic_iterator
  | 0, it => .ok it
  | k + 1, it => do
    let it1 ← l.inc_wrapping it
    l.inc_n_wrapping k it1

/-- The pre-decrement `operator--` as `dec`, with the decrement `branch--`
wrapping around at the least `int`. -/
def circular_list.dec_wrapping (l : circular_list T) (it : generic_iterator) :
    Except Fault generic_iterator := do
  let n ← node_at l.all_nodes it.node
  assert (!n.free)
  let b ← node_at l.all_nodes n.bwd
  assert (!b.free)
  pure ⟨n.bwd, if n.is_head then wrap_int (it.branch - 1) else it.branch⟩

/-- The wrapping decrement `--it` repeated `k` times. -/
def circular_list.dec_n_wrapping (l : circular_list T) :
    Nat → generic_iterator → Except Fault generic_iterator
  | 0, it => .ok it
  | k + 1, it => do
    let it1 ← l.dec_wrapping it
    l.dec_n_wrapping k it1

/-- The library function `std::advance` as `advance`, over the wrapping steps. -/
def circular_list.advance_wrapping (l : circular_list T) (it : generic_iterator) :
    Int → Except Fault generic_iterator
  | Int.ofNat k => l.inc_n_wrapping k it
  | Int.negSucc k => l.dec_n_wrapping (k + 1) it

/-- The call `std::next(it, n)`, which is also `operator+`, over the wrapping
steps. -/
def circular_list.next_wrapping (l : circular_list T) (it : generic_iterator) (n : Int) :
    Except Fault generic_iterator :=
  l.advance_wrapping it n

/-- The call `std::prev(it, n)`, which is also `operator-`, over the wrapping
steps. -/
def circular_list.prev_wrapping (l : circular_list T) (it : generic_iterator) (n : Int) :
    Except Fault generic_iterator :=
  l.advance_wrapping it (-n)

/-! ## Basic facts about pool accesses and cycle positions -/

theorem node_at_nat {ns : List (node T)} {i : Nat} {nd : node T} (h : ns[i]? = some nd) :
    node_at ns (i : Int) = .ok nd := by
  have h0 : ¬ ((i : Int) < 0) := by omega
  simp [node_at, h0, h]

theorem node_at_neg (ns : List (node T)) {i : Int} (h : i < 0) :
    node_at ns i = .error .bounds := by
  simp [node_at, h]

theorem node_at_nil (i : Int) : node_at ([] : List (node T)) i = .error .bounds := by
  unfold node_at
  split <;> simp

theorem slot_get {cy : List Nat} (hne : cy ≠ []) (q : Nat) :
    cy[q % cy.length]? = some (slot cy q) := by
  have hpos : 0 < cy.length := List.length_pos.2 hne
  have hlt : q % cy.length < cy.length := Nat.mod_lt _ hpos
  simp [slot, List.getElem?_eq_getElem hlt]

theorem slot_mem {cy : List Nat} (hne : cy ≠ []) (q : Nat) : slot cy q ∈ cy :=
  List.getElem?_mem (slot_get hne q)

theorem slot_of_get {cy : List Nat} {p x : Nat} (h : cy[p]? = some x) : slot cy p = x := by
  have hlt : p < cy.length := by
    by_contra hc
    rw [List.getElem?_eq_none (by omega)] at h
    exact Option.noConfusion h
  simp [slot, Nat.mod_eq_of_lt hlt, h]

theorem slot_mod (cy : List Nat) (q : Nat) : slot cy (q % cy.length) = slot cy q := by
  simp [slot]

theorem slot_inj {cy : List Nat} (hnd : cy.Nodup) (hne : cy ≠ []) {q r : Nat}
    (h : slot cy q = slot cy r) : q % cy.length = r % cy.length := by
  have hpos : 0 < cy.length := List.length_pos.2 hne
  have hq : q % cy.length < cy.length := Nat.mod_lt _ hpos
  have hr : r % cy.length < cy.length := Nat.mod_lt _ hpos
  have e1 := slot_get hne q
  have e2 := slot_get hne r
  rw [h, ← e2] at e1
  by_contra hc
  rcases Nat.lt_or_gt_of_ne hc with hlt | hlt
  · exact (List.nodup_iff_getElem?_ne_getElem?.1 hnd _ _ hlt hr) e1
  · exact (List.nodup_iff_getElem?_ne_getElem?.1 hnd _ _ hlt hq) e1.symm

theorem head_eq_slot {l : circular_list T} {cy : List Nat} (h : Headed l cy) (hne : cy ≠ []) :
    l.head = (slot cy 0 : Nat) := by
  rw [h.head]
  cases cy with
  | nil => exact absurd rfl hne
  | cons a t => simp [slot]

theorem head_of_nil {l : circular_list T} (h : Headed l []) : l.head = -1 := h.head

theorem Rep.toFwd {l : circular_list T} {cy : List Nat} (h : Rep l cy) : Fwd l cy :=
  ⟨h.cyc.nodup, h.cyc.occ, h.cyc.fwd, h.headed⟩

/-! ## Single steps on a well-formed ring -/

theorem Fwd.node_of_slot {l : circular_list T} {cy : List Nat} (h : Fwd l cy) (hne : cy ≠ [])
    (q : Nat) : ∃ nd, l.all_nodes[slot cy q]? = some nd ∧ nd.free = false ∧
      nd.fwd = (slot cy (q + 1) : Nat) ∧ (nd.is_head = true ↔ q % cy.length = 0) := by
  obtain ⟨nd, hnd, hfree⟩ := (h.occ _).1 (slot_mem hne q)
  have hpos : 0 < cy.length := List.length_pos.2 hne
  have hmod : (q % cy.length + 1) % cy.length = (q + 1) % cy.length := Nat.mod_add_mod _ _ _
  obtain ⟨nd1, hnd1, hfwd⟩ := h.fwd (q % cy.length) _ _ (slot_get hne q)
    (by rw [hmod]; exact slot_get hne (q + 1))
  rw [hnd] at hnd1
  cases hnd1
  refine ⟨nd, hnd, hfree, hfwd, ?_⟩
  rw [h.headed.flag _ _ hnd, head_eq_slot h.headed hne]
  constructor
  · intro e
    have := slot_inj h.nodup hne (Int.ofNat_inj.1 e)
    simpa using this
  · intro e
    rw [← slot_mod, e]

theorem Fwd.inc_at {l : circular_list T} {cy : List Nat} (h : Fwd l cy) (hne : cy ≠ [])
    (b : Int) (q : Nat) : l.inc (cursor_at cy b q) = .ok (cursor_at cy b (q + 1)) := by
  obtain ⟨nd, hnd, hfree, hfwd, -⟩ := h.node_of_slot hne q
  obtain ⟨f, hf, hffree, -, hfh⟩ := h.node_of_slot hne (q + 1)
  have hpos : 0 < cy.length := List.length_pos.2 hne
  have hdiv : ((q + 1) / cy.length : Nat) = q / cy.length + if (q + 1) % cy.length = 0 then 1 else 0 := by
    rw [Nat.succ_div]
    simp [Nat.dvd_iff_mod_eq_zero]
  simp only [circular_list.inc, cursor_at, node_at_nat hnd, hfwd, node_at_nat hf, hfree, hffree,
    assert, bind, Except.bind, pure, Except.pure]
  by_cases hz : (q + 1) % cy.length = 0
  · have : f.is_head = true := hfh.2 hz
    simp [this, hdiv, hz]
    omega
  · have : f.is_head = false := by
      cases hh : f.is_head
      · rfl
      · exact absurd (hfh.1 hh) hz
    simp [this, hdiv, hz]

theorem Fwd.inc_n_at {l : circular_list T} {cy : List Nat} (h : Fwd l cy) (hne : cy ≠ [])
    (b : Int) (k q : Nat) : l.inc_n k (cursor_at cy b q) = .ok (cursor_at cy b (q + k)) := by
  induction k generalizing q with
  | zero => rfl
  | succ k ih =>
    simp only [circular_list.inc_n, h.inc_at hne, bind, Except.bind]
    rw [ih]
    congr 2
    omega

theorem begin_eq_cursor {l : circular_list T} {cy : List Nat} (h : Headed l cy) (hne : cy ≠ []) :
    l.begin = cursor_at cy 0 0 := by
  simp [circular_list.begin, cursor_at, head_eq_slot h hne]

theorem end_eq_cursor {l : circular_list T} {cy : List Nat} (h : Headed l cy) (hne : cy ≠ []) :
    l.end_ = cursor_at cy 0 cy.length := by
  have hpos : 0 < cy.length := List.length_pos.2 hne
  simp [circular_list.end_, cursor_at, head_eq_slot h hne, slot, Nat.div_self hpos]

theorem Fwd.next_begin {l : circular_list T} {cy : List Nat} (h : Fwd l cy) (hne : cy ≠ [])
    (k : Nat) : l.next l.begin (k : Int) = .ok (cursor_at cy 0 k) := by
  rw [begin_eq_cursor h.headed hne]
  have := h.inc_n_at hne 0 k 0
  simpa [circular_list.next, circular_list.advance] using this

/-! ## Forward traversal of a well-formed ring -/

theorem cursor_at_ne_end {cy : List Nat} (hne : cy ≠ []) {q : Nat} (hq : q < cy.length) :
    (cursor_at cy 0 q).eq (cursor_at cy 0 cy.length) = false := by
  have hpos : 0 < cy.length := List.length_pos.2 hne
  simp [generic_iterator.eq, cursor_at, Nat.div_eq_of_lt hq, Nat.div_self hpos]

theorem cursor_at_eq_self (cy : List Nat) (b : Int) (q : Nat) :
    (cursor_at cy b q).eq (cursor_at cy b q) = true := by
  simp [generic_iterator.eq]

theorem slot_values_exist (ns : List (node T)) (xs : List Nat)
    (h : ∀ x ∈ xs, ∃ nd, ns[x]? = some nd) : ∃ L : List T, xs.map (value_at ns) = L.map some := by
  induction xs with
  | nil => exact ⟨[], rfl⟩
  | cons x xs ih =>
    obtain ⟨L, hL⟩ := ih (fun y hy => h y (List.mem_cons_of_mem _ hy))
    obtain ⟨nd, hnd⟩ := h x (List.mem_cons_self _ _)
    exact ⟨nd.value :: L, by simp [hL, value_at, hnd]⟩

theorem Fwd.values_exist {l : circular_list T} {cy : List Nat} (h : Fwd l cy) :
    ∃ L : List T, cy.map (value_at l.all_nodes) = L.map some :=
  slot_values_exist _ _ (fun x hx => let ⟨nd, hnd, _⟩ := (h.occ x).1 hx; ⟨nd, hnd⟩)

theorem values_length {ns : List (node T)} {xs : List Nat} {L : List T}
    (h : xs.map (value_at ns) = L.map some) : L.length = xs.length := by
  have := congrArg List.length h
  simpa using this.symm

theorem values_get {ns : List (node T)} {xs : List Nat} {L : List T}
    (h : xs.map (value_at ns) = L.map some) {p x : Nat} (hx : xs[p]? = some x) :
    ∃ nd, ns[x]? = some nd ∧ L[p]? = some nd.value := by
  have e : (xs.map (value_at ns))[p]? = (L.map some)[p]? := by rw [h]
  simp only [List.getElem?_map, hx, Option.map_some'] at e
  cases hL : L[p]? with
  | none => simp [hL] at e
  | some v =>
    simp only [hL, Option.map_some', Option.some.injEq, value_at] at e
    cases hn : ns[x]? with
    | none => simp [hn] at e
    | some nd =>
      simp only [hn, Option.map_some', Option.some.injEq] at e
      exact ⟨nd, rfl, by rw [e]⟩

theorem Fwd.deref_at {l : circular_list T} {cy : List Nat} (h : Fwd l cy) (hne : cy ≠ [])
    {L : List T} (hL : cy.map (value_at l.all_nodes) = L.map some) (b : Int) (q : Nat) :
    ∃ v, L[q % cy.length]? = some v ∧ l.deref (cursor_at cy b q) = .ok v := by
  obtain ⟨nd, hnd, hfree, -, -⟩ := h.node_of_slot hne q
  obtain ⟨nd1, hnd1, hv⟩ := values_get hL (slot_get hne q)
  rw [hnd] at hnd1
  cases hnd1
  refine ⟨nd.value, hv, ?_⟩
  simp [circular_list.deref, cursor_at, node_at_nat hnd, hfree, assert, bind, Except.bind, pure,
    Except.pure]

theorem Fwd.walk_at {l : circular_list T} {cy : List Nat} (h : Fwd l cy) (hne : cy ≠ [])
    {L : List T} (hL : cy.map (value_at l.all_nodes) = L.map some) :
    ∀ (d q fuel : Nat), q + d = cy.length → d < fuel →
      l.walk fuel (cursor_at cy 0 q) = .ok (L.drop q) := by
  have hlen := values_length hL
  intro d
  induction d with
  | zero =>
    intro q fuel hq hf
    obtain ⟨f, rfl⟩ : ∃ f, fuel = f + 1 := ⟨fuel - 1, by omega⟩
    have hq' : q = cy.length := by omega
    subst hq'
    simp [circular_list.walk, generic_iterator.ne, end_eq_cursor h.headed hne, cursor_at_eq_self,
      List.drop_of_length_le (Nat.le_of_eq hlen)]
  | succ d ih =>
    intro q fuel hq hf
    obtain ⟨f, rfl⟩ : ∃ f, fuel = f + 1 := ⟨fuel - 1, by omega⟩
    have hq' : q < cy.length := by omega
    obtain ⟨v, hv, hderef⟩ := h.deref_at hne hL 0 q
    rw [Nat.mod_eq_of_lt hq'] at hv
    have hdrop : L.drop q = v :: L.drop (q + 1) := by
      have hqL : q < L.length := by omega
      rw [List.getElem?_eq_getElem hqL] at hv
      cases hv
      exact List.drop_eq_getElem_cons hqL
    simp only [circular_list.walk, generic_iterator.ne, end_eq_cursor h.headed hne,
      cursor_at_ne_end hne hq', hderef, h.inc_at hne, ih (q + 1) f (by omega) (by omega), hdrop,
      bind, Except.bind, pure, Except.pure, Bool.not_false, if_true]

theorem Fwd.distance_at {l : circular_list T} {cy : List Nat} (h : Fwd l cy) (hne : cy ≠ []) :
    ∀ (d q fuel : Nat), q + d = cy.length → d < fuel →
      l.distance fuel (cursor_at cy 0 q) l.end_ = .ok d := by
  intro d
  induction d with
  | zero =>
    intro q fuel hq hf
    obtain ⟨f, rfl⟩ : ∃ f, fuel = f + 1 := ⟨fuel - 1, by omega⟩
    have hq' : q = cy.length := by omega
    subst hq'
    simp [circular_list.distance, end_eq_cursor h.headed hne, cursor_at_eq_self]
  | succ d ih =>
    intro q fuel hq hf
    obtain ⟨f, rfl⟩ : ∃ f, fuel = f + 1 := ⟨fuel - 1, by omega⟩
    have hq' : q < cy.length := by omega
    have e := ih (q + 1) f (by omega) (by omega)
    rw [end_eq_cursor h.headed hne] at e
    simp only [circular_list.distance, end_eq_cursor h.headed hne,
      cursor_at_ne_end hne hq', h.inc_at hne, e,
      bind, Except.bind, pure, Except.pure]
    rfl

theorem begin_eq_end_of_nil {l : circular_list T} (h : Headed l []) :
    l.begin.eq l.end_ = true := by
  simp [generic_iterator.eq, circular_list.begin, circular_list.end_, head_of_nil h]

/-- On a well-formed ring with cycle `cy`, one lap of traversal reads the values
of the slots of `cy` in order. -/
theorem Fwd.to_vector {l : circular_list T} {cy : List Nat} (h : Fwd l cy)
    {L : List T} (hL : cy.map (value_at l.all_nodes) = L.map some) {fuel : Nat}
    (hf : cy.length < fuel) : l.to_vector fuel = .ok L := by
  by_cases hne : cy = []
  · subst hne
    obtain ⟨f, rfl⟩ : ∃ f, fuel = f + 1 := ⟨fuel - 1, by omega⟩
    have : L = [] := by
      have := values_length hL
      exact List.length_eq_zero.1 (by simpa using this)
    subst this
    simp [circular_list.to_vector, circular_list.walk, generic_iterator.ne,
      begin_eq_end_of_nil h.headed]
  · have := h.walk_at hne hL cy.length 0 fuel (by omega) hf
    rw [circular_list.to_vector, begin_eq_cursor h.headed hne]
    simpa using this

/-- On a well-formed ring with cycle `cy`, `size()` is the length of `cy`. -/
theorem Fwd.size {l : circular_list T} {cy : List Nat} (h : Fwd l cy) {fuel : Nat}
    (hf : cy.length < fuel) : l.size fuel = .ok cy.length := by
  by_cases hne : cy = []
  · subst hne
    obtain ⟨f, rfl⟩ : ∃ f, fuel = f + 1 := ⟨fuel - 1, by omega⟩
    simp [circular_list.size, circular_list.distance, begin_eq_end_of_nil h.headed]
  · have := h.distance_at hne cy.length 0 fuel (by omega) hf
    rw [circular_list.size, begin_eq_cursor h.headed hne]
    exact this

theorem walk_mono (l : circular_list T) :
    ∀ (fuel : Nat) (it : generic_iterator) (L : List T), l.walk fuel it = .ok L →
      ∀ fuel1, fuel ≤ fuel1 → l.walk fuel1 it = .ok L := by
  intro fuel
  induction fuel with
  | zero => intro it L h; simp [circular_list.walk] at h
  | succ f ih =>
    intro it L h fuel1 hle
    obtain ⟨f1, rfl⟩ : ∃ f1, fuel1 = f1 + 1 := ⟨fuel1 - 1, by omega⟩
    simp only [circular_list.walk] at h ⊢
    split
    · rename_i hc
      rw [if_pos hc] at h
      cases hd : l.deref it with
      | error e => simp [hd, bind, Except.bind] at h
      | ok v =>
        cases hi : l.inc it with
        | error e => simp [hd, hi, bind, Except.bind] at h
        | ok it1 =>
          cases hw : l.walk f it1 with
          | error e => simp [hd, hi, hw, bind, Except.bind] at h
          | ok rest =>
            simp only [hd, hi, hw, bind, Except.bind, pure, Except.pure] at h
            simp only [bind, Except.bind, pure, Except.pure, ih it1 rest hw f1 (by omega)]
            exact h
    · rename_i hc
      rw [if_neg hc] at h
      exact h

/-- The traversal read by `to_vector` on a well-formed ring is the list of
values of the slots of its cycle. -/
theorem Fwd.values_of_to_vector {l : circular_list T} {cy : List Nat} (h : Fwd l cy)
    {fuel : Nat} {L : List T} (hv : l.to_vector fuel = .ok L) :
    cy.map (value_at l.all_nodes) = L.map some := by
  obtain ⟨L1, hL1⟩ := h.values_exist
  have e1 := walk_mono l fuel l.begin L hv (max fuel (cy.length + 1)) (le_max_left _ _)
  have e2 := h.to_vector hL1 (lt_of_lt_of_le (Nat.lt_succ_self _) (le_max_right fuel (cy.length + 1)))
  rw [circular_list.to_vector, e1] at e2
  cases e2
  exact hL1

/-! ## The ring built by the constructor -/

theorem construct_nodes_get (n : Nat) (vs : List T) : ∀ (i j : Nat),
    (construct_nodes n i vs)[j]? = (vs[j]?).map (fun v =>
      { fwd := (((i + j : Nat) : Int) + 1) % (n : Int)
        bwd := ((((i + j : Nat) : Int) - 1 + (n : Int)) % (2 ^ 64 : Int)) % (n : Int)
        value := v
        free := false
        is_head := (i + j == 0) }) := by
  induction vs with
  | nil => intro i j; simp [construct_nodes]
  | cons v vs ih =>
    intro i j
    cases j with
    | zero => simp [construct_nodes]
    | succ j =>
      simp only [construct_nodes, List.getElem?_cons_succ, ih (i + 1) j]
      have : i + 1 + j = i + (j + 1) := by omega
      rw [this]

theorem construct_nodes_length (n : Nat) (vs : List T) : ∀ i, (construct_nodes n i vs).length = vs.length := by
  induction vs with
  | nil => intro i; rfl
  | cons v vs ih => intro i; simp [construct_nodes, ih]

theorem of_vector_get (S : List T) (j : Nat) :
    (circular_list.of_vector S).all_nodes[j]? = (S[j]?).map (fun v =>
      { fwd := ((j : Int) + 1) % (S.length : Int)
        bwd := (((j : Int) - 1 + (S.length : Int)) % (2 ^ 64 : Int)) % (S.length : Int)
        value := v
        free := false
        is_head := (j == 0) }) := by
  simp [circular_list.of_vector, construct_nodes_get]

theorem range_get {n p x : Nat} (h : (List.range n)[p]? = some x) : x = p ∧ p < n := by
  have hlt : p < n := by
    by_contra hc
    rw [List.getElem?_eq_none (by simpa using hc)] at h
    exact Option.noConfusion h
  rw [List.getElem?_range hlt] at h
  exact ⟨(Option.some.inj h).symm, hlt⟩

theorem of_vector_headed (S : List T) (hne : S ≠ []) :
    Headed (circular_list.of_vector S) (List.range S.length) := by
  constructor
  · obtain ⟨k, hk⟩ : ∃ k, S.length = k + 1 :=
      ⟨S.length - 1, by have := List.length_pos.2 hne; omega⟩
    rw [hk, List.range_succ_eq_map]
    rfl
  · intro i nd hnd
    rw [of_vector_get] at hnd
    cases hS : S[i]? with
    | none => simp [hS] at hnd
    | some v =>
      simp only [hS, Option.map_some', Option.some.injEq] at hnd
      subst hnd
      simp [circular_list.of_vector]

theorem of_vector_occ (S : List T) (i : Nat) :
    i ∈ List.range S.length ↔
      ∃ nd, (circular_list.of_vector S).all_nodes[i]? = some nd ∧ nd.free = false := by
  rw [of_vector_get, List.mem_range]
  constructor
  · intro hi
    rw [List.getElem?_eq_getElem hi]
    exact ⟨_, rfl, rfl⟩
  · rintro ⟨nd, hnd, -⟩
    by_contra hc
    rw [List.getElem?_eq_none (by omega)] at hnd
    simp at hnd

theorem of_vector_fwd_link (S : List T) (p x y : Nat)
    (hx : (List.range S.length)[p]? = some x)
    (hy : (List.range S.length)[(p + 1) % (List.range S.length).length]? = some y) :
    ∃ nd, (circular_list.of_vector S).all_nodes[x]? = some nd ∧ nd.fwd = (y : Int) := by
  obtain ⟨rfl, hp⟩ := range_get hx
  rw [List.length_range] at hy
  obtain ⟨rfl, -⟩ := range_get hy
  rw [of_vector_get, List.getElem?_eq_getElem hp]
  refine ⟨_, rfl, ?_⟩
  simp

/-- The ring built from a non-empty sequence supports forward traversal along
the slots `0, 1, ..., n - 1`. -/
theorem of_vector_fwd (S : List T) (hne : S ≠ []) :
    Fwd (circular_list.of_vector S) (List.range S.length) :=
  ⟨List.nodup_range _, of_vector_occ S, of_vector_fwd_link S, of_vector_headed S hne⟩

theorem of_vector_values (S : List T) :
    (List.range S.length).map (value_at (circular_list.of_vector S).all_nodes) = S.map some := by
  apply List.ext_getElem?
  intro j
  simp only [List.getElem?_map]
  by_cases hj : j < S.length
  · simp [List.getElem?_range hj, value_at, of_vector_get, List.getElem?_eq_getElem hj]
  · rw [List.getElem?_eq_none (by simpa using hj), List.getElem?_eq_none (by omega)]
    rfl

theorem of_vector_bwd_link (S : List T) (hlt : S.length < 2 ^ 63) (p x y : Nat)
    (hx : (List.range S.length)[p]? = some x)
    (hy : (List.range S.length)[(p + 1) % (List.range S.length).length]? = some y) :
    ∃ nd, (circular_list.of_vector S).all_nodes[y]? = some nd ∧ nd.bwd = (x : Int) := by
  obtain ⟨rfl, hp⟩ := range_get hx
  rw [List.length_range] at hy
  obtain ⟨rfl, hy2⟩ := range_get hy
  rw [of_vector_get, List.getElem?_eq_getElem hy2]
  refine ⟨_, rfl, ?_⟩
  show (((((x + 1) % S.length : Nat) : Int) - 1 + (S.length : Int)) % (2 ^ 64 : Int)) % (S.length : Int) = x
  have h63 : (2 : Nat) ^ 63 = 9223372036854775808 := by norm_num
  have h64 : (2 : Int) ^ 64 = 18446744073709551616 := by norm_num
  rw [h63] at hlt
  rw [h64]
  by_cases hlast : x + 1 < S.length
  · rw [Nat.mod_eq_of_lt hlast]
    have e1 : (((x + 1 : Nat) : Int) - 1 + (S.length : Int)) % 18446744073709551616 = x + S.length := by
      omega
    rw [e1, Int.add_emod_self]
    exact Int.emod_eq_of_lt (by omega) (by omega)
  · have hx1 : x + 1 = S.length := by omega
    rw [← hx1, Nat.mod_self]
    have e1 : (((0 : Nat) : Int) - 1 + ((x + 1 : Nat) : Int)) % 18446744073709551616 = x := by
      omega
    rw [e1]
    exact Int.emod_eq_of_lt (by omega) (by omega)

/-- The ring built from a non-empty sequence is well-formed, its cycle being
the slots `0, 1, ..., n - 1`. -/
theorem of_vector_rep (S : List T) (hne : S ≠ []) (hlt : S.length < 2 ^ 63) :
    Rep (circular_list.of_vector S) (List.range S.length) :=
  ⟨⟨List.nodup_range _, of_vector_occ S, of_vector_fwd_link S, of_vector_bwd_link S hlt⟩,
    of_vector_headed S hne⟩

theorem mk_empty_rep : Rep (circular_list.mk_empty : circular_list T) [] := by
  refine ⟨⟨List.nodup_nil, ?_, ?_, ?_⟩, ⟨rfl, ?_⟩⟩ <;> simp [circular_list.mk_empty]

theorem bind_ok {α β : Type} (a : α) (f : α → Except Fault β) :
    (Except.ok a >>= f) = f a := rfl

theorem bind_error {α β : Type} (e : Fault) (f : α → Except Fault β) :
    ((Except.error e : Except Fault α) >>= f) = Except.error e := rfl

theorem inc_n_one (l : circular_list T) (it : generic_iterator) : l.inc_n 1 it = l.inc it := by
  simp only [circular_list.inc_n]
  cases l.inc it <;> rfl

theorem dec_n_one (l : circular_list T) (it : generic_iterator) : l.dec_n 1 it = l.dec it := by
  simp only [circular_list.dec_n]
  cases l.dec it <;> rfl

theorem next_one (l : circular_list T) (it : generic_iterator) : l.next it 1 = l.inc it :=
  inc_n_one l it

theorem prev_one (l : circular_list T) (it : generic_iterator) : l.prev it 1 = l.dec it :=
  dec_n_one l it

theorem Rep.node_bwd_of_slot {l : circular_list T} {cy : List Nat} (h : Rep l cy) (hne : cy ≠ [])
    (q : Nat) : ∃ nd, l.all_nodes[slot cy (q + 1)]? = some nd ∧ nd.free = false ∧
      nd.bwd = (slot cy q : Nat) ∧ (nd.is_head = true ↔ (q + 1) % cy.length = 0) := by
  obtain ⟨nd, hnd, hfree, -, hh⟩ := h.toFwd.node_of_slot hne (q + 1)
  have hmod : (q % cy.length + 1) % cy.length = (q + 1) % cy.length := Nat.mod_add_mod _ _ _
  obtain ⟨nd1, hnd1, hbwd⟩ := h.cyc.bwd (q % cy.length) _ _ (slot_get hne q)
    (by rw [hmod]; exact slot_get hne (q + 1))
  rw [hnd] at hnd1
  cases hnd1
  exact ⟨nd, hnd, hfree, hbwd, hh⟩

theorem Rep.dec_at {l : circular_list T} {cy : List Nat} (h : Rep l cy) (hne : cy ≠ [])
    (b : Int) (q : Nat) : l.dec (cursor_at cy b (q + 1)) = .ok (cursor_at cy b q) := by
  obtain ⟨nd, hnd, hfree, hbwd, hh⟩ := h.node_bwd_of_slot hne q
  obtain ⟨p, hp, hpfree, -, -⟩ := h.toFwd.node_of_slot hne q
  have hdiv : ((q + 1) / cy.length : Nat) = q / cy.length + if (q + 1) % cy.length = 0 then 1 else 0 := by
    rw [Nat.succ_div]
    simp [Nat.dvd_iff_mod_eq_zero]
  simp only [circular_list.dec, cursor_at, node_at_nat hnd, hbwd, node_at_nat hp, hfree, hpfree,
    assert, bind, Except.bind, pure, Except.pure]
  by_cases hz : (q + 1) % cy.length = 0
  · have : nd.is_head = true := hh.2 hz
    simp [this, hdiv, hz]
    omega
  · have : nd.is_head = false := by
      cases hx : nd.is_head
      · rfl
      · exact absurd (hh.1 hx) hz
    simp [this, hdiv, hz]

theorem cursor_at_shift (cy : List Nat) (hne : cy ≠ []) (b : Int) (q : Nat) :
    cursor_at cy b (q + cy.length) = cursor_at cy (b + 1) q := by
  have hpos : 0 < cy.length := List.length_pos.2 hne
  simp only [cursor_at, slot, Nat.add_mod_right, Nat.add_div_right _ hpos]
  congr 1
  push_cast
  omega

theorem Rep.dec_node {l : circular_list T} {cy : List Nat} (h : Rep l cy) (hne : cy ≠ [])
    (b : Int) (q : Nat) : l.dec (cursor_at cy b q) = .ok (cursor_at cy (b - 1) (q + cy.length - 1)) := by
  have hpos : 0 < cy.length := List.length_pos.2 hne
  have e : cursor_at cy b q = cursor_at cy (b - 1) ((q + cy.length - 1) + 1) := by
    have : q + cy.length - 1 + 1 = q + cy.length := by omega
    rw [this, cursor_at_shift cy hne]
    congr 1
    omega
  rw [e, h.dec_at hne]

theorem Rep.consistent_loop_at {l : circular_list T} {cy : List Nat} (h : Rep l cy) (hne : cy ≠ []) :
    ∀ (d q fuel : Nat), q + d = cy.length → d < fuel →
      l.consistent_loop fuel (cursor_at cy 0 q) = .ok true := by
  have hpos : 0 < cy.length := List.length_pos.2 hne
  intro d
  induction d with
  | zero =>
    intro q fuel hq hf
    obtain ⟨f, rfl⟩ : ∃ f, fuel = f + 1 := ⟨fuel - 1, by omega⟩
    have hq' : q = cy.length := by omega
    subst hq'
    simp [circular_list.consistent_loop, generic_iterator.ne, end_eq_cursor h.headed hne,
      cursor_at_eq_self]
  | succ d ih =>
    intro q fuel hq hf
    obtain ⟨f, rfl⟩ : ∃ f, fuel = f + 1 := ⟨fuel - 1, by omega⟩
    have hq' : q < cy.length := by omega
    obtain ⟨nd, hnd, hfree, hfwd, hh⟩ := h.toFwd.node_of_slot hne q
    have hnode : node_at l.all_nodes (cursor_at cy 0 q).node = .ok nd := node_at_nat hnd
    have hbegin : (cursor_at cy 0 q).eq l.begin = nd.is_head := by
      rw [begin_eq_cursor h.headed hne]
      rw [Nat.mod_eq_of_lt hq'] at hh
      cases hx : nd.is_head
      · have hq0 : q ≠ 0 := fun e => by simp [hh.2 e] at hx
        have hs : slot cy q ≠ slot cy 0 := by
          intro e
          have := slot_inj h.cyc.nodup hne e
          rw [Nat.mod_eq_of_lt hq', Nat.zero_mod] at this
          exact hq0 this
        simp [generic_iterator.eq, cursor_at, hs]
      · have hq0 : q = 0 := hh.1 hx
        subst hq0
        exact cursor_at_eq_self cy 0 0
    have hdec := h.dec_node hne 0 q
    have hbwd : nd.bwd = (cursor_at cy (0 - 1) (q + cy.length - 1)).node := by
      obtain ⟨nd1, hnd1, -, hb, -⟩ := h.node_bwd_of_slot hne (q + cy.length - 1)
      have e : slot cy (q + cy.length - 1 + 1) = slot cy q := by
        have : q + cy.length - 1 + 1 = q + cy.length := by omega
        rw [this]
        simp [slot]
      rw [e, hnd] at hnd1
      cases hnd1
      simpa [cursor_at] using hb
    have hfw : nd.fwd = (cursor_at cy 0 (q + 1)).node := by simpa [cursor_at] using hfwd
    simp only [circular_list.consistent_loop, generic_iterator.ne, end_eq_cursor h.headed hne,
      cursor_at_ne_end hne hq', hnode, hbegin, next_one, prev_one, h.toFwd.inc_at hne, hdec,
      ih (q + 1) f (by omega) (by omega), hfree, hfw, hbwd,
      bind, Except.bind, pure, Except.pure]
    cases nd.is_head <;> simp

/-- On a well-formed ring the check `_list_is_consistent()` returns true. -/
theorem Rep.consistent {l : circular_list T} {cy : List Nat} (h : Rep l cy) {fuel : Nat}
    (hf : cy.length < fuel) : l._list_is_consistent fuel = .ok true := by
  by_cases hne : cy = []
  · subst hne
    obtain ⟨f, rfl⟩ : ∃ f, fuel = f + 1 := ⟨fuel - 1, by omega⟩
    have hb := begin_eq_end_of_nil h.headed
    have hh := head_of_nil h.headed
    simp [circular_list._list_is_consistent, circular_list.consistent_loop, generic_iterator.ne,
      hb, circular_list.empty, hh, bind, Except.bind, pure, Except.pure]
  · have hl := h.consistent_loop_at hne cy.length 0 fuel (by omega) hf
    rw [← begin_eq_cursor h.headed hne] at hl
    have hh := head_eq_slot h.headed hne
    have hnn : ¬ (l.head < 0) := by rw [hh]; omega
    have hl2 : l.consistent_loop fuel { node := l.head, branch := 0 } = Except.ok true := hl
    simp [circular_list._list_is_consistent, hl2, circular_list.empty, hnn, circular_list.begin,
      bind, Except.bind, pure, Except.pure]

/-! ## Pool updates -/

theorem upd_get (ns : List (node T)) (i : Nat) (f : node T → node T) (j : Nat) :
    (upd ns i f)[j]? = if i = j then (ns[j]?).map f else ns[j]? := by
  rw [upd, List.getElem?_modify]
  by_cases h : i = j <;> cases ns[j]? <;> simp [h]

theorem upd_length (ns : List (node T)) (i : Nat) (f : node T → node T) :
    (upd ns i f).length = ns.length := by
  simp [upd]

theorem set_eq_upd {ns : List (node T)} {i : Nat} {nd : node T} (h : ns[i]? = some nd)
    (f : node T → node T) : ns.set i (f nd) = upd ns i f := by
  apply List.ext_getElem?
  intro j
  rw [upd_get, List.getElem?_set]
  by_cases hij : i = j
  · subst hij
    have hlt : i < ns.length := by
      by_contra hc
      rw [List.getElem?_eq_none (by omega)] at h
      exact Option.noConfusion h
    simp [hlt, h]
  · simp [hij]

theorem toNat_natCast (i : Nat) : ((i : Int)).toNat = i := Int.toNat_natCast i

theorem free_all_get (es : List Nat) : ∀ (ns : List (node T)) (i : Nat),
    (free_all es ns)[i]? = (ns[i]?).map (fun nd => if i ∈ es then freed nd else nd) := by
  induction es with
  | nil => intro ns i; simp [free_all]
  | cons x es ih =>
    intro ns i
    rw [free_all, ih, upd_get]
    by_cases hx : x = i
    · subst hx
      cases ns[x]? with
      | none => simp
      | some nd =>
        by_cases hm : x ∈ es <;> simp [hm, freed]
    · have hx2 : ¬ i = x := fun e => hx e.symm
      cases ns[i]? with
      | none => simp [hx]
      | some nd => simp [hx, hx2]

theorem free_all_length (es : List Nat) : ∀ (ns : List (node T)),
    (free_all es ns).length = ns.length := by
  induction es with
  | nil => intro ns; rfl
  | cons x es ih => intro ns; rw [free_all, ih, upd_length]

/-! ## The freeing walk of `erase` -/

theorem erase_trace_congr {ns ns1 : List (node T)} (head : Int) (last_it : generic_iterator)
    (hfw : ∀ (i : Nat) (nd : node T), ns[i]? = some nd →
      ∃ nd1 : node T, ns1[i]? = some nd1 ∧ nd1.fwd = nd.fwd) :
    ∀ (es : List Nat) (cur cb : Int), erase_trace ns head last_it cur cb es →
      erase_trace ns1 head last_it cur cb es := by
  intro es
  induction es with
  | nil => intro cur cb h; exact h
  | cons x es ih =>
    intro cur cb h
    obtain ⟨h1, h2, nd, hnd, h3⟩ := h
    obtain ⟨nd1, hnd1, hf⟩ := hfw x nd hnd
    refine ⟨h1, h2, nd1, hnd1, ?_⟩
    rw [hf]
    exact ih _ _ h3

/-- The freeing walk along a trace frees the slots of the trace and reports
whether the head was among them. -/
theorem erase_loop_spec (head : Int) (last_it : generic_iterator) :
    ∀ (es : List Nat) (ns : List (node T)) (cur cb : Int) (beheaded : Bool) (fuel : Nat),
      erase_trace ns head last_it cur cb es → es.length < fuel →
      erase_loop head last_it fuel ns cur cb beheaded =
        .ok (free_all es ns, beheaded || es.any (fun x => decide ((x : Int) = head))) := by
  intro es
  induction es with
  | nil =>
    intro ns cur cb beheaded fuel h hf
    obtain ⟨f, rfl⟩ : ∃ f, fuel = f + 1 := ⟨fuel - 1, by omega⟩
    obtain ⟨h1, h2⟩ := h
    simp [erase_loop, h1, h2, free_all]
  | cons x es ih =>
    intro ns cur cb beheaded fuel h hf
    obtain ⟨f, rfl⟩ : ∃ f, fuel = f + 1 := ⟨fuel - 1, by omega⟩
    obtain ⟨h1, h2, nd, hnd, h3⟩ := h
    subst h1
    have hc : (((x : Int) != last_it.node) || (cb != last_it.branch)) = true := by
      rcases h2 with h2 | h2 <;> simp [h2]
    have hset : ns.set x { nd with free := true, is_head := false } = upd ns x freed :=
      set_eq_upd hnd freed
    have h4 : erase_trace (upd ns x freed) head last_it nd.fwd
        (if nd.fwd = head then cb + 1 else cb) es := by
      refine erase_trace_congr head last_it ?_ es _ _ h3
      intro i ndi hi
      rw [upd_get]
      by_cases hxi : x = i
      · simp [hxi, hi, freed]
      · simp [hxi, hi]
    have := ih (upd ns x freed) nd.fwd (if nd.fwd = head then cb + 1 else cb)
      (if (x : Int) = head then true else beheaded) f h4 (by simpa using hf)
    simp only [erase_loop, hc, if_true, node_at_nat hnd, bind, Except.bind, toNat_natCast, hset,
      beq_iff_eq, this, free_all, List.any_cons]
    congr 2
    by_cases hx : (x : Int) = head <;> simp [hx]

theorem cursor_at_inj {cy : List Nat} (hnd : cy.Nodup) (hne : cy ≠ []) (b : Int) {q r : Nat}
    (hqr : q < r) :
    (cursor_at cy b q).node ≠ (cursor_at cy b r).node ∨
      (cursor_at cy b q).branch ≠ (cursor_at cy b r).branch := by
  have hpos : 0 < cy.length := List.length_pos.2 hne
  by_cases hs : slot cy q = slot cy r
  · right
    have hmod := slot_inj hnd hne hs
    have h1 := Nat.div_add_mod q cy.length
    have h2 := Nat.div_add_mod r cy.length
    have hlt : q / cy.length < r / cy.length := by
      by_contra hc
      have hle : r / cy.length ≤ q / cy.length := by omega
      have := Nat.mul_le_mul_left cy.length hle
      omega
    simp only [cursor_at]
    omega
  · left
    simp only [cursor_at]
    intro e
    exact hs (Int.ofNat_inj.1 e)

theorem Fwd.erase_trace_at {l : circular_list T} {cy : List Nat} (h : Fwd l cy) (hne : cy ≠ [])
    (b : Int) (a m : Nat) :
    ∀ (d t : Nat), t + d = m →
      erase_trace l.all_nodes l.head (cursor_at cy b (a + m))
        (cursor_at cy b (a + t)).node (cursor_at cy b (a + t)).branch
        ((List.range' (a + t) d).map (slot cy)) := by
  have hpos : 0 < cy.length := List.length_pos.2 hne
  intro d
  induction d with
  | zero =>
    intro t ht
    have : t = m := by omega
    subst this
    exact ⟨rfl, rfl⟩
  | succ d ih =>
    intro t ht
    obtain ⟨nd, hnd, -, hfwd, -⟩ := h.node_of_slot hne (a + t)
    refine ⟨rfl, cursor_at_inj h.nodup hne b (by omega), nd, hnd, ?_⟩
    have hdiv : ((a + t + 1) / cy.length : Nat)
        = (a + t) / cy.length + if (a + t + 1) % cy.length = 0 then 1 else 0 := by
      rw [Nat.succ_div]
      simp [Nat.dvd_iff_mod_eq_zero]
    have hhead : nd.fwd = l.head ↔ (a + t + 1) % cy.length = 0 := by
      rw [hfwd, head_eq_slot h.headed hne]
      constructor
      · intro e
        have := slot_inj h.nodup hne (Int.ofNat_inj.1 e)
        simpa using this
      · intro e
        rw [← slot_mod, e]
    have key := ih (t + 1) (by omega)
    have e1 : a + (t + 1) = a + t + 1 := by omega
    rw [e1] at key
    have e2 : (if nd.fwd = l.head then (cursor_at cy b (a + t)).branch + 1
        else (cursor_at cy b (a + t)).branch) = (cursor_at cy b (a + t + 1)).branch := by
      simp only [cursor_at, hdiv]
      by_cases hz : (a + t + 1) % cy.length = 0
      · simp [hhead.2 hz, hz]
        omega
      · have : ¬ nd.fwd = l.head := fun e => hz (hhead.1 e)
        simp [this, hz]
    rw [e2, hfwd]
    exact key

theorem range_map_slot (cy : List Nat) (hne : cy ≠ []) (a m : Nat) (hm : m ≤ cy.length) :
    (List.range' a m).map (slot cy) = (cy.rotate a).take m := by
  have hpos : 0 < cy.length := List.length_pos.2 hne
  apply List.ext_getElem?
  intro j
  by_cases hj : j < m
  · rw [List.getElem?_map, List.getElem?_take_of_lt hj, List.getElem?_rotate (by omega),
      List.getElem?_range' _ _ hj, Option.map_some', Nat.add_comm j a]
    simp [slot_get hne]
  · rw [List.getElem?_eq_none (by simp; omega), List.getElem?_eq_none (by simp; omega)]

/-! ## Cycles: rotation and cutting out a run -/

theorem get_lt {α : Type} {xs : List α} {p : Nat} {x : α} (h : xs[p]? = some x) : p < xs.length := by
  by_contra hc
  rw [List.getElem?_eq_none (by omega)] at h
  exact Option.noConfusion h

theorem nodup_get_inj {xs : List Nat} (hnd : xs.Nodup) {p q x : Nat}
    (hp : xs[p]? = some x) (hq : xs[q]? = some x) : p = q := by
  by_contra hc
  have hpl := get_lt hp
  have hql := get_lt hq
  rcases Nat.lt_or_gt_of_ne hc with hlt | hlt
  · exact List.nodup_iff_getElem?_ne_getElem?.1 hnd p q hlt hql (hp.trans hq.symm)
  · exact List.nodup_iff_getElem?_ne_getElem?.1 hnd q p hlt hpl (hq.trans hp.symm)

theorem Cyc.rotate {ns : List (node T)} {cy : List Nat} (h : Cyc ns cy) (k : Nat) :
    Cyc ns (cy.rotate k) := by
  have key : ∀ p x y : Nat, (cy.rotate k)[p]? = some x →
      (cy.rotate k)[(p + 1) % (cy.rotate k).length]? = some y →
      cy[(p + k) % cy.length]? = some x ∧ cy[((p + k) % cy.length + 1) % cy.length]? = some y := by
    intro p x y hx hy
    have hp : p < cy.length := by simpa using get_lt hx
    have hpos : 0 < cy.length := by omega
    rw [List.length_rotate] at hy
    rw [List.getElem?_rotate hp] at hx
    rw [List.getElem?_rotate (Nat.mod_lt _ hpos)] at hy
    have e : ((p + 1) % cy.length + k) % cy.length = ((p + k) % cy.length + 1) % cy.length := by
      rw [Nat.mod_add_mod, Nat.mod_add_mod]
      congr 1
      omega
    rw [e] at hy
    exact ⟨hx, hy⟩
  refine ⟨List.nodup_rotate.2 h.nodup, fun i => by rw [List.mem_rotate]; exact h.occ i, ?_, ?_⟩
  · intro p x y hx hy
    obtain ⟨h1, h2⟩ := key p x y hx hy
    exact h.fwd _ _ _ h1 h2
  · intro p x y hx hy
    obtain ⟨h1, h2⟩ := key p x y hx hy
    exact h.bwd _ _ _ h1 h2

/-- Cutting the run `es` out of the cycle `es ++ kept`: when the pool changes
as described by `relinked`, with `bf` the last and `lt` the first slot of
`kept`, the slots of `kept` form a cycle of the new pool. -/
theorem Cyc.relink {ns ns3 : List (node T)} {es kept : List Nat} (h : Cyc ns (es ++ kept))
    (bf lt : Nat) (hbf : kept ≠ [] → kept[kept.length - 1]? = some bf)
    (hlt : kept ≠ [] → kept[0]? = some lt)
    (h3 : ∀ i : Nat, ns3[i]? = (ns[i]?).map (relinked es bf lt i)) :
    Cyc ns3 kept := by
  have hnd := List.nodup_append.1 h.nodup
  have hdisj : ∀ i, i ∈ kept → i ∉ es := fun i hk he => hnd.2.2 he hk
  have hocc : ∀ i, i ∈ kept → ∃ nd, ns[i]? = some nd ∧ nd.free = false :=
    fun i hi => (h.occ i).1 (List.mem_append_right _ hi)
  have hidx : ∀ p : Nat, (es ++ kept)[es.length + p]? = kept[p]? := by
    intro p
    rw [List.getElem?_append_right (by omega)]
    congr 1
    omega
  have hstep : ∀ p x y : Nat, kept[p]? = some x → kept[p + 1]? = some y →
      (∃ nd, ns[x]? = some nd ∧ nd.fwd = (y : Int)) ∧ (∃ nd, ns[y]? = some nd ∧ nd.bwd = (x : Int)) := by
    intro p x y hx hy
    have hp := get_lt hy
    have e1 : (es ++ kept)[es.length + p]? = some x := by rw [hidx, hx]
    have e2 : (es ++ kept)[(es.length + p + 1) % (es ++ kept).length]? = some y := by
      rw [Nat.mod_eq_of_lt (by simp; omega), Nat.add_assoc, hidx, hy]
    exact ⟨h.fwd _ _ _ e1 e2, h.bwd _ _ _ e1 e2⟩
  refine ⟨hnd.2.1, ?_, ?_, ?_⟩
  · intro i
    rw [h3]
    constructor
    · intro hi
      obtain ⟨nd, hn, hf⟩ := hocc i hi
      exact ⟨_, by rw [hn]; rfl, by simp [relinked, hdisj i hi, hf]⟩
    · rintro ⟨nd3, hn3, hf3⟩
      cases hn : ns[i]? with
      | none => simp [hn] at hn3
      | some nd =>
        simp only [hn, Option.map_some', Option.some.injEq] at hn3
        subst hn3
        by_cases hie : i ∈ es
        · simp [relinked, hie] at hf3
        · simp only [relinked, hie, if_false] at hf3
          have := (h.occ i).2 ⟨nd, hn, hf3⟩
          rcases List.mem_append.1 this with h1 | h1
          · exact absurd h1 hie
          · exact h1
  · intro p x y hx hy
    have hp := get_lt hx
    have hkne : kept ≠ [] := fun e => by simp [e] at hp
    obtain ⟨nd, hn, -⟩ := hocc x (List.getElem?_mem hx)
    refine ⟨relinked es bf lt x nd, by rw [h3, hn]; rfl, ?_⟩
    by_cases hlast : p + 1 < kept.length
    · rw [Nat.mod_eq_of_lt hlast] at hy
      obtain ⟨⟨nd1, hn1, hf1⟩, -⟩ := hstep p x y hx hy
      rw [hn] at hn1
      cases hn1
      have hxbf : x ≠ bf := by
        intro e
        subst e
        have := nodup_get_inj hnd.2.1 hx (hbf hkne)
        omega
      simp [relinked, hxbf, hf1]
    · have hp1 : p + 1 = kept.length := by omega
      rw [hp1, Nat.mod_self, hlt hkne] at hy
      cases hy
      have hxbf : x = bf := by
        have e := hbf hkne
        have : kept.length - 1 = p := by omega
        rw [this, hx] at e
        exact Option.some.inj e
      simp [relinked, hxbf]
  · intro p x y hx hy
    have hp := get_lt hx
    have hkne : kept ≠ [] := fun e => by simp [e] at hp
    obtain ⟨nd, hn, -⟩ := hocc y (List.getElem?_mem hy)
    refine ⟨relinked es bf lt y nd, by rw [h3, hn]; rfl, ?_⟩
    by_cases hlast : p + 1 < kept.length
    · rw [Nat.mod_eq_of_lt hlast] at hy
      obtain ⟨-, ⟨nd1, hn1, hb1⟩⟩ := hstep p x y hx hy
      rw [hn] at hn1
      cases hn1
      have hylt : y ≠ lt := by
        intro e
        subst e
        have := nodup_get_inj hnd.2.1 hy (hlt hkne)
        omega
      simp [relinked, hylt, hb1]
    · have hp1 : p + 1 = kept.length := by omega
      rw [hp1, Nat.mod_self, hlt hkne] at hy
      cases hy
      have hxbf : x = bf := by
        have e := hbf hkne
        have : kept.length - 1 = p := by omega
        rw [this, hx] at e
        exact Option.some.inj e
      simp [relinked, hxbf]

/-- A change of head flags alone does not affect the cycle structure. -/
theorem Cyc.congr_flags {ns ns1 : List (node T)} {cy : List Nat} (h : Cyc ns cy)
    (hc : ∀ i : Nat, ∃ f : node T → node T, ns1[i]? = (ns[i]?).map f ∧
      ∀ nd, (f nd).fwd = nd.fwd ∧ (f nd).bwd = nd.bwd ∧ (f nd).free = nd.free) :
    Cyc ns1 cy := by
  have hto : ∀ (i : Nat) (nd : node T), ns[i]? = some nd →
      ∃ nd1, ns1[i]? = some nd1 ∧ nd1.fwd = nd.fwd ∧ nd1.bwd = nd.bwd ∧ nd1.free = nd.free := by
    intro i nd hn
    obtain ⟨f, hf, hp⟩ := hc i
    exact ⟨f nd, by rw [hf, hn]; rfl, hp nd⟩
  refine ⟨h.nodup, ?_, ?_, ?_⟩
  · intro i
    rw [h.occ i]
    constructor
    · rintro ⟨nd, hn, hf⟩
      obtain ⟨nd1, hn1, -, -, hfr⟩ := hto i nd hn
      exact ⟨nd1, hn1, by rw [hfr, hf]⟩
    · rintro ⟨nd1, hn1, hf1⟩
      obtain ⟨f, hf, hp⟩ := hc i
      cases hn : ns[i]? with
      | none => simp [hf, hn] at hn1
      | some nd =>
        simp only [hf, hn, Option.map_some', Option.some.injEq] at hn1
        subst hn1
        exact ⟨nd, rfl, by rw [← (hp nd).2.2, hf1]⟩
  · intro p x y hx hy
    obtain ⟨nd, hn, hf⟩ := h.fwd p x y hx hy
    obtain ⟨nd1, hn1, hfw, -, -⟩ := hto x nd hn
    exact ⟨nd1, hn1, by rw [hfw, hf]⟩
  · intro p x y hx hy
    obtain ⟨nd, hn, hf⟩ := h.bwd p x y hx hy
    obtain ⟨nd1, hn1, -, hbw, -⟩ := hto y nd hn
    exact ⟨nd1, hn1, by rw [hbw, hf]⟩

/-! ## The effect of `erase` on a well-formed ring -/

theorem mem_run_iff {cy : List Nat} (hnd : cy.Nodup) (hne : cy ≠ []) (a m q : Nat) :
    slot cy q ∈ (List.range' a m).map (slot cy) ↔
      ∃ t, t < m ∧ (a + t) % cy.length = q % cy.length := by
  simp only [List.mem_map, List.mem_range'_1]
  constructor
  · rintro ⟨p, ⟨hp1, hp2⟩, hs⟩
    refine ⟨p - a, by omega, ?_⟩
    rw [show a + (p - a) = p by omega]
    exact slot_inj hnd hne hs
  · rintro ⟨t, ht, he⟩
    exact ⟨a + t, ⟨by omega, by omega⟩, by rw [← slot_mod, he, slot_mod]⟩

theorem relinked_get (ns : List (node T)) (es : List Nat) (bf lt : Nat) (i : Nat) :
    (upd (upd (free_all es ns) lt (fun nd => { nd with bwd := (bf : Int) })) bf
      (fun nd => { nd with fwd := (lt : Int) }))[i]? = (ns[i]?).map (relinked es bf lt i) := by
  rw [upd_get, upd_get, free_all_get]
  cases ns[i]? with
  | none => simp
  | some nd =>
    by_cases h1 : bf = i <;> by_cases h2 : lt = i <;> by_cases h3 : i ∈ es <;>
      simp [relinked, freed, h1, h2, h3, eq_comm]

theorem head_mem_run_iff {cy : List Nat} (hnd : cy.Nodup) (hne : cy ≠ []) (a m : Nat)
    (ha : a < cy.length) (hm : m ≤ cy.length) :
    slot cy 0 ∈ (List.range' a m).map (slot cy) ↔ (a = 0 ∧ 0 < m) ∨ cy.length < a + m := by
  rw [mem_run_iff hnd hne]
  constructor
  · rintro ⟨t, ht, he⟩
    rw [Nat.zero_mod] at he
    by_cases h0 : a + t < cy.length
    · rw [Nat.mod_eq_of_lt h0] at he
      left
      omega
    · right
      have h1 : a + t - cy.length < cy.length := by omega
      have h2 : (a + t) % cy.length = a + t - cy.length := by
        rw [Nat.mod_eq_sub_mod (by omega), Nat.mod_eq_of_lt h1]
      omega
  · rintro (⟨h0, hpos⟩ | hgt)
    · exact ⟨0, hpos, by simp [h0]⟩
    · refine ⟨cy.length - a, by omega, ?_⟩
      rw [show a + (cy.length - a) = cy.length by omega]
      simp

theorem last_mem_run_iff {cy : List Nat} (hnd : cy.Nodup) (hne : cy ≠ []) (a m : Nat)
    (hm : m ≤ cy.length) :
    slot cy (a + m) ∈ (List.range' a m).map (slot cy) ↔ (m = cy.length) := by
  have hpos : 0 < cy.length := List.length_pos.2 hne
  rw [mem_run_iff hnd hne]
  constructor
  · rintro ⟨t, ht, he⟩
    by_contra hc
    have h1 := Nat.div_add_mod (a + t) cy.length
    have h2 := Nat.div_add_mod (a + m) cy.length
    have h3 : (a + t) / cy.length ≤ (a + m) / cy.length := Nat.div_le_div_right (by omega)
    rcases Nat.lt_or_ge ((a + t) / cy.length) ((a + m) / cy.length) with h4 | h4
    · have := Nat.mul_le_mul_left cy.length (Nat.succ_le_of_lt h4)
      rw [Nat.mul_succ] at this
      omega
    · have : (a + t) / cy.length = (a + m) / cy.length := by omega
      rw [this] at h1
      omega
  · intro e
    exact ⟨0, by omega, by rw [e]; simp⟩

theorem any_head_iff (es : List Nat) (x : Nat) :
    es.any (fun y => decide ((y : Int) = (x : Int))) = decide (x ∈ es) := by
  induction es with
  | nil => simp
  | cons y es ih =>
    simp only [List.any_cons, ih, List.mem_cons]
    by_cases h : y = x
    · simp [h]
    · have : ¬ x = y := fun e => h e.symm
      simp [h, this]

theorem erase_cycle_kept {cy : List Nat} (a m : Nat) (ha : a < cy.length)
    (hb : ¬ ((a = 0 ∧ 0 < m) ∨ cy.length < a + m)) :
    ((cy.rotate a).drop m).rotate (cy.length - a - m) = cy.take a ++ cy.drop (a + m) := by
  have hr : cy.rotate a = cy.drop a ++ cy.take a := List.rotate_eq_drop_append_take (by omega)
  have hm : m ≤ (cy.drop a).length := by simp; omega
  rw [hr, List.drop_append_of_le_length hm, List.drop_drop]
  have hl : (cy.drop (a + m)).length = cy.length - a - m := by simp; omega
  rw [← hl, List.rotate_append_length_eq]

theorem head_match_of_get {xs : List Nat} {x : Nat} :
    xs[0]? = some x →
    (match xs with
      | [] => (-1 : Int)
      | y :: _ => (y : Int)) = (x : Int) := by
  intro h
  cases xs with
  | nil => simp at h
  | cons y ys =>
    simp only [List.getElem?_cons_zero, Option.some.injEq] at h
    simp [h]

/-- The effect of `erase` before its final assertion, on a well-formed ring
with cycle `cy`: erasing the `m` positions from position `a` on leaves a
well-formed ring with cycle `erase_cycle cy a m`, the pool keeps its length and
every slot keeps its value. -/
theorem Rep.erase_core {l : circular_list T} {cy : List Nat} (h : Rep l cy) (hne : cy ≠ [])
    (b : Int) (a m fuel : Nat) (ha : a < cy.length) (hm : m ≤ cy.length) (hf : m < fuel) :
    ∃ l1, l.erase_core fuel (cursor_at cy b a) (cursor_at cy b (a + m)) = .ok l1 ∧
      Rep l1 (erase_cycle cy a m) ∧ l1.all_nodes.length = l.all_nodes.length ∧
      (∀ i, value_at l1.all_nodes i = value_at l.all_nodes i) ∧
      ((cursor_at cy b (a + m)).node = ((slot cy (a + m) : Nat) : Int)) ∧
      (m < cy.length → (a = 0 ∧ 0 < m) ∨ cy.length < a + m →
        l1.head = ((slot cy (a + m) : Nat) : Int)) ∧
      (¬ ((a = 0 ∧ 0 < m) ∨ cy.length < a + m) → l1.head = l.head) := by
  have hpos : 0 < cy.length := List.length_pos.2 hne
  have hF := h.toFwd
  -- the run of erased slots and the slots that stay
  let es := (List.range' a m).map (slot cy)
  let bf := slot cy (a + cy.length - 1)
  let lt := slot cy (a + m)
  have hes : es = (cy.rotate a).take m := range_map_slot cy hne a m hm
  have hsplit : es ++ (cy.rotate a).drop m = cy.rotate a := by rw [hes, List.take_append_drop]
  have hcyc : Cyc l.all_nodes (es ++ (cy.rotate a).drop m) := by rw [hsplit]; exact h.cyc.rotate a
  -- the assertion
  have hassert : assert (decide ((cursor_at cy b (a + m)).branch = (cursor_at cy b a).branch) ||
      decide ((cursor_at cy b (a + m)).branch = (cursor_at cy b a).branch + 1)) = .ok () := by
    have h1 : a / cy.length = 0 := Nat.div_eq_of_lt ha
    have h2 : (a + m) / cy.length = 0 ∨ (a + m) / cy.length = 1 := by
      by_cases hlt : a + m < cy.length
      · left; exact Nat.div_eq_of_lt hlt
      · right
        have : a + m = (a + m - cy.length) + cy.length := by omega
        rw [this, Nat.add_div_right _ hpos, Nat.div_eq_of_lt (by omega)]
    rcases h2 with h2 | h2 <;> simp [assert, cursor_at, h1, h2]
  -- the node before the first
  obtain ⟨fnd, hfnd, -, hfbwd, -⟩ := h.node_bwd_of_slot hne (a + cy.length - 1)
  have hsa : slot cy (a + cy.length - 1 + 1) = slot cy a := by
    rw [show a + cy.length - 1 + 1 = a + cy.length by omega]
    simp [slot]
  rw [hsa] at hfnd
  -- the freeing walk
  have htrace := hF.erase_trace_at hne b a m m 0 (by omega)
  have hloop := erase_loop_spec l.head (cursor_at cy b (a + m)) _ l.all_nodes _ _ false fuel htrace
    (by simpa using hf)
  rw [Nat.add_zero] at hloop
  have hany : (es.any fun x => decide ((x : Int) = l.head)) = decide (slot cy 0 ∈ es) := by
    rw [head_eq_slot h.headed hne]
    exact any_head_iff es (slot cy 0)
  -- the two writes of the reconnection
  obtain ⟨lnd, hlnd, -⟩ := (h.cyc.occ lt).1 (slot_mem hne (a + m))
  have hlnd1 : (free_all es l.all_nodes)[lt]? = some (if lt ∈ es then freed lnd else lnd) := by
    rw [free_all_get, hlnd]; rfl
  obtain ⟨bnd, hbnd, -⟩ := (h.cyc.occ bf).1 (slot_mem hne (a + cy.length - 1))
  obtain ⟨bnd2, hbnd2⟩ : ∃ nd2, (upd (free_all es l.all_nodes) lt
      (fun nd => { nd with bwd := (bf : Int) }))[bf]? = some nd2 := by
    rw [upd_get, free_all_get, hbnd]
    by_cases hx : lt = bf <;> simp [hx]
  have hset2 := set_eq_upd hlnd1 (fun nd => { nd with bwd := (bf : Int) })
  have hset3 := set_eq_upd hbnd2 (fun nd => { nd with fwd := (lt : Int) })
  have hpt := relinked_get l.all_nodes es bf lt
  have hlnd3 := hpt lt
  rw [hlnd] at hlnd3
  have hkept : Cyc (upd (upd (free_all es l.all_nodes) lt (fun nd => { nd with bwd := (bf : Int) }))
      bf (fun nd => { nd with fwd := (lt : Int) })) ((cy.rotate a).drop m) := by
    refine hcyc.relink bf lt ?_ ?_ hpt
    · intro hk
      have hlen : ((cy.rotate a).drop m).length = cy.length - m := by simp
      have hmlt : m < cy.length := by
        by_contra hc
        exact hk (List.length_eq_zero.1 (by omega))
      rw [List.getElem?_drop, hlen, List.getElem?_rotate (by omega)]
      have e : (m + (cy.length - m - 1) + a) % cy.length = (a + cy.length - 1) % cy.length := by
        congr 1; omega
      rw [e]
      exact slot_get hne _
    · intro hk
      have hlen : ((cy.rotate a).drop m).length = cy.length - m := by simp
      have hmlt : m < cy.length := by
        by_contra hc
        exact hk (List.length_eq_zero.1 (by omega))
      rw [List.getElem?_drop, List.getElem?_rotate (by omega)]
      have e : (m + 0 + a) % cy.length = (a + m) % cy.length := by congr 1; omega
      rw [e]
      exact slot_get hne _
  have hflag := h.headed.flag
  have hhead := head_eq_slot h.headed hne
  have hbeh := head_mem_run_iff h.cyc.nodup hne a m ha hm
  have hlast := last_mem_run_iff h.cyc.nodup hne a m hm
  have hval : ∀ i, value_at (upd (upd (free_all es l.all_nodes) lt
      (fun nd => { nd with bwd := (bf : Int) })) bf (fun nd => { nd with fwd := (lt : Int) })) i
      = value_at l.all_nodes i := by
    intro i
    rw [value_at, hpt, value_at]
    cases l.all_nodes[i]? <;> simp [relinked]
  -- evaluate the code up to the head fix
  have hnode_last : node_at (upd (upd (free_all es l.all_nodes) lt
      (fun nd => { nd with bwd := (bf : Int) })) bf (fun nd => { nd with fwd := (lt : Int) }))
      ((lt : Nat) : Int) = .ok (relinked es bf lt lt lnd) := node_at_nat hlnd3
  have hnode1 : node_at (free_all es l.all_nodes) ((lt : Nat) : Int)
      = .ok (if lt ∈ es then freed lnd else lnd) := node_at_nat hlnd1
  have hnode0 : node_at l.all_nodes (cursor_at cy b a).node = .ok fnd := node_at_nat hfnd
  have hnodebf : node_at (upd (free_all es l.all_nodes) lt (fun nd => { nd with bwd := (bf : Int) }))
      ((bf : Nat) : Int) = .ok bnd2 := node_at_nat hbnd2
  have hlt_node : (cursor_at cy b (a + m)).node = ((lt : Nat) : Int) := rfl
  have hfb : fnd.bwd = ((bf : Nat) : Int) := hfbwd
  simp only [circular_list.erase_core, hassert, hnode0, hloop, hlt_node, hnode1, hfb, hset2,
    hnodebf, toNat_natCast, hset3, hnode_last, hany, bind, Except.bind, pure, Except.pure,
    Bool.false_or]
  generalize hns3 : upd (upd (free_all es l.all_nodes) lt (fun nd => { nd with bwd := (bf : Int) }))
      bf (fun nd => { nd with fwd := (lt : Int) }) = ns3 at *
  have hlen3 : ns3.length = l.all_nodes.length := by
    rw [← hns3, upd_length, upd_length, free_all_length]
  have hflag3 : ∀ (i : Nat) (nd3 : node T), ns3[i]? = some nd3 →
      (nd3.is_head = true ↔ (i ∉ es ∧ (i : Int) = l.head)) := by
    intro i nd3 hn3
    rw [hpt] at hn3
    cases hn : l.all_nodes[i]? with
    | none => simp [hn] at hn3
    | some nd =>
      simp only [hn, Option.map_some', Option.some.injEq] at hn3
      subst hn3
      have := hflag i nd hn
      by_cases hie : i ∈ es <;> simp [relinked, hie, this]
  by_cases hB : slot cy 0 ∈ es
  · have hB2 := hbeh.1 hB
    have hcycle : erase_cycle cy a m = (cy.rotate a).drop m := by simp [erase_cycle, hB2]
    by_cases hL : lt ∈ es
    · have hmn : m = cy.length := hlast.1 hL
      have hnil : (cy.rotate a).drop m = [] := by
        apply List.drop_of_length_le
        simp [hmn]
      refine ⟨⟨-1, ns3⟩, by simp [hB, relinked, hL], ?_, hlen3, hval, trivial, ?_, ?_⟩
      · rw [hcycle, hnil]
        rw [hnil] at hkept
        refine ⟨hkept, rfl, ?_⟩
        intro i nd3 hn3
        rw [hflag3 i nd3 hn3]
        constructor
        · rintro ⟨hie, he⟩
          exfalso
          rw [hhead] at he
          have := Int.ofNat_inj.1 he
          rw [this] at hie
          exact hie hB
        · intro he
          exfalso
          have : (0 : Int) ≤ (i : Int) := Int.ofNat_nonneg i
          change (i : Int) = -1 at he
          omega
      · intro hlt2; omega
      · intro hnb; exact absurd hB2 hnb
    · have hmn : m < cy.length := by
        rcases Nat.lt_or_ge m cy.length with hlt2 | hge
        · exact hlt2
        · exact absurd (hlast.2 (by omega)) hL
      have hset4 := set_eq_upd hlnd3 (fun nd => { nd with is_head := true })
      have hk0 : ((cy.rotate a).drop m)[0]? = some lt := by
        rw [List.getElem?_drop, List.getElem?_rotate (by omega)]
        have e : (m + 0 + a) % cy.length = (a + m) % cy.length := by congr 1; omega
        rw [e]
        exact slot_get hne _
      refine ⟨⟨(lt : Int), upd ns3 lt (fun nd => { nd with is_head := true })⟩, ?_, ?_, ?_, ?_,
        trivial, fun _ _ => rfl, fun hnb => absurd hB2 hnb⟩
      · simp only [hB, decide_True, if_true, relinked, hL, if_false]
        have hfree : lnd.free = false := by
          obtain ⟨nd, hn, hfr⟩ := (h.cyc.occ lt).1 (slot_mem hne (a + m))
          rw [hlnd] at hn
          cases hn
          exact hfr
        rw [← hset4]
        simp [relinked, hL, hfree]
      · rw [hcycle]
        refine ⟨hkept.congr_flags ?_, ?_, ?_⟩
        · intro i
          refine ⟨fun nd => if lt = i then { nd with is_head := true } else nd, ?_, ?_⟩
          · rw [upd_get]
            by_cases hx : lt = i
            · simp [hx]
            · simp [hx]
          · intro nd
            by_cases hx : lt = i <;> simp [hx]
        · exact (head_match_of_get hk0).symm
        · intro i nd4 hn4
          rw [upd_get] at hn4
          by_cases hx : lt = i
          · subst hx
            rw [if_pos rfl, hlnd3] at hn4
            simp only [Option.map_some', Option.some.injEq] at hn4
            subst hn4
            simp
          · rw [if_neg hx] at hn4
            rw [hflag3 i nd4 hn4]
            constructor
            · rintro ⟨hie, he⟩
              exfalso
              rw [hhead] at he
              have := Int.ofNat_inj.1 he
              rw [this] at hie
              exact hie hB
            · intro he
              exact absurd (Int.ofNat_inj.1 he).symm hx
      · rw [upd_length, hlen3]
      · intro i
        rw [← hval i, value_at, upd_get, value_at]
        by_cases hx : lt = i
        · cases ns3[i]? <;> simp [hx]
        · simp [hx]
  · have hB2 : ¬ ((a = 0 ∧ 0 < m) ∨ cy.length < a + m) := fun hc => hB (hbeh.2 hc)
    have hcycle : erase_cycle cy a m = ((cy.rotate a).drop m).rotate (cy.length - a - m) := by
      rw [erase_cycle_kept a m ha hB2]
      simp [erase_cycle, hB2]
    refine ⟨⟨l.head, ns3⟩, by simp [hB], ?_, hlen3, hval, trivial, fun _ hc => absurd hc hB2,
      fun _ => rfl⟩
    rw [hcycle]
    refine ⟨hkept.rotate _, ?_, ?_⟩
    · rw [erase_cycle_kept a m ha hB2, hhead]
      refine (head_match_of_get ?_).symm
      have h0 := slot_get hne 0
      rw [Nat.zero_mod] at h0
      by_cases ha0 : a = 0
      · have hm0 : m = 0 := by
          by_contra hc
          exact hB2 (Or.inl ⟨ha0, by omega⟩)
        subst ha0
        subst hm0
        simpa using h0
      · rw [List.getElem?_append_left (by simp; omega), List.getElem?_take_of_lt (by omega)]
        exact h0
    · intro i nd3 hn3
      rw [hflag3 i nd3 hn3]
      constructor
      · exact fun hh => hh.2
      · intro he
        refine ⟨?_, he⟩
        intro hie
        rw [hhead] at he
        have := Int.ofNat_inj.1 he
        rw [this] at hie
        exact hB hie

theorem Cyc.length_le {ns : List (node T)} {cy : List Nat} (h : Cyc ns cy) :
    cy.length ≤ ns.length := by
  have hsub : cy ⊆ List.range ns.length := by
    intro i hi
    obtain ⟨nd, hn, -⟩ := (h.occ i).1 hi
    exact List.mem_range.2 (get_lt hn)
  have := (h.nodup.subperm hsub).length_le
  simpa using this

theorem erase_cycle_mem {cy : List Nat} (a m : Nat) (ha : a < cy.length) (i : Nat) :
    i ∈ erase_cycle cy a m ↔ i ∈ (cy.rotate a).drop m := by
  by_cases hb : (a = 0 ∧ 0 < m) ∨ cy.length < a + m
  · simp [erase_cycle, hb]
  · have e : erase_cycle cy a m = ((cy.rotate a).drop m).rotate (cy.length - a - m) := by
      rw [erase_cycle_kept a m ha hb]
      simp [erase_cycle, hb]
    rw [e, List.mem_rotate]

theorem erase_cycle_length {cy : List Nat} (a m : Nat) (ha : a < cy.length) :
    (erase_cycle cy a m).length = cy.length - m := by
  by_cases hb : (a = 0 ∧ 0 < m) ∨ cy.length < a + m
  · simp [erase_cycle, hb]
  · have := congrArg List.length (erase_cycle_kept a m ha hb)
    simp only [List.length_rotate, List.length_drop] at this
    simp only [erase_cycle, hb, if_false]
    omega

/-- The member `erase` on a well-formed ring with cycle `cy`: the call returns,
the final assertion holds, the ring left is well-formed with cycle
`erase_cycle cy a m`, and the iterator returned is `last_it` when its slot
survives and `end()` of the new ring otherwise. -/
theorem Rep.erase {l : circular_list T} {cy : List Nat} (h : Rep l cy) (hne : cy ≠ [])
    (b : Int) (a m fuel : Nat) (ha : a < cy.length) (hm : m ≤ cy.length)
    (hf : cy.length < fuel) :
    ∃ l1, l.erase fuel (cursor_at cy b a) (cursor_at cy b (a + m)) =
        .ok (l1, if m < cy.length then cursor_at cy b (a + m) else l1.end_) ∧
      Rep l1 (erase_cycle cy a m) ∧ l1.all_nodes.length = l.all_nodes.length ∧
      (∀ i, value_at l1.all_nodes i = value_at l.all_nodes i) ∧
      (m < cy.length → (a = 0 ∧ 0 < m) ∨ cy.length < a + m →
        l1.head = ((slot cy (a + m) : Nat) : Int)) ∧
      (¬ ((a = 0 ∧ 0 < m) ∨ cy.length < a + m) → l1.head = l.head) := by
  obtain ⟨l1, hcore, hrep, hlen, hval, -, hh1, hh2⟩ :=
    h.erase_core hne b a m fuel ha hm (by omega)
  refine ⟨l1, ?_, hrep, hlen, hval, hh1, hh2⟩
  have hcons : l1._list_is_consistent fuel = .ok true :=
    hrep.consistent (by rw [erase_cycle_length a m ha]; omega)
  have hin : slot cy (a + m) < l1.all_nodes.length := by
    obtain ⟨nd, hn, -⟩ := (h.cyc.occ _).1 (slot_mem hne (a + m))
    rw [hlen]
    exact get_lt hn
  obtain ⟨nd1, hn1⟩ : ∃ nd1, l1.all_nodes[slot cy (a + m)]? = some nd1 :=
    ⟨_, List.getElem?_eq_getElem hin⟩
  have hnode : node_at l1.all_nodes (cursor_at cy b (a + m)).node = .ok nd1 := node_at_nat hn1
  have hfree : nd1.free = false ↔ m < cy.length := by
    have hocc := hrep.cyc.occ (slot cy (a + m))
    rw [erase_cycle_mem a m ha] at hocc
    constructor
    · intro hfr
      have hmem := hocc.2 ⟨nd1, hn1, hfr⟩
      by_contra hc
      rw [List.drop_of_length_le (by simp; omega)] at hmem
      simp at hmem
    · intro hlt
      have hk0 : ((cy.rotate a).drop m)[0]? = some (slot cy (a + m)) := by
        rw [List.getElem?_drop, List.getElem?_rotate (by omega)]
        have e : (m + 0 + a) % cy.length = (a + m) % cy.length := by congr 1; omega
        rw [e]
        exact slot_get hne _
      obtain ⟨nd2, hn2, hfr⟩ := hocc.1 (List.getElem?_mem hk0)
      rw [hn1] at hn2
      cases hn2
      exact hfr
  simp only [circular_list.erase, hcore, hcons, assert, hnode, bind, Except.bind, pure,
    Except.pure, if_true]
  by_cases hlt : m < cy.length
  · simp [hfree.2 hlt, hlt]
  · have : nd1.free = true := by
      cases hx : nd1.free
      · exact absurd (hfree.1 hx) hlt
      · rfl
    simp [this, hlt]

theorem erase_cycle_within {cy : List Nat} (i j : Nat) (hij : i ≤ j) (hj : j ≤ cy.length) :
    erase_cycle cy i (j - i) = cy.take i ++ cy.drop j := by
  by_cases hb : (i = 0 ∧ 0 < j - i) ∨ cy.length < i + (j - i)
  · rcases hb with ⟨h0, -⟩ | hb
    · subst h0
      simp [erase_cycle]
    · omega
  · have : i + (j - i) = j := by omega
    simp only [erase_cycle, hb, if_false]
    rw [this]

theorem erase_cycle_wrap {cy : List Nat} (i j : Nat) (hi : i < cy.length) (hn : cy.length < j) :
    erase_cycle cy i (j - i) = (cy.take i).drop (j - cy.length) := by
  have hb : (i = 0 ∧ 0 < j - i) ∨ cy.length < i + (j - i) := Or.inr (by omega)
  simp only [erase_cycle, hb, if_true]
  rw [List.rotate_eq_drop_append_take (by omega), List.drop_append_eq_append_drop]
  have h1 : (cy.drop i).drop (j - i) = [] := by
    apply List.drop_of_length_le
    simp
    omega
  have h2 : j - i - (cy.drop i).length = j - cy.length := by simp; omega
  rw [h1, h2, List.nil_append]

theorem Rep.nonempty_iff {l : circular_list T} {cy : List Nat} (h : Rep l cy) {L : List T}
    (hV : cy.map (value_at l.all_nodes) = L.map some) : cy ≠ [] ↔ L ≠ [] := by
  have := values_length hV
  constructor
  · intro hc e
    subst e
    exact hc (List.length_eq_zero.1 (by simpa using this.symm))
  · intro hc e
    subst e
    exact hc (List.length_eq_zero.1 (by simpa using this))


theorem Rep.empty_iff {l : circular_list T} {cy : List Nat} (h : Rep l cy) :
    l.empty = true ↔ cy = [] := by
  constructor
  · intro he
    by_contra hc
    have := head_eq_slot h.headed hc
    simp [circular_list.empty, this] at he
    omega
  · intro e
    subst e
    simp [circular_list.empty, head_of_nil h.headed]

theorem of_vector_wf (S : List T) (hne : S ≠ []) (hlt : S.length < 2 ^ 63) :
    well_formed (circular_list.of_vector S) :=
  ⟨_, of_vector_rep S hne hlt⟩

theorem mk_empty_wf : well_formed (circular_list.mk_empty : circular_list T) :=
  ⟨_, mk_empty_rep⟩

/-! ## The free-slot scan of `insert` -/

theorem find_free_spec [Inhabited T] (rem : Nat) (hrem : 0 < rem) :
    ∀ (fuel : Nat) (ns : List (node T)) (nf : Nat), nf < ns.length → ns.length - nf < fuel →
      ∃ (E : List (node T)) (k : Nat), find_free rem fuel ns (nf : Int) = .ok (E, (k : Int)) ∧
        nf ≤ k ∧ (∃ nd, E[k]? = some nd ∧ nd.free = true) ∧
        (∀ i, nf ≤ i → i < k → ∃ nd, ns[i]? = some nd ∧ nd.free = false) ∧
        (∀ (i : Nat) (nd : node T), ns[i]? = some nd → E[i]? = some nd) ∧
        (∀ (i : Nat) (nd : node T), E[i]? = some nd →
          ns[i]? = some nd ∨ (ns.length ≤ i ∧ nd = fresh_node)) ∧
        ns.length ≤ E.length ∧
        (E = ns ∨ (k = ns.length ∧ E = ns ++ List.replicate rem fresh_node)) := by
  intro fuel
  induction fuel with
  | zero => intro ns nf h1 h2; omega
  | succ f ih =>
    intro ns nf hlt hf
    obtain ⟨nd, hnd⟩ : ∃ nd, ns[nf]? = some nd := ⟨_, List.getElem?_eq_getElem hlt⟩
    cases hfr : nd.free with
    | true =>
      refine ⟨ns, nf, ?_, le_refl _, ⟨nd, hnd, hfr⟩, ?_, fun _ _ h => h, fun _ _ h => Or.inl h,
        le_refl _, Or.inl rfl⟩
      · simp [find_free, node_at_nat hnd, hfr, bind, Except.bind, pure, Except.pure]
      · intro i h1 h2; omega
    | false =>
      have hcast : ((nf : Int) + 1) = ((nf + 1 : Nat) : Int) := by push_cast; rfl
      by_cases hend : nf + 1 = ns.length
      · obtain ⟨f1, rfl⟩ : ∃ f1, f = f1 + 1 := ⟨f - 1, by omega⟩
        have hfresh : (ns ++ List.replicate rem (fresh_node : node T))[nf + 1]? = some fresh_node := by
          rw [List.getElem?_append_right (by omega)]
          have : nf + 1 - ns.length = 0 := by omega
          rw [this]
          cases rem with
          | zero => omega
          | succ r => simp [List.replicate]
        have hbeq : (((nf + 1 : Nat) : Int) == (ns.length : Int)) = true := by
          rw [hend]; simp
        refine ⟨ns ++ List.replicate rem fresh_node, nf + 1, ?_, by omega,
          ⟨fresh_node, hfresh, rfl⟩, ?_, ?_, ?_, by simp, Or.inr ⟨hend, rfl⟩⟩
        · simp only [find_free, node_at_nat hnd, hfr, hcast, hbeq, node_at_nat hfresh, bind,
            Except.bind, pure, Except.pure, Bool.not_false, if_true]
          simp [fresh_node]
        · intro i h1 h2
          have : i = nf := by omega
          subst this
          exact ⟨nd, hnd, hfr⟩
        · intro i ndi hi
          rw [List.getElem?_append_left (get_lt hi)]
          exact hi
        · intro i ndi hi
          by_cases hil : i < ns.length
          · rw [List.getElem?_append_left hil] at hi
            exact Or.inl hi
          · right
            rw [List.getElem?_append_right (by omega)] at hi
            have := List.getElem?_mem hi
            exact ⟨by omega, List.eq_of_mem_replicate this⟩
      · have hbeq : (((nf + 1 : Nat) : Int) == (ns.length : Int)) = false := by
          simp only [beq_eq_false_iff_ne, ne_eq, Nat.cast_inj]
          exact hend
        obtain ⟨E, k, h1, h2, h3, h4, h5, h6, h7, h8⟩ := ih ns (nf + 1) (by omega) (by omega)
        refine ⟨E, k, ?_, by omega, h3, ?_, h5, h6, h7, h8⟩
        · simp only [find_free, node_at_nat hnd, hfr, hcast, hbeq, bind, Except.bind,
            Bool.not_false, if_true]
          exact h1
        · intro i hi1 hi2
          by_cases hi : i = nf
          · subst hi
            exact ⟨nd, hnd, hfr⟩
          · exact h4 i (by omega) hi2

/-! ## One iteration of the loop of `insert` -/

theorem spliced_get (E : List (node T)) (k lastN : Nat) (v : T) (i : Nat) :
    (upd (upd E k (fun nd => { nd with free := false, value := v, bwd := (lastN : Int) })) lastN
      (fun nd => { nd with fwd := (k : Int) }))[i]? = (E[i]?).map (spliced k lastN v i) := by
  rw [upd_get, upd_get]
  cases E[i]? with
  | none => simp
  | some nd =>
    by_cases h1 : lastN = i <;> by_cases h2 : k = i <;> simp [spliced, h1, h2, eq_comm]

theorem reheaded_get (ns : List (node T)) (k posN : Nat) (i : Nat) :
    (upd (upd ns posN (fun nd => { nd with is_head := false })) k
      (fun nd => { nd with is_head := true }))[i]? = (ns[i]?).map (reheaded k posN i) := by
  rw [upd_get, upd_get]
  cases ns[i]? with
  | none => simp
  | some nd =>
    by_cases h1 : posN = i <;> by_cases h2 : k = i <;> simp [reheaded, h1, h2, eq_comm]

theorem Cyc.toLin {ns : List (node T)} {cy : List Nat} (h : Cyc ns cy) : Lin ns cy := by
  refine ⟨h.nodup, h.occ, ?_, ?_⟩
  · intro p x y hx hy
    have := get_lt hy
    exact h.fwd p x y hx (by rw [Nat.mod_eq_of_lt this]; exact hy)
  · intro p x y hx hy
    have := get_lt hy
    exact h.bwd p x y hx (by rw [Nat.mod_eq_of_lt this]; exact hy)

/-- Splicing a free slot `k` after the last slot of a chain extends the chain. -/
theorem Lin.splice [Inhabited T] {ns E ns2 : List (node T)} {s : List Nat} (h : Lin ns s)
    (k lastN : Nat) (v : T)
    (hlast : s[s.length - 1]? = some lastN)
    (hk : ∃ nd, E[k]? = some nd ∧ nd.free = true)
    (hE1 : ∀ (i : Nat) (nd : node T), ns[i]? = some nd → E[i]? = some nd)
    (hE2 : ∀ (i : Nat) (nd : node T), E[i]? = some nd →
      ns[i]? = some nd ∨ (ns.length ≤ i ∧ nd = fresh_node))
    (h2 : ∀ i : Nat, ns2[i]? = (E[i]?).map (spliced k lastN v i)) :
    Lin ns2 (s ++ [k]) ∧ k ∉ s := by
  obtain ⟨knd, hknd, hkfree⟩ := hk
  have hks : k ∉ s := by
    intro hmem
    obtain ⟨nd, hn, hf⟩ := (h.occ k).1 hmem
    have := hE1 k nd hn
    rw [hknd] at this
    cases this
    rw [hkfree] at hf
    exact Bool.noConfusion hf
  have hoccE : ∀ i, i ∈ s ↔ ∃ nd, E[i]? = some nd ∧ nd.free = false := by
    intro i
    constructor
    · intro hi
      obtain ⟨nd, hn, hf⟩ := (h.occ i).1 hi
      exact ⟨nd, hE1 i nd hn, hf⟩
    · rintro ⟨nd, hn, hf⟩
      rcases hE2 i nd hn with h1 | ⟨-, h1⟩
      · exact (h.occ i).2 ⟨nd, h1, hf⟩
      · subst h1
        simp [fresh_node] at hf
  have hlen : (s ++ [k]).length = s.length + 1 := by simp
  have hidx : ∀ p x : Nat, (s ++ [k])[p]? = some x → (p < s.length ∧ s[p]? = some x) ∨
      (p = s.length ∧ x = k) := by
    intro p x hx
    have hp := get_lt hx
    rw [hlen] at hp
    by_cases hps : p < s.length
    · left
      rw [List.getElem?_append_left hps] at hx
      exact ⟨hps, hx⟩
    · right
      have : p = s.length := by omega
      subst this
      simp at hx
      exact ⟨rfl, hx.symm⟩
  refine ⟨⟨?_, ?_, ?_, ?_⟩, hks⟩
  · rw [List.nodup_append]
    refine ⟨h.nodup, List.nodup_singleton k, ?_⟩
    intro a ha hb
    rw [List.mem_singleton] at hb
    subst hb
    exact hks ha
  · intro i
    rw [h2, List.mem_append, List.mem_singleton]
    constructor
    · rintro (hi | hi)
      · obtain ⟨nd, hn, hf⟩ := (hoccE i).1 hi
        have hik : i ≠ k := fun e => hks (e ▸ hi)
        exact ⟨_, by rw [hn]; rfl, by simp [spliced, hik, hf]⟩
      · subst hi
        exact ⟨_, by rw [hknd]; rfl, by simp [spliced]⟩
    · rintro ⟨nd2, hn2, hf2⟩
      cases hn : E[i]? with
      | none => simp [hn] at hn2
      | some nd =>
        simp only [hn, Option.map_some', Option.some.injEq] at hn2
        subst hn2
        by_cases hik : i = k
        · exact Or.inr hik
        · left
          simp only [spliced, hik, if_false] at hf2
          exact (hoccE i).2 ⟨nd, hn, hf2⟩
  · intro p x y hx hy
    rcases hidx p x hx with ⟨hps, hxs⟩ | ⟨hps, -⟩
    · obtain ⟨ndx, hnx, -⟩ := (hoccE x).1 (List.getElem?_mem hxs)
      refine ⟨_, by rw [h2, hnx]; rfl, ?_⟩
      rcases hidx (p + 1) y hy with ⟨hps1, hys⟩ | ⟨hps1, hyk⟩
      · obtain ⟨nd, hn, hf⟩ := h.fwd p x y hxs hys
        have := hE1 x nd hn
        rw [hnx] at this
        cases this
        have hxl : x ≠ lastN := by
          intro e
          subst e
          have := nodup_get_inj h.nodup hxs hlast
          omega
        simp [spliced, hxl, hf]
      · have hxl : x = lastN := by
          have : s.length - 1 = p := by omega
          rw [this, hxs] at hlast
          exact Option.some.inj hlast
        simp [spliced, hxl, hyk]
    · have := get_lt hy
      omega
  · intro p x y hx hy
    rcases hidx p x hx with ⟨hps, hxs⟩ | ⟨hps, -⟩
    · rcases hidx (p + 1) y hy with ⟨hps1, hys⟩ | ⟨hps1, hyk⟩
      · obtain ⟨ndy, hny, -⟩ := (hoccE y).1 (List.getElem?_mem hys)
        refine ⟨_, by rw [h2, hny]; rfl, ?_⟩
        obtain ⟨nd, hn, hb⟩ := h.bwd p x y hxs hys
        have := hE1 y nd hn
        rw [hny] at this
        cases this
        have hyk : y ≠ k := fun e => hks (e ▸ List.getElem?_mem hys)
        simp [spliced, hyk, hb]
      · subst hyk
        refine ⟨_, by rw [h2, hknd]; rfl, ?_⟩
        have hxl : x = lastN := by
          have : s.length - 1 = p := by omega
          rw [this, hxs] at hlast
          exact Option.some.inj hlast
        simp [spliced, hxl]
    · have := get_lt hy
      omega

/-- A change of head flags alone does not affect a chain. -/
theorem Lin.congr_chain {ns ns1 : List (node T)} {s : List Nat} (h : Lin ns s)
    (hc : ∀ i : Nat, ∃ f : node T → node T, ns1[i]? = (ns[i]?).map f ∧
      ∀ nd, (f nd).fwd = nd.fwd ∧ (f nd).bwd = nd.bwd ∧ (f nd).free = nd.free) :
    Lin ns1 s := by
  have hto : ∀ (i : Nat) (nd : node T), ns[i]? = some nd →
      ∃ nd1, ns1[i]? = some nd1 ∧ nd1.fwd = nd.fwd ∧ nd1.bwd = nd.bwd ∧ nd1.free = nd.free := by
    intro i nd hn
    obtain ⟨f, hf, hp⟩ := hc i
    exact ⟨f nd, by rw [hf, hn]; rfl, hp nd⟩
  refine ⟨h.nodup, ?_, ?_, ?_⟩
  · intro i
    rw [h.occ i]
    constructor
    · rintro ⟨nd, hn, hf⟩
      obtain ⟨nd1, hn1, -, -, hfr⟩ := hto i nd hn
      exact ⟨nd1, hn1, by rw [hfr, hf]⟩
    · rintro ⟨nd1, hn1, hf1⟩
      obtain ⟨f, hf, hp⟩ := hc i
      cases hn : ns[i]? with
      | none => simp [hf, hn] at hn1
      | some nd =>
        simp only [hf, hn, Option.map_some', Option.some.injEq] at hn1
        subst hn1
        exact ⟨nd, rfl, by rw [← (hp nd).2.2, hf1]⟩
  · intro p x y hx hy
    obtain ⟨nd, hn, hf⟩ := h.fwd p x y hx hy
    obtain ⟨nd1, hn1, hfw, -, -⟩ := hto x nd hn
    exact ⟨nd1, hn1, by rw [hfw, hf]⟩
  · intro p x y hx hy
    obtain ⟨nd, hn, hf⟩ := h.bwd p x y hx hy
    obtain ⟨nd1, hn1, -, hbw, -⟩ := hto y nd hn
    exact ⟨nd1, hn1, by rw [hbw, hf]⟩

theorem insert_step [Inhabited T] {r : List Nat} {ns0 : List (node T)} {head0 : Int} {ah : Bool}
    {news : List Nat} {done : List T} {l : circular_list T} {lastN nf : Nat}
    (hinv : InsInv r ns0 head0 ah news done l lastN nf)
    (pos : generic_iterator) (posN : Nat) (hposN : pos.node = (posN : Int))
    (hr0 : r[0]? = some posN)
    (hah : ah = (decide ((posN : Int) = head0) && decide (pos.branch = 0)))
    (v : T) (vs : List T) (fuel : Nat) (hf : l.all_nodes.length - nf < fuel)
    (hf2 : vs.length + 1 < fuel) (hlen : InsLen ns0 news l.all_nodes nf (vs.length + 1)) :
    ∃ (l1 : circular_list T) (k : Nat),
      insert_loop pos fuel (v :: vs) l (lastN : Int) (nf : Int)
        = insert_loop pos fuel vs l1 (k : Int) (k : Int) ∧
      InsInv r ns0 head0 ah (news ++ [k]) (done ++ [v]) l1 k k ∧
      l1.all_nodes.length - k < fuel ∧
      InsLen ns0 (news ++ [k]) l1.all_nodes k vs.length := by
  obtain ⟨E, k, hfind, hnfk, ⟨knd, hknd, hkfree⟩, hscan, hE1, hE2, hElen, hEform⟩ :=
    find_free_spec (vs.length + 1) (by omega) fuel l.all_nodes nf hinv.nf_lt hf
  have hEk : E.length - k < fuel := by
    rcases hEform with e | ⟨e1, e2⟩
    · rw [e]; omega
    · rw [e2, e1]; simp; omega
  have hs_ne : r ++ news ≠ [] := by
    intro e
    have := List.getElem?_mem hr0
    have : posN ∈ r ++ news := List.mem_append_left _ this
    rw [e] at this
    simp at this
  have hlastmem : lastN ∈ r ++ news := List.getElem?_mem hinv.last_eq
  have hposmem : posN ∈ r ++ news := List.mem_append_left _ (List.getElem?_mem hr0)
  obtain ⟨lnd, hlnd, -⟩ := (hinv.lin.occ lastN).1 hlastmem
  obtain ⟨pnd, hpnd, -⟩ := (hinv.lin.occ posN).1 hposmem
  have hpt2 := spliced_get E k lastN v
  generalize hns2 : upd (upd E k
      (fun nd => { nd with free := false, value := v, bwd := (lastN : Int) })) lastN
      (fun nd => { nd with fwd := (k : Int) }) = ns2 at hpt2
  obtain ⟨hlin2, hks⟩ := hinv.lin.splice k lastN v hinv.last_eq ⟨knd, hknd, hkfree⟩ hE1 hE2 hpt2
  have hlen2 : ns2.length = E.length := by rw [← hns2, upd_length, upd_length]
  have hkpos : k ≠ posN := fun e => hks (e ▸ hposmem)
  -- evaluation of the loop body
  have hnodek : node_at E (k : Int) = .ok knd := node_at_nat hknd
  have hset1 := set_eq_upd hknd (fun nd => { nd with free := false, value := v, bwd := (lastN : Int) })
  have hlnd1 : (upd E k (fun nd => { nd with free := false, value := v, bwd := (lastN : Int) }))[lastN]? = some (if k = lastN then { lnd with free := false, value := v, bwd := (lastN : Int) } else lnd) := by
    rw [upd_get, hE1 lastN lnd hlnd]
    by_cases hx : k = lastN <;> simp [hx]
  have hnodel := node_at_nat hlnd1
  have hset2 := set_eq_upd hlnd1 (fun nd => { nd with fwd := (k : Int) })
  rw [hns2] at hset2
  have hpnd2 : ns2[posN]? = some (spliced k lastN v posN pnd) := by
    rw [hpt2, hE1 posN pnd hpnd]; rfl
  have hnodep : node_at ns2 pos.node = .ok (spliced k lastN v posN pnd) := by
    rw [hposN]; exact node_at_nat hpnd2
  have hpflag : pnd.is_head = decide ((posN : Int) = l.head) := by
    have := hinv.flag posN pnd hpnd
    cases hx : pnd.is_head
    · have : ¬ ((posN : Int) = l.head) := fun e => by simp [this.2 e] at hx
      simp [this]
    · simp [this.1 hx]
  have hpos_toNat : pos.node.toNat = posN := by rw [hposN]; exact toNat_natCast posN
  -- facts shared by both branches
  have hval2 : ∀ i, i ≠ k → value_at ns2 i = value_at E i := by
    intro i hik
    rw [value_at, hpt2, value_at]
    cases E[i]? <;> simp [spliced, hik]
  have hvalE : ∀ i, i ∈ r ++ news → value_at E i = value_at l.all_nodes i := by
    intro i hi
    obtain ⟨nd, hn, -⟩ := (hinv.lin.occ i).1 hi
    rw [value_at, value_at, hn, hE1 i nd hn]
  have hvalk : value_at ns2 k = some v := by
    rw [value_at, hpt2, hknd]
    simp [spliced]
  have hold : ∀ ns4 : List (node T), (∀ i, value_at ns4 i = value_at ns2 i) →
      ∀ i, i ∈ r → value_at ns4 i = value_at ns0 i := by
    intro ns4 h4 i hi
    have hi2 : i ∈ r ++ news := List.mem_append_left _ hi
    have hik : i ≠ k := fun e => hks (e ▸ hi2)
    rw [h4, hval2 i hik, hvalE i hi2, hinv.old_values i hi]
  have hnew : ∀ ns4 : List (node T), (∀ i, value_at ns4 i = value_at ns2 i) →
      (news ++ [k]).map (value_at ns4) = (done ++ [v]).map some := by
    intro ns4 h4
    rw [List.map_append, List.map_append, ← hinv.new_values]
    congr 1
    · apply List.map_congr_left
      intro i hi
      have hi2 : i ∈ r ++ news := List.mem_append_right _ hi
      have hik : i ≠ k := fun e => hks (e ▸ hi2)
      rw [h4, hval2 i hik, hvalE i hi2]
    · simp [h4, hvalk]
  have hlast2 : (r ++ (news ++ [k]))[(r ++ (news ++ [k])).length - 1]? = some k := by
    have e : (r ++ (news ++ [k])).length - 1 = (r ++ news).length := by simp
    rw [e, ← List.append_assoc, List.getElem?_append_right (le_refl _)]
    simp
  have hbelow : ∀ i, i < k → i ∈ r ++ (news ++ [k]) := by
    intro i hik
    rw [← List.append_assoc]
    apply List.mem_append_left
    by_cases hi : i < nf
    · exact hinv.below i hi
    · exact (hinv.lin.occ i).2 (hscan i (by omega) hik)
  have hff : ∀ t k1 : Nat, (news ++ [k])[t]? = some k1 → ∀ i, i < k1 →
      i ∈ r ∨ i ∈ (news ++ [k]).take t := by
    intro t k1 ht i hik
    by_cases htl : t < news.length
    · rw [List.getElem?_append_left htl] at ht
      rcases hinv.first_fit t k1 ht i hik with h1 | h1
      · exact Or.inl h1
      · right
        rw [List.take_append_of_le_length (by omega)]
        exact h1
    · have htl2 := get_lt ht
      have : t = news.length := by simp at htl2; omega
      subst this
      simp at ht
      subst ht
      have := hbelow i hik
      rw [← List.append_assoc, List.mem_append, List.mem_append] at this
      rcases this with (h1 | h1) | h1
      · exact Or.inl h1
      · right; simpa using h1
      · simp at h1; omega
  have hklt : k < ns2.length := by rw [hlen2]; exact get_lt hknd
  have hgrow : ns0.length ≤ ns2.length := by rw [hlen2]; exact le_trans hinv.grow hElen
  -- the length of the pool
  have hlenE : ∀ ns4 : List (node T), ns4.length = E.length →
      (∀ i : Nat, k < i → ∀ nd, E[i]? = some nd → ∃ nd4, ns4[i]? = some nd4 ∧ nd4.free = nd.free) →
      InsLen ns0 (news ++ [k]) ns4 k vs.length := by
    intro ns4 hl4 hfree4
    rcases hlen with hA | ⟨hnfmem, hnf0, hB, htail⟩
    · rcases hEform with e | ⟨e1, e2⟩
      · left
        rw [hl4, e, hA]
      · right
        refine ⟨by simp, by omega, ?_, ?_⟩
        · rw [hl4, e2]
          simp
          omega
        · intro i hki hil
          have hEi : E[i]? = some E[i] := List.getElem?_eq_getElem (by omega)
          rcases hE2 i _ hEi with h1 | ⟨-, h2⟩
          · exfalso
            have := get_lt h1
            omega
          · obtain ⟨nd4, hn4, hf4⟩ := hfree4 i hki _ hEi
            exact ⟨nd4, hn4, by rw [hf4, h2]; rfl⟩
    · have hk1 : k = nf + 1 := by
        have hknf : k ≠ nf := fun e => hks (e ▸ List.mem_append_right _ hnfmem)
        obtain ⟨nd, hn, hfr⟩ := htail (nf + 1) (by omega) (by omega)
        by_contra hc
        have hlt : nf + 1 < k := by omega
        obtain ⟨nd1, hn1, hfr1⟩ := hscan (nf + 1) (by omega) hlt
        rw [hn] at hn1
        cases hn1
        rw [hfr] at hfr1
        cases hfr1
      have hE : E = l.all_nodes := by
        rcases hEform with e | ⟨e1, -⟩
        · exact e
        · omega
      right
      refine ⟨by simp, by omega, by rw [hl4, hE]; omega, ?_⟩
      intro i hki hil
      rw [hl4, hE] at hil
      obtain ⟨nd, hn, hfr⟩ := htail i (by omega) hil
      rw [← hE] at hn
      obtain ⟨nd4, hn4, hf4⟩ := hfree4 i hki nd hn
      exact ⟨nd4, hn4, by rw [hf4, hfr]⟩
  obtain ⟨h0, hh0, hh0mem⟩ := hinv.head_mem
  have hflag2 : ∀ (i : Nat) (nd2 : node T), ns2[i]? = some nd2 →
      (nd2.is_head = true ↔ (i : Int) = l.head) := by
    intro i nd2 hn2
    rw [hpt2] at hn2
    cases hn : E[i]? with
    | none => simp [hn] at hn2
    | some nd =>
      simp only [hn, Option.map_some', Option.some.injEq] at hn2
      subst hn2
      rcases hE2 i nd hn with h1 | ⟨h1, h2⟩
      · simpa [spliced] using hinv.flag i nd h1
      · subst h2
        obtain ⟨ndh, hnh, -⟩ := (hinv.lin.occ h0).1 hh0mem
        have := get_lt hnh
        simp only [spliced, fresh_node, Bool.false_eq_true, false_iff, hh0]
        omega
  simp only [insert_loop, hfind, hnodek, toNat_natCast, hset1, hnodel, hset2, hnodep,
    hpos_toNat, bind, Except.bind, pure, Except.pure]
  have hsp : (spliced k lastN v posN pnd).is_head = pnd.is_head := rfl
  rw [hsp, hpflag]
  by_cases hfire : (decide ((posN : Int) = l.head) && decide (pos.branch = 0)) = true
  · -- the head moves to the new slot
    rw [if_pos hfire]
    simp only [Bool.and_eq_true, decide_eq_true_eq] at hfire
    obtain ⟨hph, hb0⟩ := hfire
    have hnews : news = [] := by
      by_contra hne
      obtain ⟨k0, rest, hk⟩ := List.exists_cons_of_ne_nil hne
      have hhd : l.head = if ah then (k0 : Int) else head0 := by
        have := hinv.head
        rw [hk] at this
        simpa using this
      by_cases hahb : ah = true
      · rw [if_pos hahb, ← hph] at hhd
        have hk0 : k0 = posN := (Int.ofNat_inj.1 hhd).symm
        have hnd := hinv.lin.nodup
        rw [hk, List.nodup_append] at hnd
        exact hnd.2.2 (List.getElem?_mem hr0) (by rw [hk0]; exact List.mem_cons_self _ _)
      · rw [if_neg hahb] at hhd
        rw [hah, ← hhd, ← hph] at hahb
        simp [hb0] at hahb
    have hahT : ah = true := by
      have hhd : l.head = head0 := by
        have := hinv.head
        rw [hnews] at this
        simpa using this
      rw [hah, ← hhd, ← hph]
      simp [hb0]
    have hset3 := set_eq_upd hpnd2 (fun nd => { nd with is_head := false })
    have hk3 : (upd ns2 posN (fun nd => { nd with is_head := false }))[k]? =
        some (spliced k lastN v k knd) := by
      rw [upd_get, hpt2, hknd]
      simp [Ne.symm hkpos]
    have hnode3 := node_at_nat hk3
    have hset4 := set_eq_upd hk3 (fun nd => { nd with is_head := true })
    have hpt4 := reheaded_get ns2 k posN
    generalize hns4 : upd (upd ns2 posN (fun nd => { nd with is_head := false })) k
      (fun nd => { nd with is_head := true }) = ns4 at hpt4 hset4
    have hval4 : ∀ i, value_at ns4 i = value_at ns2 i := by
      intro i
      rw [value_at, hpt4, value_at]
      cases ns2[i]? <;> simp [reheaded]
    have hlen4 : ns4.length = ns2.length := by rw [← hns4, upd_length, upd_length]
    refine ⟨⟨(k : Int), ns4⟩, k, ?_, ?_, ?_, ?_⟩
    rotate_right
    · refine hlenE ns4 (by rw [hlen4, hlen2]) ?_
      intro i hki nd hn
      refine ⟨_, by rw [hpt4, hpt2, hn]; rfl, ?_⟩
      have hik : i ≠ k := by omega
      simp [reheaded, spliced, hik]
    · simp only [hset3, hnode3, hset4]
    · refine ⟨?_, hlast2, ?_, ?_, ⟨k, rfl, by simp⟩, hold ns4 hval4, hnew ns4 hval4,
        by rw [hlen4]; exact hklt, hbelow, hff, by rw [hlen4]; exact hgrow⟩
      · rw [← List.append_assoc]
        refine hlin2.congr_chain ?_
        intro i
        exact ⟨reheaded k posN i, hpt4 i, fun nd => ⟨rfl, rfl, rfl⟩⟩
      · intro i nd4 hn4
        rw [hpt4] at hn4
        cases hn : ns2[i]? with
        | none => simp [hn] at hn4
        | some nd2 =>
          simp only [hn, Option.map_some', Option.some.injEq] at hn4
          subst hn4
          by_cases hik : i = k
          · simp [reheaded, hik]
          · have hne : ¬ ((i : Int) = (k : Int)) := fun e => hik (Int.ofNat_inj.1 e)
            by_cases hip : i = posN
            · simp [reheaded, hik, hip, hne, hkpos, Ne.symm hkpos]
            · have h2 := hflag2 i nd2 hn
              have : ¬ ((i : Int) = l.head) := by
                rw [← hph]
                exact fun e => hip (Int.ofNat_inj.1 e)
              have hfalse : nd2.is_head = false := by
                cases hx : nd2.is_head
                · rfl
                · exact absurd (h2.1 hx) this
              simp [reheaded, hik, hip, hne, hfalse]
      · rw [hnews]
        simp [hahT]
    · simpa [hlen4, hlen2] using hEk
  · -- the head stays
    rw [if_neg hfire]
    have hlen5 : InsLen ns0 (news ++ [k]) ns2 k vs.length := by
      refine hlenE ns2 hlen2 ?_
      intro i hki nd hn
      refine ⟨_, by rw [hpt2, hn]; rfl, ?_⟩
      have hik : i ≠ k := by omega
      simp [spliced, hik]
    refine ⟨⟨l.head, ns2⟩, k, rfl, ?_, by simpa [hlen2] using hEk, hlen5⟩
    refine ⟨by rw [← List.append_assoc]; exact hlin2, hlast2, hflag2, ?_,
      ⟨h0, hh0, by rw [← List.append_assoc]; exact List.mem_append_left _ hh0mem⟩,
      hold ns2 (fun _ => rfl), hnew ns2 (fun _ => rfl), hklt, hbelow, hff, hgrow⟩
    by_cases hne : news = []
    · have hhd : l.head = head0 := by
        have := hinv.head
        rw [hne] at this
        simpa using this
      have hahF : ah = false := by
        rw [hah, ← hhd]
        simpa using hfire
      simp [hne, hahF, hhd]
    · obtain ⟨k0, rest, hk⟩ := List.exists_cons_of_ne_nil hne
      have hhd : l.head = if ah then (k0 : Int) else head0 := by
        have := hinv.head
        rw [hk] at this
        simpa using this
      simp [hk, hhd]

/-! ## The loop of `insert` and its closing writes -/

theorem insert_loop_spec [Inhabited T] {r : List Nat} {ns0 : List (node T)} {head0 : Int}
    {ah : Bool} (pos : generic_iterator) (posN : Nat) (hposN : pos.node = (posN : Int))
    (hr0 : r[0]? = some posN)
    (hah : ah = (decide ((posN : Int) = head0) && decide (pos.branch = 0))) (fuel : Nat) :
    ∀ (vs : List T) (news : List Nat) (done : List T) (l : circular_list T) (lastN nf : Nat),
      InsInv r ns0 head0 ah news done l lastN nf → l.all_nodes.length - nf < fuel →
      vs.length < fuel → InsLen ns0 news l.all_nodes nf vs.length →
      ∃ (l1 : circular_list T) (news1 : List Nat) (lastN1 nf1 : Nat),
        insert_loop pos fuel vs l (lastN : Int) (nf : Int) = .ok (l1, (lastN1 : Int)) ∧
        InsInv r ns0 head0 ah (news ++ news1) (done ++ vs) l1 lastN1 nf1 ∧
        news1.length = vs.length ∧
        InsLen ns0 (news ++ news1) l1.all_nodes nf1 0 := by
  intro vs
  induction vs with
  | nil =>
    intro news done l lastN nf hinv _ _ hl
    exact ⟨l, [], lastN, nf, rfl, by simpa using hinv, rfl, by simpa using hl⟩
  | cons v vs ih =>
    intro news done l lastN nf hinv hf hf2 hl
    obtain ⟨l1, k, hstep, hinv1, hf1, hl1⟩ :=
      insert_step hinv pos posN hposN hr0 hah v vs fuel hf (by simpa using hf2)
        (by simpa using hl)
    obtain ⟨l2, news2, lastN2, nf2, hloop, hinv2, hlen, hl2⟩ :=
      ih (news ++ [k]) (done ++ [v]) l1 k k hinv1 hf1 (by simp at hf2; omega) hl1
    refine ⟨l2, k :: news2, lastN2, nf2, by rw [hstep, hloop], ?_, by simp [hlen], ?_⟩
    · simpa using hinv2
    · simpa using hl2

theorem closed_get (ns : List (node T)) (posN lastN : Nat) (i : Nat) :
    (upd (upd ns lastN (fun nd => { nd with fwd := (posN : Int) })) posN
      (fun nd => { nd with bwd := (lastN : Int) }))[i]? = (ns[i]?).map (closed posN lastN i) := by
  rw [upd_get, upd_get]
  cases ns[i]? with
  | none => simp
  | some nd =>
    by_cases h1 : posN = i <;> by_cases h2 : lastN = i <;> simp [closed, h1, h2, eq_comm]

/-- Closing a chain: linking its last slot to its first makes it a cycle. -/
theorem Lin.close {ns ns2 : List (node T)} {s : List Nat} (h : Lin ns s) (posN lastN : Nat)
    (hfirst : s[0]? = some posN) (hlast : s[s.length - 1]? = some lastN)
    (h2 : ∀ i : Nat, ns2[i]? = (ns[i]?).map (closed posN lastN i)) : Cyc ns2 s := by
  have hocc : ∀ i, i ∈ s → ∃ nd, ns[i]? = some nd := fun i hi =>
    let ⟨nd, hn, _⟩ := (h.occ i).1 hi
    ⟨nd, hn⟩
  refine ⟨h.nodup, ?_, ?_, ?_⟩
  · intro i
    rw [h.occ i, h2]
    constructor
    · rintro ⟨nd, hn, hf⟩
      exact ⟨_, by rw [hn]; rfl, by simpa [closed] using hf⟩
    · rintro ⟨nd2, hn2, hf2⟩
      cases hn : ns[i]? with
      | none => simp [hn] at hn2
      | some nd =>
        simp only [hn, Option.map_some', Option.some.injEq] at hn2
        subst hn2
        exact ⟨nd, rfl, by simpa [closed] using hf2⟩
  · intro p x y hx hy
    have hp := get_lt hx
    obtain ⟨nd, hn⟩ := hocc x (List.getElem?_mem hx)
    refine ⟨_, by rw [h2, hn]; rfl, ?_⟩
    by_cases hlt : p + 1 < s.length
    · rw [Nat.mod_eq_of_lt hlt] at hy
      obtain ⟨nd1, hn1, hf⟩ := h.fwd p x y hx hy
      rw [hn] at hn1
      cases hn1
      have hxl : x ≠ lastN := by
        intro e
        subst e
        have := nodup_get_inj h.nodup hx hlast
        omega
      simp [closed, hxl, hf]
    · have hp1 : p + 1 = s.length := by omega
      rw [hp1, Nat.mod_self, hfirst] at hy
      cases hy
      have hxl : x = lastN := by
        have : s.length - 1 = p := by omega
        rw [this, hx] at hlast
        exact Option.some.inj hlast
      simp [closed, hxl]
  · intro p x y hx hy
    have hp := get_lt hx
    obtain ⟨nd, hn⟩ := hocc y (List.getElem?_mem hy)
    refine ⟨_, by rw [h2, hn]; rfl, ?_⟩
    by_cases hlt : p + 1 < s.length
    · rw [Nat.mod_eq_of_lt hlt] at hy
      obtain ⟨nd1, hn1, hb⟩ := h.bwd p x y hx hy
      rw [hn] at hn1
      cases hn1
      have hyp : y ≠ posN := by
        intro e
        subst e
        have := nodup_get_inj h.nodup hy hfirst
        omega
      simp [closed, hyp, hb]
    · have hp1 : p + 1 = s.length := by omega
      rw [hp1, Nat.mod_self, hfirst] at hy
      cases hy
      have hxl : x = lastN := by
        have : s.length - 1 = p := by omega
        rw [this, hx] at hlast
        exact Option.some.inj hlast
      simp [closed, hxl]

theorem insert_cycle_rotate (cy news : List Nat) (p : Nat) (hp : p < cy.length) :
    (cy.rotate p ++ news).rotate (cy.length - p) = cy.take p ++ news ++ cy.drop p := by
  have e : cy.rotate p = cy.drop p ++ cy.take p := List.rotate_eq_drop_append_take (by omega)
  rw [e, List.append_assoc]
  have hl : (cy.drop p).length = cy.length - p := by simp
  rw [← hl, List.rotate_append_length_eq, List.append_assoc]

/-! ## The effect of `insert` on a well-formed ring -/

theorem slot_eq_zero_iff {cy : List Nat} (hnd : cy.Nodup) (hne : cy ≠ []) {p : Nat}
    (hp : p < cy.length) : slot cy p = slot cy 0 ↔ p = 0 := by
  constructor
  · intro e
    have := slot_inj hnd hne e
    rwa [Nat.mod_eq_of_lt hp, Nat.zero_mod] at this
  · intro e
    rw [e]

/-- The effect of `insert` before its final assertion, on a well-formed ring
with cycle `cy`: inserting `V` before the slot at position `p`, with an
iterator of lap `b`, stores the values in new slots `news`, none of them a
slot of `cy`, and leaves a well-formed ring with cycle
`insert_cycle cy p (b = 0) news`; the slots of `cy` keep their values. -/
theorem Rep.insert_core [Inhabited T] {l : circular_list T} {cy : List Nat} (h : Rep l cy)
    (hne : cy ≠ []) (b : Int) (p : Nat) (hp : p < cy.length) (V : List T) (fuel : Nat)
    (hf : l.all_nodes.length < fuel) (hf2 : V.length < fuel) :
    ∃ (l2 : circular_list T) (news : List Nat),
      l.insert_core fuel ⟨((slot cy p : Nat) : Int), b⟩ V = .ok l2 ∧
      Rep l2 (insert_cycle cy p (decide (b = 0)) news) ∧
      news.length = V.length ∧
      (∀ i, i ∈ cy → value_at l2.all_nodes i = value_at l.all_nodes i) ∧
      news.map (value_at l2.all_nodes) = V.map some ∧
      (∀ k, k ∈ news → k ∉ cy) ∧
      (∀ t k : Nat, news[t]? = some k → ∀ i, i < k → i ∈ cy ∨ i ∈ news.take t) ∧
      l.all_nodes.length ≤ l2.all_nodes.length ∧
      l2.head = (if p = 0 ∧ b = 0 then ((news.head?).map (fun k : Nat => (k : Int))).getD l.head
        else l.head) ∧
      (l2.all_nodes.length = l.all_nodes.length ∨
        ∃ k, k ∈ news ∧ l.all_nodes.length ≤ k ∧ l2.all_nodes.length = k + 1) := by
  have hpos : 0 < cy.length := List.length_pos.2 hne
  have hhead := head_eq_slot h.headed hne
  -- the frame that starts at the slot of `pos`
  have hr0 : (cy.rotate p)[0]? = some (slot cy p) := by
    rw [List.getElem?_rotate hpos, Nat.zero_add]
    exact slot_get hne p
  have hrlast : (cy.rotate p)[cy.length - 1]? = some (slot cy (p + cy.length - 1)) := by
    rw [List.getElem?_rotate (by omega)]
    have e : (cy.length - 1 + p) % cy.length = (p + cy.length - 1) % cy.length := by
      congr 1; omega
    rw [e]
    exact slot_get hne _
  obtain ⟨pnd, hpnd, -, hpbwd, -⟩ := h.node_bwd_of_slot hne (p + cy.length - 1)
  have hsa : slot cy (p + cy.length - 1 + 1) = slot cy p := by
    rw [show p + cy.length - 1 + 1 = p + cy.length by omega]
    simp [slot]
  rw [hsa] at hpnd
  have hnode0 : node_at l.all_nodes ((slot cy p : Nat) : Int) = .ok pnd := node_at_nat hpnd
  have hinv0 : InsInv (cy.rotate p) l.all_nodes l.head
      (decide (((slot cy p : Nat) : Int) = l.head) && decide (b = 0)) [] [] l
      (slot cy (p + cy.length - 1)) 0 := by
    refine ⟨by simpa using (h.cyc.rotate p).toLin, by simpa using hrlast, h.headed.flag, by simp,
      ⟨slot cy 0, hhead, by simpa using slot_mem hne 0⟩, fun _ _ => rfl, rfl, ?_,
      fun i hi => absurd hi (Nat.not_lt_zero i), ?_, le_refl _⟩
    · exact lt_of_lt_of_le hpos h.cyc.length_le
    · intro t k ht
      simp at ht
  obtain ⟨l1, news, lastN1, nf1, hloop, hinv, hnlen, hpool⟩ :=
    insert_loop_spec ⟨((slot cy p : Nat) : Int), b⟩ (slot cy p) rfl hr0 rfl fuel
      V [] [] l (slot cy (p + cy.length - 1)) 0 hinv0 (by omega) hf2 (Or.inl rfl)
  rw [List.nil_append] at hinv
  rw [List.nil_append] at hinv
  rw [List.nil_append] at hpool
  rw [Nat.cast_zero] at hloop
  -- the closing writes
  have hlastmem : lastN1 ∈ cy.rotate p ++ news := List.getElem?_mem hinv.last_eq
  have hposmem : slot cy p ∈ cy.rotate p ++ news :=
    List.mem_append_left _ (List.getElem?_mem hr0)
  obtain ⟨lnd, hlnd, -⟩ := (hinv.lin.occ lastN1).1 hlastmem
  obtain ⟨qnd, hqnd, -⟩ := (hinv.lin.occ (slot cy p)).1 hposmem
  have hset1 := set_eq_upd hlnd (fun nd => { nd with fwd := ((slot cy p : Nat) : Int) })
  obtain ⟨qnd1, hqnd1⟩ : ∃ nd1, (upd l1.all_nodes lastN1
      (fun nd => { nd with fwd := ((slot cy p : Nat) : Int) }))[slot cy p]? = some nd1 := by
    rw [upd_get, hqnd]
    by_cases hx : lastN1 = slot cy p <;> simp [hx]
  have hset2 := set_eq_upd hqnd1 (fun nd => { nd with bwd := (lastN1 : Int) })
  have hpt := closed_get l1.all_nodes (slot cy p) lastN1
  generalize hns2 : upd (upd l1.all_nodes lastN1
    (fun nd => { nd with fwd := ((slot cy p : Nat) : Int) })) (slot cy p)
    (fun nd => { nd with bwd := (lastN1 : Int) }) = ns2 at hpt hset2
  have hfirst : (cy.rotate p ++ news)[0]? = some (slot cy p) := by
    rw [List.getElem?_append_left (by simpa using hpos)]
    exact hr0
  have hcyc2 : Cyc ns2 (cy.rotate p ++ news) := hinv.lin.close _ _ hfirst hinv.last_eq hpt
  have hlen2 : ns2.length = l1.all_nodes.length := by rw [← hns2, upd_length, upd_length]
  have hval2 : ∀ i, value_at ns2 i = value_at l1.all_nodes i := by
    intro i
    rw [value_at, hpt, value_at]
    cases l1.all_nodes[i]? <;> simp [closed]
  have hflag2 : ∀ (i : Nat) (nd : node T), ns2[i]? = some nd →
      (nd.is_head = true ↔ (i : Int) = l1.head) := by
    intro i nd2 hn2
    rw [hpt] at hn2
    cases hn : l1.all_nodes[i]? with
    | none => simp [hn] at hn2
    | some nd =>
      simp only [hn, Option.map_some', Option.some.injEq] at hn2
      subst hn2
      simpa [closed] using hinv.flag i nd hn
  have hah : (decide (((slot cy p : Nat) : Int) = l.head) && decide (b = 0)) = true ↔
      (p = 0 ∧ b = 0) := by
    rw [hhead]
    simp only [Bool.and_eq_true, decide_eq_true_eq, Nat.cast_inj]
    rw [slot_eq_zero_iff h.cyc.nodup hne hp]
  have hhd1 : l1.head = (if p = 0 ∧ b = 0 then
      ((news.head?).map (fun k : Nat => (k : Int))).getD l.head else l.head) := by
    have := hinv.head
    by_cases hc : p = 0 ∧ b = 0
    · rw [if_pos (hah.2 hc)] at this
      rw [if_pos hc, this]
    · have hc2 : ¬ ((decide (((slot cy p : Nat) : Int) = l.head) && decide (b = 0)) = true) :=
        fun e => hc (hah.1 e)
      rw [if_neg hc2] at this
      rw [if_neg hc, this]
  have hdisj : ∀ k, k ∈ news → k ∉ cy := by
    intro k hk hc
    have := hinv.lin.nodup
    rw [List.nodup_append] at this
    exact this.2.2 (List.mem_rotate.2 hc) hk
  have hpool2 : ns2.length = l.all_nodes.length ∨
      ∃ k, k ∈ news ∧ l.all_nodes.length ≤ k ∧ ns2.length = k + 1 := by
    rcases hpool with hA | ⟨hmem, h0, hB, -⟩
    · left
      rw [hlen2, hA]
    · exact Or.inr ⟨nf1, hmem, h0, by rw [hlen2, hB]⟩
  refine ⟨⟨l1.head, ns2⟩, news, ?_, ?_, hnlen, ?_, ?_, hdisj, ?_, ?_, hhd1, hpool2⟩
  · simp only [circular_list.insert_core, hnode0, hpbwd, hloop, node_at_nat hlnd, toNat_natCast,
      hset1, node_at_nat hqnd1, hset2, bind, Except.bind, pure, Except.pure]
  · refine ⟨?_, ?_, hflag2⟩
    · -- the cycle, read from the head
      by_cases hc : p = 0 ∧ decide (b = 0) = false
      · obtain ⟨hp0, hb⟩ := hc
        subst hp0
        simpa [insert_cycle, hb] using hcyc2
      · have e : insert_cycle cy p (decide (b = 0)) news = cy.take p ++ news ++ cy.drop p := by
          simp only [insert_cycle, hc, if_false]
        rw [e, ← insert_cycle_rotate cy news p hp]
        exact hcyc2.rotate _
    · -- the head
      show l1.head = _
      have h0 := slot_get hne 0
      rw [Nat.zero_mod] at h0
      by_cases hp0 : p = 0
      · subst hp0
        by_cases hb0 : b = 0
        · have e : insert_cycle cy 0 (decide (b = 0)) news = news ++ cy := by
            simp [insert_cycle, hb0]
          rw [e, hhd1, if_pos ⟨rfl, hb0⟩]
          cases news with
          | nil =>
            simp only [List.head?_nil, Option.map_none', Option.getD_none, List.nil_append, hhead]
            exact (head_match_of_get h0).symm
          | cons k rest => rfl
        · have e : insert_cycle cy 0 (decide (b = 0)) news = cy ++ news := by
            simp [insert_cycle, hb0]
          rw [e, hhd1, if_neg (fun hc => hb0 hc.2), hhead]
          refine (head_match_of_get ?_).symm
          rw [List.getElem?_append_left hpos]
          exact h0
      · have e : insert_cycle cy p (decide (b = 0)) news = cy.take p ++ news ++ cy.drop p := by
          simp [insert_cycle, hp0]
        rw [e, hhd1, if_neg (fun hc => hp0 hc.1), hhead]
        refine (head_match_of_get ?_).symm
        rw [List.append_assoc, List.getElem?_append_left (by simp; omega),
          List.getElem?_take_of_lt (by omega)]
        exact h0
  · intro i hi
    show value_at ns2 i = _
    rw [hval2, hinv.old_values i (List.mem_rotate.2 hi)]
  · show news.map (value_at ns2) = _
    have e : value_at ns2 = value_at l1.all_nodes := funext hval2
    rw [e]
    simpa using hinv.new_values
  · intro t k ht i hik
    rcases hinv.first_fit t k ht i hik with h1 | h1
    · exact Or.inl (List.mem_rotate.1 h1)
    · exact Or.inr h1
  · show l.all_nodes.length ≤ ns2.length
    rw [hlen2]
    exact hinv.grow

theorem insert_cycle_length (cy news : List Nat) (p : Nat) (b : Bool) (hp : p ≤ cy.length) :
    (insert_cycle cy p b news).length = cy.length + news.length := by
  unfold insert_cycle
  split
  · simp
  · simp
    omega

/-- The member `insert` on a well-formed ring with cycle `cy`: the call returns,
its final assertion holds, and the ring left is as described by
`Rep.insert_core`, the length of its pool included. -/
theorem Rep.insert_alloc [Inhabited T] {l : circular_list T} {cy : List Nat} (h : Rep l cy)
    (hne : cy ≠ []) (b : Int) (p : Nat) (hp : p < cy.length) (V : List T) (fuel : Nat)
    (hf : l.all_nodes.length + V.length < fuel) :
    ∃ (l2 : circular_list T) (news : List Nat),
      l.insert fuel ⟨((slot cy p : Nat) : Int), b⟩ V = .ok l2 ∧
      Rep l2 (insert_cycle cy p (decide (b = 0)) news) ∧
      news.length = V.length ∧
      (∀ i, i ∈ cy → value_at l2.all_nodes i = value_at l.all_nodes i) ∧
      news.map (value_at l2.all_nodes) = V.map some ∧
      (∀ k, k ∈ news → k ∉ cy) ∧
      (∀ t k : Nat, news[t]? = some k → ∀ i, i < k → i ∈ cy ∨ i ∈ news.take t) ∧
      l.all_nodes.length ≤ l2.all_nodes.length ∧
      l2.head = (if p = 0 ∧ b = 0 then ((news.head?).map (fun k : Nat => (k : Int))).getD l.head
        else l.head) ∧
      (l2.all_nodes.length = l.all_nodes.length ∨
        ∃ k, k ∈ news ∧ l.all_nodes.length ≤ k ∧ l2.all_nodes.length = k + 1) := by
  obtain ⟨l2, news, hcore, hrep, hlen, h1, h2, h3, h4, h5, h6, h7⟩ :=
    h.insert_core hne b p hp V fuel (by omega) (by omega)
  refine ⟨l2, news, ?_, hrep, hlen, h1, h2, h3, h4, h5, h6, h7⟩
  have hle := h.cyc.length_le
  have hcons : l2._list_is_consistent fuel = .ok true :=
    hrep.consistent (by rw [insert_cycle_length cy news p _ (by omega)]; omega)
  simp [circular_list.insert, hcore, hcons, assert, bind, Except.bind, pure, Except.pure]

/-- The member `insert` on a well-formed ring with cycle `cy`: the call returns,
its final assertion holds, and the ring left is as described by
`Rep.insert_core`. -/
theorem Rep.insert [Inhabited T] {l : circular_list T} {cy : List Nat} (h : Rep l cy)
    (hne : cy ≠ []) (b : Int) (p : Nat) (hp : p < cy.length) (V : List T) (fuel : Nat)
    (hf : l.all_nodes.length + V.length < fuel) :
    ∃ (l2 : circular_list T) (news : List Nat),
      l.insert fuel ⟨((slot cy p : Nat) : Int), b⟩ V = .ok l2 ∧
      Rep l2 (insert_cycle cy p (decide (b = 0)) news) ∧
      news.length = V.length ∧
      (∀ i, i ∈ cy → value_at l2.all_nodes i = value_at l.all_nodes i) ∧
      news.map (value_at l2.all_nodes) = V.map some ∧
      (∀ k, k ∈ news → k ∉ cy) ∧
      (∀ t k : Nat, news[t]? = some k → ∀ i, i < k → i ∈ cy ∨ i ∈ news.take t) ∧
      l.all_nodes.length ≤ l2.all_nodes.length ∧
      l2.head = (if p = 0 ∧ b = 0 then ((news.head?).map (fun k : Nat => (k : Int))).getD l.head
        else l.head) := by
  obtain ⟨l2, news, hins, hrep, hlen, h1, h2, h3, h4, h5, h6, -⟩ :=
    h.insert_alloc hne b p hp V fuel hf
  exact ⟨l2, news, hins, hrep, hlen, h1, h2, h3, h4, h5, h6⟩

theorem values_on {ns ns2 : List (node T)} {xs : List Nat}
    (h : ∀ i, i ∈ xs → value_at ns2 i = value_at ns i) :
    xs.map (value_at ns2) = xs.map (value_at ns) :=
  List.map_congr_left h

theorem insert_cycle_values {ns ns2 : List (node T)} {cy news : List Nat} {L V : List T}
    (hV : cy.map (value_at ns) = L.map some)
    (h1 : ∀ i, i ∈ cy → value_at ns2 i = value_at ns i)
    (h2 : news.map (value_at ns2) = V.map some) (k : Nat) :
    (cy.take k ++ news ++ cy.drop k).map (value_at ns2) = (L.take k ++ V ++ L.drop k).map some := by
  have e1 : (cy.take k).map (value_at ns2) = (cy.take k).map (value_at ns) :=
    values_on (fun i hi => h1 i (List.mem_of_mem_take hi))
  have e2 : (cy.drop k).map (value_at ns2) = (cy.drop k).map (value_at ns) :=
    values_on (fun i hi => h1 i (List.mem_of_mem_drop hi))
  simp only [List.map_append, e1, e2, h2, List.map_take, List.map_drop, hV]

/-! ## Counting occupied slots -/

theorem occupied_count_eq (ns : List (node T)) : ∀ cy : List Nat, cy.Nodup →
    (∀ i : Nat, i ∈ cy ↔ ∃ nd, ns[i]? = some nd ∧ nd.free = false) →
    List.countP (fun nd => !nd.free) ns = cy.length := by
  induction ns using List.reverseRecOn with
  | nil =>
    intro cy _ hocc
    have : cy = [] := by
      apply List.eq_nil_iff_forall_not_mem.2
      intro i hi
      obtain ⟨nd, hn, -⟩ := (hocc i).1 hi
      simp at hn
    simp [this]
  | append_singleton ns nd ih =>
    intro cy hnd hocc
    have hget : ∀ i, i < ns.length → (ns ++ [nd])[i]? = ns[i]? := fun i hi =>
      List.getElem?_append_left hi
    have hk : (ns ++ [nd])[ns.length]? = some nd := by
      rw [List.getElem?_append_right (le_refl _)]
      simp
    rw [List.countP_append]
    cases hfr : nd.free with
    | true =>
      have hocc2 : ∀ i : Nat, i ∈ cy ↔ ∃ nd1, ns[i]? = some nd1 ∧ nd1.free = false := by
        intro i
        rw [hocc i]
        constructor
        · rintro ⟨nd1, hn1, hf1⟩
          have hlt := get_lt hn1
          simp only [List.length_append, List.length_singleton] at hlt
          by_cases hi : i < ns.length
          · rw [hget i hi] at hn1
            exact ⟨nd1, hn1, hf1⟩
          · have : i = ns.length := by omega
            subst this
            rw [hk] at hn1
            cases hn1
            rw [hfr] at hf1
            exact Bool.noConfusion hf1
        · rintro ⟨nd1, hn1, hf1⟩
          exact ⟨nd1, by rw [hget i (get_lt hn1)]; exact hn1, hf1⟩
      rw [ih cy hnd hocc2]
      simp [hfr]
    | false =>
      have hmem : ns.length ∈ cy := (hocc _).2 ⟨nd, hk, hfr⟩
      have hocc2 : ∀ i : Nat, i ∈ cy.erase ns.length ↔
          ∃ nd1, ns[i]? = some nd1 ∧ nd1.free = false := by
        intro i
        rw [hnd.mem_erase_iff, hocc i]
        constructor
        · rintro ⟨hne, nd1, hn1, hf1⟩
          have hlt := get_lt hn1
          simp only [List.length_append, List.length_singleton] at hlt
          have hi : i < ns.length := by omega
          rw [hget i hi] at hn1
          exact ⟨nd1, hn1, hf1⟩
        · rintro ⟨nd1, hn1, hf1⟩
          have hi := get_lt hn1
          exact ⟨by omega, nd1, by rw [hget i hi]; exact hn1, hf1⟩
      rw [ih (cy.erase ns.length) (hnd.erase _) hocc2, List.length_erase_of_mem hmem]
      have : 0 < cy.length := List.length_pos_of_mem hmem
      simp [hfr]
      omega

/-! ## The ring comparison -/

theorem eq_loop_at [DecidableEq T] {a b : circular_list T} {ca cb : List Nat}
    (ha : Fwd a ca) (hb : Fwd b cb) (hane : ca ≠ []) (hbne : cb ≠ []) {La Lb : List T}
    (hVa : ca.map (value_at a.all_nodes) = La.map some)
    (hVb : cb.map (value_at b.all_nodes) = Lb.map some) :
    ∀ (d q fuel : Nat), q + d = ca.length → q ≤ cb.length → La.take q = Lb.take q → d < fuel →
      eq_loop a b fuel (cursor_at ca 0 q) (cursor_at cb 0 q) = .ok (decide (La = Lb)) := by
  have hlena := values_length hVa
  have hlb := values_length hVb
  intro d
  induction d with
  | zero =>
    intro q fuel hq hqb htake hf
    obtain ⟨f, rfl⟩ : ∃ f, fuel = f + 1 := ⟨fuel - 1, by omega⟩
    have hq' : q = ca.length := by omega
    subst hq'
    have hLa : La.take ca.length = La := List.take_of_length_le (by omega)
    by_cases hqb2 : ca.length = cb.length
    · have hLb : Lb.take ca.length = Lb := List.take_of_length_le (by omega)
      have : La = Lb := by rw [← hLa, ← hLb, htake]
      simp [eq_loop, generic_iterator.ne, end_eq_cursor ha.headed hane, end_eq_cursor hb.headed hbne,
        cursor_at_eq_self, hqb2, this]
    · have hlt : ca.length < cb.length := by omega
      have : La ≠ Lb := fun e => by
        have := congrArg List.length e
        omega
      simp [eq_loop, generic_iterator.ne, end_eq_cursor ha.headed hane, end_eq_cursor hb.headed hbne,
        cursor_at_eq_self, cursor_at_ne_end hbne hlt, this]
  | succ d ih =>
    intro q fuel hq hqb htake hf
    obtain ⟨f, rfl⟩ : ∃ f, fuel = f + 1 := ⟨fuel - 1, by omega⟩
    have hqa : q < ca.length := by omega
    by_cases hqb2 : q = cb.length
    · have : La ≠ Lb := fun e => by
        have := congrArg List.length e
        omega
      subst hqb2
      simp [eq_loop, generic_iterator.ne, end_eq_cursor ha.headed hane, end_eq_cursor hb.headed hbne,
        cursor_at_eq_self, cursor_at_ne_end hane hqa, this]
    · have hqb3 : q < cb.length := by omega
      obtain ⟨va, hva, hda⟩ := ha.deref_at hane hVa 0 q
      obtain ⟨vb, hvb, hdb⟩ := hb.deref_at hbne hVb 0 q
      rw [Nat.mod_eq_of_lt hqa] at hva
      rw [Nat.mod_eq_of_lt hqb3] at hvb
      by_cases hv : va = vb
      · subst hv
        have htake2 : La.take (q + 1) = Lb.take (q + 1) := by
          rw [List.take_succ, List.take_succ, htake, hva, hvb]
        have := ih (q + 1) f (by omega) (by omega) htake2 (by omega)
        simp only [eq_loop, generic_iterator.ne, end_eq_cursor ha.headed hane,
          end_eq_cursor hb.headed hbne, cursor_at_ne_end hane hqa, cursor_at_ne_end hbne hqb3,
          hda, hdb, ha.inc_at hane, hb.inc_at hbne, this, bind, Except.bind, pure, Except.pure]
        simp
      · have : La ≠ Lb := fun e => by
          rw [e, hvb] at hva
          exact hv (Option.some.inj hva).symm
        simp only [eq_loop, generic_iterator.ne, end_eq_cursor ha.headed hane,
          end_eq_cursor hb.headed hbne, cursor_at_ne_end hane hqa, cursor_at_ne_end hbne hqb3,
          hda, hdb, bind, Except.bind, pure, Except.pure]
        simp [hv, this]

/-- On well-formed rings the ring comparison returns whether the two traversals
are the same list. -/
theorem Fwd.eq_spec [DecidableEq T] {a b : circular_list T} {ca cb : List Nat}
    (ha : Fwd a ca) (hb : Fwd b cb) {La Lb : List T}
    (hVa : ca.map (value_at a.all_nodes) = La.map some)
    (hVb : cb.map (value_at b.all_nodes) = Lb.map some) {fuel : Nat} (hf : La.length < fuel) :
    a.eq b fuel = .ok (decide (La = Lb)) := by
  have hla := values_length hVa
  have hlb := values_length hVb
  obtain ⟨f, rfl⟩ : ∃ f, fuel = f + 1 := ⟨fuel - 1, by omega⟩
  by_cases hane : ca = []
  · subst hane
    have hLa : La = [] := List.length_eq_zero.1 (by simpa using hla)
    subst hLa
    have hbe := begin_eq_end_of_nil ha.headed
    by_cases hbne : cb = []
    · subst hbne
      have hLb : Lb = [] := List.length_eq_zero.1 (by simpa using hlb)
      subst hLb
      simp [circular_list.eq, eq_loop, generic_iterator.ne, hbe, begin_eq_end_of_nil hb.headed]
    · have hLb : Lb ≠ [] := fun e => by
        subst e
        exact hbne (List.length_eq_zero.1 (by simpa using hlb.symm))
      have hb0 : b.begin.eq b.end_ = false := by
        rw [begin_eq_cursor hb.headed hbne, end_eq_cursor hb.headed hbne]
        exact cursor_at_ne_end hbne (List.length_pos.2 hbne)
      simp [circular_list.eq, eq_loop, generic_iterator.ne, hbe, hb0, Ne.symm hLb]
  · have ha0 : a.begin.eq a.end_ = false := by
      rw [begin_eq_cursor ha.headed hane, end_eq_cursor ha.headed hane]
      exact cursor_at_ne_end hane (List.length_pos.2 hane)
    have hLa : La ≠ [] := fun e => by
      subst e
      exact hane (List.length_eq_zero.1 (by simpa using hla.symm))
    by_cases hbne : cb = []
    · subst hbne
      have hLb : Lb = [] := List.length_eq_zero.1 (by simpa using hlb)
      subst hLb
      simp [circular_list.eq, eq_loop, generic_iterator.ne, ha0, begin_eq_end_of_nil hb.headed, hLa]
    · have := eq_loop_at ha hb hane hbne hVa hVb ca.length 0 (f + 1) (by omega) (by omega)
        (by simp) (by omega)
      rw [circular_list.eq, begin_eq_cursor ha.headed hane, begin_eq_cursor hb.headed hbne]
      exact this

/-! ## Cursors on occupied slots, backward walks -/

theorem cursor_at_shift_mul (cy : List Nat) (hne : cy ≠ []) (b : Int) (q j : Nat) :
    cursor_at cy b (q + j * cy.length) = cursor_at cy (b + (j : Int)) q := by
  induction j generalizing b with
  | zero => simp
  | succ j ih =>
    have e : q + (j + 1) * cy.length = (q + j * cy.length) + cy.length := by ring
    rw [e, cursor_at_shift cy hne, ih]
    congr 1
    push_cast
    omega

theorem Rep.dec_n_at {l : circular_list T} {cy : List Nat} (h : Rep l cy) (hne : cy ≠ [])
    (b : Int) (k q : Nat) : l.dec_n k (cursor_at cy b (q + k)) = .ok (cursor_at cy b q) := by
  induction k generalizing q with
  | zero => rfl
  | succ k ih =>
    have e : q + (k + 1) = (q + k) + 1 := by omega
    rw [e]
    simp only [circular_list.dec_n, h.dec_at hne b (q + k), bind_ok]
    exact ih q

theorem Rep.cursor_of_occupied {l : circular_list T} {cy : List Nat} (h : Rep l cy) (i : Nat)
    (hocc : ∃ nd, l.all_nodes[i]? = some nd ∧ nd.free = false) :
    cy ≠ [] ∧ ∃ a, a < cy.length ∧ slot cy a = i ∧
      ∀ β : Int, (⟨(i : Int), β⟩ : generic_iterator) = cursor_at cy β a := by
  have hmem : i ∈ cy := (h.cyc.occ i).2 hocc
  have hne : cy ≠ [] := List.ne_nil_of_mem hmem
  obtain ⟨a, ha, hget⟩ := List.getElem_of_mem hmem
  have hs : slot cy a = i := by
    simp [slot, Nat.mod_eq_of_lt ha, List.getElem?_eq_getElem ha, hget]
  refine ⟨hne, a, ha, hs, fun β => ?_⟩
  simp [cursor_at, hs, Nat.div_eq_of_lt ha]

theorem Rep.count_eq {l : circular_list T} {cy : List Nat} (h : Rep l cy) :
    l.occupied_count = cy.length :=
  occupied_count_eq l.all_nodes cy h.cyc.nodup h.cyc.occ

theorem Rep.range_cursors {l : circular_list T} {cy : List Nat} (h : Rep l cy)
    (first last : generic_iterator) (i m : Nat) (hfirst : first.node = (i : Int))
    (hocc : ∃ nd, l.all_nodes[i]? = some nd ∧ nd.free = false)
    (hlast : l.inc_n m first = .ok last) :
    cy ≠ [] ∧ ∃ a, a < cy.length ∧ slot cy a = i ∧
      first = cursor_at cy first.branch a ∧ last = cursor_at cy first.branch (a + m) := by
  obtain ⟨hne, a, ha, hs, hcur⟩ := h.cursor_of_occupied i hocc
  have hf : first = cursor_at cy first.branch a := by
    rw [← hcur first.branch, ← hfirst]
  refine ⟨hne, a, ha, hs, hf, ?_⟩
  rw [hf, h.toFwd.inc_n_at hne] at hlast
  exact (Except.ok.inj hlast).symm

theorem erase_cycle_mem_iff {cy : List Nat} (hnd : cy.Nodup) (hne : cy ≠ []) (a m : Nat)
    (ha : a < cy.length) (hm : m ≤ cy.length) (i : Nat) (hi : i ∈ cy) :
    i ∈ erase_cycle cy a m ↔ i ∉ (List.range' a m).map (slot cy) := by
  rw [erase_cycle_mem a m ha, range_map_slot cy hne a m hm]
  have hr : i ∈ (cy.rotate a).take m ++ (cy.rotate a).drop m := by
    rw [List.take_append_drop]
    exact List.mem_rotate.2 hi
  have hnd2 : ((cy.rotate a).take m ++ (cy.rotate a).drop m).Nodup := by
    rw [List.take_append_drop]
    exact List.nodup_rotate.2 hnd
  have hdis := (List.nodup_append.1 hnd2).2.2
  constructor
  · intro h1 h2
    exact hdis h2 h1
  · intro h1
    rcases List.mem_append.1 hr with h2 | h2
    · exact absurd h2 h1
    · exact h2

theorem erase_cycle_last_mem {cy : List Nat} (hnd : cy.Nodup) (hne : cy ≠ []) (a m : Nat)
    (ha : a < cy.length) (hm : m ≤ cy.length) :
    slot cy (a + m) ∈ erase_cycle cy a m ↔ m < cy.length := by
  rw [erase_cycle_mem_iff hnd hne a m ha hm _ (slot_mem hne _), last_mem_run_iff hnd hne a m hm]
  omega

/-! ## The guard of erase -/

theorem Rep.invariants {l : circular_list T} {cy : List Nat} (h : Rep l cy) : l.invariants := by
  have hcount := h.count_eq
  refine ⟨?_, ?_, ?_⟩
  · intro h0
    have hnil : cy = [] := List.eq_nil_of_length_eq_zero (by omega)
    subst hnil
    have hhead := head_of_nil h.headed
    refine ⟨hhead, fun nd hnd => ?_⟩
    obtain ⟨i, hi, hget⟩ := List.getElem_of_mem hnd
    have hf := h.headed.flag i nd (by rw [List.getElem?_eq_getElem hi, hget])
    cases hx : nd.is_head
    · rfl
    · have := hf.1 hx
      rw [hhead] at this
      omega
  · intro hpos
    have hne : cy ≠ [] := fun e => by rw [e] at hcount; simp [hcount] at hpos
    have hhead := head_eq_slot h.headed hne
    obtain ⟨nd, hnd, hfree, -, hh⟩ := h.toFwd.node_of_slot hne 0
    refine ⟨slot cy 0, hhead, ⟨nd, hnd, hfree, hh.2 (Nat.zero_mod _)⟩, ?_⟩
    intro i ndi hi _ hflag
    have := (h.headed.flag i ndi hi).1 hflag
    rw [hhead] at this
    exact_mod_cast this
  · intro i nd hi hfree
    obtain ⟨hne, a, ha, hs, -⟩ := h.cursor_of_occupied i ⟨nd, hi, hfree⟩
    have hpos : 0 < cy.length := List.length_pos.2 hne
    refine ⟨?_, ?_, ?_⟩
    · obtain ⟨nd1, hn1, -, hfw, -⟩ := h.toFwd.node_of_slot hne a
      obtain ⟨nf, hnf, hff, hbw, -⟩ := h.node_bwd_of_slot hne a
      rw [hs, hi] at hn1
      cases hn1
      rw [hs] at hbw
      exact ⟨slot cy (a + 1), nf, hfw, hnf, hff, hbw⟩
    · have e : a + cy.length - 1 + 1 = a + cy.length := by omega
      obtain ⟨nb, hnb, hfb, hfw, -⟩ := h.toFwd.node_of_slot hne (a + cy.length - 1)
      obtain ⟨nd1, hn1, -, hbw, -⟩ := h.node_bwd_of_slot hne (a + cy.length - 1)
      have hs2 : slot cy (a + cy.length - 1 + 1) = i := by
        rw [e, ← hs]
        simp [slot]
      rw [hs2] at hn1 hfw
      rw [hi] at hn1
      cases hn1
      exact ⟨_, nb, hbw, hnb, hfb, hfw⟩
    · refine ⟨a, cursor_at cy 0 a, by omega, ?_, ?_⟩
      · have := h.toFwd.next_begin hne a
        simpa [circular_list.next, circular_list.advance] using this
      · simp [cursor_at, hs]

/-! ## Erase of a range of more than one lap -/

theorem mem_run_all {cy : List Nat} (hnd : cy.Nodup) (hne : cy ≠ []) (a m q : Nat)
    (ha : a < cy.length) (hm : cy.length ≤ m) :
    slot cy q ∈ (List.range' a m).map (slot cy) := by
  have hpos : 0 < cy.length := List.length_pos.2 hne
  rw [mem_run_iff hnd hne]
  have hq : q % cy.length < cy.length := Nat.mod_lt _ hpos
  refine ⟨(q % cy.length + cy.length - a) % cy.length, ?_, ?_⟩
  · have := Nat.mod_lt (q % cy.length + cy.length - a) hpos
    omega
  · rw [Nat.add_mod_mod]
    have e : a + (q % cy.length + cy.length - a) = q % cy.length + cy.length := by omega
    rw [e, Nat.add_mod_right, Nat.mod_mod]

theorem Rep.erase_over {l : circular_list T} {cy : List Nat} (h : Rep l cy) (hne : cy ≠ [])
    (b : Int) (a m fuel : Nat) (ha : a < cy.length) (hm : cy.length ≤ m)
    (hm2 : a + m < 2 * cy.length) (hf : m < fuel) :
    ∃ l1, l.erase fuel (cursor_at cy b a) (cursor_at cy b (a + m)) = .ok (l1, l1.end_) ∧
      Rep l1 [] ∧ l1.all_nodes.length = l.all_nodes.length ∧
      (∀ i, value_at l1.all_nodes i = value_at l.all_nodes i) := by
  have hpos : 0 < cy.length := List.length_pos.2 hne
  have hF := h.toFwd
  let es := (List.range' a m).map (slot cy)
  let bf := slot cy (a + cy.length - 1)
  let lt := slot cy (a + m)
  have hall : ∀ q, slot cy q ∈ es := fun q => mem_run_all h.cyc.nodup hne a m q ha hm
  -- the assertion
  have hassert : assert (decide ((cursor_at cy b (a + m)).branch = (cursor_at cy b a).branch) ||
      decide ((cursor_at cy b (a + m)).branch = (cursor_at cy b a).branch + 1)) = .ok () := by
    have h1 : a / cy.length = 0 := Nat.div_eq_of_lt ha
    have h2 : (a + m) / cy.length = 1 := by
      have : a + m = (a + m - cy.length) + cy.length := by omega
      rw [this, Nat.add_div_right _ hpos, Nat.div_eq_of_lt (by omega)]
    simp [assert, cursor_at, h1, h2]
  -- the node before the first
  obtain ⟨fnd, hfnd, -, hfbwd, -⟩ := h.node_bwd_of_slot hne (a + cy.length - 1)
  have hsa : slot cy (a + cy.length - 1 + 1) = slot cy a := by
    rw [show a + cy.length - 1 + 1 = a + cy.length by omega]
    simp [slot]
  rw [hsa] at hfnd
  -- the freeing walk
  have htrace := hF.erase_trace_at hne b a m m 0 (by omega)
  have hloop := erase_loop_spec l.head (cursor_at cy b (a + m)) _ l.all_nodes _ _ false fuel htrace
    (by simpa using hf)
  rw [Nat.add_zero] at hloop
  have hany : (es.any fun x => decide ((x : Int) = l.head)) = true := by
    rw [head_eq_slot h.headed hne, any_head_iff es (slot cy 0)]
    simpa using hall 0
  -- the two writes of the reconnection
  obtain ⟨lnd, hlnd, -⟩ := (h.cyc.occ lt).1 (slot_mem hne (a + m))
  have hlnd1 : (free_all es l.all_nodes)[lt]? = some (if lt ∈ es then freed lnd else lnd) := by
    rw [free_all_get, hlnd]; rfl
  obtain ⟨bnd, hbnd, -⟩ := (h.cyc.occ bf).1 (slot_mem hne (a + cy.length - 1))
  obtain ⟨bnd2, hbnd2⟩ : ∃ nd2, (upd (free_all es l.all_nodes) lt
      (fun nd => { nd with bwd := (bf : Int) }))[bf]? = some nd2 := by
    rw [upd_get, free_all_get, hbnd]
    by_cases hx : lt = bf <;> simp [hx]
  have hset2 := set_eq_upd hlnd1 (fun nd => { nd with bwd := (bf : Int) })
  have hset3 := set_eq_upd hbnd2 (fun nd => { nd with fwd := (lt : Int) })
  have hpt := relinked_get l.all_nodes es bf lt
  have hlnd3 := hpt lt
  rw [hlnd] at hlnd3
  have hflag := h.headed.flag
  have hhead := head_eq_slot h.headed hne
  have hval : ∀ i, value_at (upd (upd (free_all es l.all_nodes) lt
      (fun nd => { nd with bwd := (bf : Int) })) bf (fun nd => { nd with fwd := (lt : Int) })) i
      = value_at l.all_nodes i := by
    intro i
    rw [value_at, hpt, value_at]
    cases l.all_nodes[i]? <;> simp [relinked]
  have hnode_last : node_at (upd (upd (free_all es l.all_nodes) lt
      (fun nd => { nd with bwd := (bf : Int) })) bf (fun nd => { nd with fwd := (lt : Int) }))
      ((lt : Nat) : Int) = .ok (relinked es bf lt lt lnd) := node_at_nat hlnd3
  have hnode1 : node_at (free_all es l.all_nodes) ((lt : Nat) : Int)
      = .ok (if lt ∈ es then freed lnd else lnd) := node_at_nat hlnd1
  have hnode0 : node_at l.all_nodes (cursor_at cy b a).node = .ok fnd := node_at_nat hfnd
  have hnodebf : node_at (upd (free_all es l.all_nodes) lt (fun nd => { nd with bwd := (bf : Int) }))
      ((bf : Nat) : Int) = .ok bnd2 := node_at_nat hbnd2
  have hlt_node : (cursor_at cy b (a + m)).node = ((lt : Nat) : Int) := rfl
  have hfb : fnd.bwd = ((bf : Nat) : Int) := hfbwd
  have hL : lt ∈ es := hall (a + m)
  have hcore : l.erase_core fuel (cursor_at cy b a) (cursor_at cy b (a + m)) =
      .ok ⟨-1, upd (upd (free_all es l.all_nodes) lt (fun nd => { nd with bwd := (bf : Int) }))
        bf (fun nd => { nd with fwd := (lt : Int) })⟩ := by
    simp only [circular_list.erase_core, hassert, hnode0, hloop, hlt_node, hnode1, hfb, hset2,
      hnodebf, toNat_natCast, hset3, hnode_last, hany, bind, Except.bind, pure, Except.pure,
      Bool.false_or]
    simp [relinked, hL]
  generalize hns3 : upd (upd (free_all es l.all_nodes) lt (fun nd => { nd with bwd := (bf : Int) }))
      bf (fun nd => { nd with fwd := (lt : Int) }) = ns3 at *
  have hlen3 : ns3.length = l.all_nodes.length := by
    rw [← hns3, upd_length, upd_length, free_all_length]
  have hrep : Rep (⟨-1, ns3⟩ : circular_list T) [] := by
    refine ⟨⟨List.nodup_nil, ?_, ?_, ?_⟩, rfl, ?_⟩
    · intro i
      constructor
      · intro hi
        cases hi
      · rintro ⟨nd3, hn3, hfr⟩
        exfalso
        rw [hpt] at hn3
        cases hn : l.all_nodes[i]? with
        | none => simp [hn] at hn3
        | some nd =>
          simp only [hn, Option.map_some', Option.some.injEq] at hn3
          subst hn3
          by_cases hie : i ∈ es
          · simp [relinked, hie] at hfr
          · simp only [relinked, hie, if_false] at hfr
            have hic : i ∈ cy := (h.cyc.occ i).2 ⟨nd, hn, hfr⟩
            obtain ⟨q, hq, hget⟩ := List.getElem_of_mem hic
            have hs : slot cy q = i := by
              simp [slot, Nat.mod_eq_of_lt hq, List.getElem?_eq_getElem hq, hget]
            exact hie (hs ▸ hall q)
    · intro p x y hx
      simp at hx
    · intro p x y hx
      simp at hx
    · intro i nd3 hn3
      rw [hpt] at hn3
      cases hn : l.all_nodes[i]? with
      | none => simp [hn] at hn3
      | some nd =>
        simp only [hn, Option.map_some', Option.some.injEq] at hn3
        subst hn3
        have hfl := hflag i nd hn
        constructor
        · intro hh
          exfalso
          by_cases hie : i ∈ es
          · simp [relinked, hie] at hh
          · simp only [relinked, hie, if_false] at hh
            have he := hfl.1 hh
            rw [hhead] at he
            have := Int.ofNat_inj.1 he
            rw [this] at hie
            exact hie (hall 0)
        · intro he
          exfalso
          have : (0 : Int) ≤ (i : Int) := Int.ofNat_nonneg i
          change (i : Int) = -1 at he
          omega
  refine ⟨⟨-1, ns3⟩, ?_, hrep, hlen3, hval⟩
  have hcons : (⟨-1, ns3⟩ : circular_list T)._list_is_consistent fuel = .ok true :=
    hrep.consistent (by simp; omega)
  have hnode : node_at ns3 (cursor_at cy b (a + m)).node = .ok (relinked es bf lt lt lnd) :=
    hnode_last
  simp only [circular_list.erase, hcore, hcons, assert, hnode, bind, Except.bind, pure,
    Except.pure, if_true]
  simp [relinked, hL]

/-! ## The cursors of a freshly built ring -/

theorem slot_range (n q : Nat) (hn : 0 < n) : slot (List.range n) q = q % n := by
  have : q % n < n := Nat.mod_lt _ hn
  simp [slot, List.getElem?_range this]

theorem cursor_at_range (n : Nat) (hn : 0 < n) (b : Int) (q : Nat) :
    cursor_at (List.range n) b q = ⟨((q : Int) + b * n) % n, ((q : Int) + b * n) / n⟩ := by
  have hn0 : (n : Int) ≠ 0 := by omega
  simp only [cursor_at, slot_range n q hn, List.length_range]
  rw [Int.add_mul_emod_self, Int.add_mul_ediv_right _ _ hn0]
  congr 1
  push_cast
  omega

/-! ## Slots that survive a mutation -/

theorem insert_cycle_mem (cy news : List Nat) (p : Nat) (b : Bool) (i : Nat) :
    i ∈ insert_cycle cy p b news ↔ i ∈ cy ∨ i ∈ news := by
  unfold insert_cycle
  split
  · simp
  · have hc : i ∈ cy ↔ i ∈ cy.take p ∨ i ∈ cy.drop p := by
      conv_lhs => rw [← List.take_append_drop p cy]
      exact List.mem_append
    simp only [List.mem_append, hc]
    tauto

theorem value_of_value_at {ns ns2 : List (node T)} {i : Nat} {nd nd2 : node T}
    (h1 : ns[i]? = some nd) (h2 : ns2[i]? = some nd2)
    (hv : value_at ns2 i = value_at ns i) : nd2.value = nd.value := by
  simpa [value_at, h1, h2] using hv

theorem Rep.run_slots {l : circular_list T} {cy : List Nat} (h : Rep l cy) (hne : cy ≠ [])
    (b : Int) (a m j : Nat)
    (hj : ∀ t, t < m → ∀ it, l.inc_n t (cursor_at cy b a) = .ok it → it.node ≠ (j : Int)) :
    j ∉ (List.range' a m).map (slot cy) := by
  intro hmem
  obtain ⟨x, hx, hs⟩ := List.mem_map.1 hmem
  obtain ⟨hx1, hx2⟩ := List.mem_range'_1.1 hx
  have hinc := h.toFwd.inc_n_at hne b (x - a) a
  have e : a + (x - a) = x := by omega
  rw [e] at hinc
  refine hj (x - a) (by omega) _ hinc ?_
  simp [cursor_at, hs]

/-! ## Counting free slots: first-fit allocation and the length of the pool -/

theorem free_add_occupied (ns : List (node T)) :
    List.countP (fun nd => nd.free) ns + List.countP (fun nd => !nd.free) ns = ns.length := by
  induction ns with
  | nil => rfl
  | cons nd ns ih =>
    cases hfr : nd.free <;> simp [List.countP_cons, hfr] <;> omega

theorem Rep.free_count_eq {l : circular_list T} {cy : List Nat} (h : Rep l cy) :
    l.free_count + cy.length = l.all_nodes.length := by
  have := free_add_occupied l.all_nodes
  rw [occupied_count_eq l.all_nodes cy h.cyc.nodup h.cyc.occ] at this
  exact this

theorem insert_cycle_news_nodup {cy news : List Nat} {p : Nat} {b : Bool}
    (h : (insert_cycle cy p b news).Nodup) : news.Nodup := by
  unfold insert_cycle at h
  split at h
  · exact (List.nodup_append.1 h).2.1
  · exact (List.nodup_append.1 (List.nodup_append.1 h).1).2.1

theorem news_increasing {cy news : List Nat} (hnd : news.Nodup)
    (hdis : ∀ k, k ∈ news → k ∉ cy)
    (hff : ∀ t k : Nat, news[t]? = some k → ∀ i, i < k → i ∈ cy ∨ i ∈ news.take t)
    {s t ks kt : Nat} (hst : s < t) (hs : news[s]? = some ks) (ht : news[t]? = some kt) :
    ks < kt := by
  by_contra hc
  have hne : kt ≠ ks := fun e => by
    have := nodup_get_inj hnd ht (e ▸ hs)
    omega
  have hlt : kt < ks := by omega
  rcases hff s ks hs kt hlt with h1 | h1
  · exact hdis kt (List.getElem?_mem ht) h1
  · obtain ⟨u, hu, hget⟩ := List.getElem_of_mem h1
    have hu2 : u < s := by
      have := hu
      simp at this
      omega
    have hget2 : news[u]? = some kt := by
      rw [List.getElem_take] at hget
      rw [List.getElem?_eq_getElem (by have := get_lt hs; omega), hget]
    have := nodup_get_inj hnd ht hget2
    omega

/-- The slots below the new slot `k = news[t]` are the slots of `cy` below `k`
together with the `t` new slots taken before. -/
theorem below_new_slot {cy news : List Nat} (hcy : cy.Nodup) (hnd : news.Nodup)
    (hdis : ∀ k, k ∈ news → k ∉ cy)
    (hff : ∀ t k : Nat, news[t]? = some k → ∀ i, i < k → i ∈ cy ∨ i ∈ news.take t)
    {t k : Nat} (ht : news[t]? = some k) :
    (cy.filter (fun i => decide (i < k))).length + t = k := by
  have htl := get_lt ht
  have hperm : (cy.filter (fun i => decide (i < k)) ++ news.take t).Perm (List.range k) := by
    rw [List.perm_ext_iff_of_nodup ?_ (List.nodup_range k)]
    · intro i
      simp only [List.mem_append, List.mem_filter, decide_eq_true_eq, List.mem_range]
      constructor
      · rintro (⟨-, h1⟩ | h1)
        · exact h1
        · obtain ⟨u, hu, hget⟩ := List.getElem_of_mem h1
          have hu2 : u < t := by
            have := hu
            simp at this
            omega
          rw [List.getElem_take] at hget
          have hget2 : news[u]? = some i := by
            rw [List.getElem?_eq_getElem (by omega), hget]
          exact news_increasing hnd hdis hff hu2 hget2 ht
      · intro hik
        rcases hff t k ht i hik with h1 | h1
        · exact Or.inl ⟨h1, hik⟩
        · exact Or.inr h1
    · rw [List.nodup_append]
      refine ⟨hcy.filter _, hnd.sublist (List.take_sublist _ _), ?_⟩
      intro i h1 h2
      exact hdis i (List.mem_of_mem_take h2) (List.mem_of_mem_filter h1)
  have := hperm.length_eq
  simp only [List.length_append, List.length_range, List.length_take] at this
  omega

theorem free_below_new_slot {ns : List (node T)} {cy news : List Nat} (hcy : cy.Nodup)
    (hocc : ∀ i : Nat, i ∈ cy ↔ ∃ nd, ns[i]? = some nd ∧ nd.free = false)
    (hnd : news.Nodup) (hdis : ∀ k, k ∈ news → k ∉ cy)
    (hff : ∀ t k : Nat, news[t]? = some k → ∀ i, i < k → i ∈ cy ∨ i ∈ news.take t)
    {t k : Nat} (ht : news[t]? = some k) (hk : k < ns.length) :
    (∃ nd, ns[k]? = some nd ∧ nd.free = true) ∧
      List.countP (fun nd => nd.free) (ns.take k) = t := by
  constructor
  · refine ⟨ns[k], List.getElem?_eq_getElem hk, ?_⟩
    cases hfr : (ns[k]).free
    · exact absurd ((hocc k).2 ⟨_, List.getElem?_eq_getElem hk, hfr⟩)
        (hdis k (List.getElem?_mem ht))
    · rfl
  · have h1 := free_add_occupied (ns.take k)
    have h2 : List.countP (fun nd => !nd.free) (ns.take k)
        = (cy.filter (fun i => decide (i < k))).length := by
      apply occupied_count_eq _ _ (hcy.filter _)
      intro i
      simp only [List.mem_filter, decide_eq_true_eq, hocc i]
      constructor
      · rintro ⟨⟨nd, hn, hfr⟩, hik⟩
        exact ⟨nd, by rw [List.getElem?_take_of_lt hik]; exact hn, hfr⟩
      · rintro ⟨nd, hn, hfr⟩
        have hik : i < k := by
          have := get_lt hn
          simp at this
          omega
        rw [List.getElem?_take_of_lt hik] at hn
        exact ⟨⟨nd, hn, hfr⟩, hik⟩
    have h3 := below_new_slot hcy hnd hdis hff ht
    rw [h2] at h1
    have h4 : (ns.take k).length = k := by simp; omega
    omega

theorem new_slot_in_pool {ns : List (node T)} {cy news : List Nat}
    (hff : ∀ t k : Nat, news[t]? = some k → ∀ i, i < k → i ∈ cy ∨ i ∈ news.take t)
    {t k : Nat} (ht : news[t]? = some k) (htf : t + cy.length < ns.length) :
    k < ns.length := by
  by_contra hc
  have hsub : List.range ns.length ⊆ cy ++ news.take t := by
    intro i hi
    have hi2 : i < k := by
      have := List.mem_range.1 hi
      omega
    exact List.mem_append.2 (hff t k ht i hi2)
  have := ((List.nodup_range ns.length).subperm hsub).length_le
  simp only [List.length_range, List.length_append, List.length_take] at this
  omega

theorem pool_length_after {cy news : List Nat} {p len2 : Nat} (hcy : cy.Nodup)
    (hnd : news.Nodup) (hdis : ∀ k, k ∈ news → k ∉ cy) (hle : cy.length ≤ p)
    (hff : ∀ t k : Nat, news[t]? = some k → ∀ i, i < k → i ∈ cy ∨ i ∈ news.take t)
    (hin : ∀ i, i ∈ cy ∨ i ∈ news → i < len2)
    (hpool : len2 = p ∨ ∃ k, k ∈ news ∧ p ≤ k ∧ len2 = k + 1) :
    len2 = p + (news.length - (p - cy.length)) := by
  have hnd2 : (cy ++ news).Nodup := by
    rw [List.nodup_append]
    exact ⟨hcy, hnd, fun i h1 h2 => hdis i h2 h1⟩
  have hsub1 : cy ++ news ⊆ List.range len2 := by
    intro i hi
    exact List.mem_range.2 (hin i (List.mem_append.1 hi))
  have h1 := (hnd2.subperm hsub1).length_le
  simp only [List.length_range, List.length_append] at h1
  rcases hpool with hA | ⟨k, hk, hpk, hB⟩
  · omega
  · obtain ⟨t, ht, hget⟩ := List.getElem_of_mem hk
    have hget2 : news[t]? = some k := by rw [List.getElem?_eq_getElem ht, hget]
    have hsub2 : List.range (k + 1) ⊆ cy ++ news := by
      intro i hi
      have hi2 := List.mem_range.1 hi
      by_cases hik : i = k
      · rw [hik]
        exact List.mem_append_right _ hk
      · rcases hff t k hget2 i (by omega) with h2 | h2
        · exact List.mem_append_left _ h2
        · exact List.mem_append_right _ (List.mem_of_mem_take h2)
    have h2 := ((List.nodup_range (k + 1)).subperm hsub2).length_le
    simp only [List.length_range, List.length_append] at h2
    omega

/-! ## The length of the pool under `erase` and `insert`, on any ring -/

theorem except_bind_ok {α β : Type} {x : Except Fault α} {f : α → Except Fault β} {b : β}
    (h : (x >>= f) = .ok b) : ∃ a, x = .ok a ∧ f a = .ok b := by
  cases x with
  | error e => cases h
  | ok a => exact ⟨a, rfl, h⟩

theorem erase_loop_length (head : Int) (last_it : generic_iterator) :
    ∀ (fuel : Nat) (ns : List (node T)) (cur cb : Int) (beheaded : Bool)
      (ns1 : List (node T)) (b1 : Bool),
      erase_loop head last_it fuel ns cur cb beheaded = .ok (ns1, b1) →
      ns1.length = ns.length := by
  intro fuel
  induction fuel with
  | zero =>
    intro ns cur cb beheaded ns1 b1 h
    cases h
  | succ fuel ih =>
    intro ns cur cb beheaded ns1 b1 h
    unfold erase_loop at h
    by_cases hc : (cur != last_it.node || cb != last_it.branch) = true
    · rw [if_pos hc] at h
      obtain ⟨nd, -, h2⟩ := except_bind_ok h
      have := ih _ _ _ _ _ _ h2
      simpa using this
    · rw [if_neg hc] at h
      cases h
      rfl

theorem erase_core_length (l l1 : circular_list T) (fuel : Nat)
    (first_it last_it : generic_iterator) (h : l.erase_core fuel first_it last_it = .ok l1) :
    l1.all_nodes.length = l.all_nodes.length := by
  unfold circular_list.erase_core at h
  obtain ⟨-, -, h⟩ := except_bind_ok h
  obtain ⟨first_node, -, h⟩ := except_bind_ok h
  obtain ⟨⟨ns1, beheaded⟩, hloop, h⟩ := except_bind_ok h
  have hl1 := erase_loop_length _ _ _ _ _ _ _ _ _ hloop
  obtain ⟨last_node, -, h⟩ := except_bind_ok h
  obtain ⟨bf_node, -, h⟩ := except_bind_ok h
  simp only at h
  cases beheaded with
  | false =>
    simp only [Bool.false_eq_true, if_false, pure, Except.pure] at h
    cases h
    simp [hl1]
  | true =>
    simp only [if_true] at h
    obtain ⟨last_node3, -, h⟩ := except_bind_ok h
    split_ifs at h
    · cases h
      simp [hl1]
    · cases h
      simp [hl1]

theorem erase_length (l l1 : circular_list T) (fuel : Nat) (first_it last_it ret : generic_iterator)
    (h : l.erase fuel first_it last_it = .ok (l1, ret)) :
    l1.all_nodes.length = l.all_nodes.length := by
  unfold circular_list.erase at h
  obtain ⟨l2, hcore, h⟩ := except_bind_ok h
  obtain ⟨c, -, h⟩ := except_bind_ok h
  obtain ⟨-, -, h⟩ := except_bind_ok h
  obtain ⟨last_node, -, h⟩ := except_bind_ok h
  have hl := erase_core_length l l2 fuel first_it last_it hcore
  split_ifs at h <;> cases h <;> exact hl

theorem find_free_length [Inhabited T] (rem : Nat) :
    ∀ (fuel : Nat) (ns : List (node T)) (nf : Int) (E : List (node T)) (k : Int),
      find_free rem fuel ns nf = .ok (E, k) → ns.length ≤ E.length := by
  intro fuel
  induction fuel with
  | zero =>
    intro ns nf E k h
    cases h
  | succ fuel ih =>
    intro ns nf E k h
    unfold find_free at h
    obtain ⟨n, -, h⟩ := except_bind_ok h
    by_cases h1 : (!n.free) = true
    · rw [if_pos h1] at h
      have := ih _ _ _ _ h
      split_ifs at this
      · simp at this
        omega
      · exact this
    · rw [if_neg h1] at h
      cases h
      exact le_refl _

theorem insert_loop_length [Inhabited T] (pos : generic_iterator) (fuel : Nat) :
    ∀ (vs : List T) (l : circular_list T) (last nf : Int) (l1 : circular_list T) (last1 : Int),
      insert_loop pos fuel vs l last nf = .ok (l1, last1) →
      l.all_nodes.length ≤ l1.all_nodes.length := by
  intro vs
  induction vs with
  | nil =>
    intro l last nf l1 last1 h
    cases h
    exact le_refl _
  | cons v vs ih =>
    intro l last nf l1 last1 h
    unfold insert_loop at h
    obtain ⟨⟨ns0, k⟩, hfind, h⟩ := except_bind_ok h
    have h0 := find_free_length _ _ _ _ _ _ hfind
    obtain ⟨new_node, -, h⟩ := except_bind_ok h
    obtain ⟨last_node, -, h⟩ := except_bind_ok h
    obtain ⟨pos_node, -, h⟩ := except_bind_ok h
    simp only at h
    split_ifs at h
    · obtain ⟨new_node3, -, h⟩ := except_bind_ok h
      have := ih _ _ _ _ _ h
      simp at this
      omega
    · have := ih _ _ _ _ _ h
      simp at this
      omega

theorem insert_length [Inhabited T] (l l2 : circular_list T) (fuel : Nat)
    (pos : generic_iterator) (V : List T) (h : l.insert fuel pos V = .ok l2) :
    l.all_nodes.length ≤ l2.all_nodes.length := by
  unfold circular_list.insert at h
  obtain ⟨l1, hcore, h⟩ := except_bind_ok h
  obtain ⟨c, -, h⟩ := except_bind_ok h
  obtain ⟨-, -, h⟩ := except_bind_ok h
  cases h
  unfold circular_list.insert_core at hcore
  obtain ⟨pos_node, -, hcore⟩ := except_bind_ok hcore
  obtain ⟨⟨l3, last⟩, hloop, hcore⟩ := except_bind_ok hcore
  have := insert_loop_length _ _ _ _ _ _ _ _ hloop
  obtain ⟨last_node, -, hcore⟩ := except_bind_ok hcore
  obtain ⟨pos_node1, -, hcore⟩ := except_bind_ok hcore
  cases hcore
  simpa using this

/-- The ring left by `erase(begin()+1, begin()+2)` on the ring built from
`[0, 1, 2]`, with slot `1` free, is well-formed. -/
theorem gap_ring_wf :
    well_formed (⟨0, [⟨2, 2, 0, false, true⟩, ⟨2, 0, 1, true, false⟩, ⟨0, 0, 2, false, false⟩]⟩ :
      circular_list Int) := by
  have h := of_vector_rep ([0, 1, 2] : List Int) (by decide) (by norm_num)
  obtain ⟨l1, he, hrep, -⟩ := h.erase (by decide) 0 1 1 4 (by decide) (by decide) (by decide)
  have e : (circular_list.of_vector ([0, 1, 2] : List Int)).erase 4
      (cursor_at (List.range ([0, 1, 2] : List Int).length) 0 1)
      (cursor_at (List.range ([0, 1, 2] : List Int).length) 0 (1 + 1))
      = .ok (⟨0, [⟨2, 2, 0, false, true⟩, ⟨2, 0, 1, true, false⟩, ⟨0, 0, 2, false, false⟩]⟩,
        ⟨2, 0⟩) := rfl
  rw [e] at he
  have h1 := (Prod.mk.inj (Except.ok.inj he)).1
  rw [← h1] at hrep
  exact ⟨_, hrep⟩

/-! ## Wrapping `int` arithmetic -/

theorem wrap_int_of_is_int {x : Int} (h : is_int x) : wrap_int x = x := by
  obtain ⟨h1, h2⟩ := h
  unfold wrap_int
  omega

theorem wrap_int_is_int (x : Int) : is_int (wrap_int x) := by
  unfold wrap_int
  constructor <;> omega

theorem wrap_int_succ (x : Int) : wrap_int (wrap_int x + 1) = wrap_int (x + 1) := by
  unfold wrap_int
  omega

theorem wrap_int_eq_iff {x : Int} (q : Nat) (h : is_int x) (hq : q ≤ 2 ^ 32) :
    wrap_int (x + (q : Int)) = x ↔ q = 0 ∨ q = 2 ^ 32 := by
  obtain ⟨h1, h2⟩ := h
  unfold wrap_int
  have : (2 : Nat) ^ 32 = 4294967296 := by norm_num
  rw [this] at hq ⊢
  constructor
  · intro e
    omega
  · rintro (e | e) <;> subst e <;> omega

/-! ## The freeing walk with a wrapping lap counter -/

theorem erase_loop_not_ok_of_gt (head : Int) (last_it : generic_iterator) :
    ∀ (fuel : Nat) (ns : List (node T)) (cur cb : Int) (beheaded : Bool)
      (r : List (node T) × Bool), last_it.branch < cb →
      erase_loop head last_it fuel ns cur cb beheaded ≠ .ok r := by
  intro fuel
  induction fuel with
  | zero =>
    intro ns cur cb beheaded r _ h
    cases h
  | succ fuel ih =>
    intro ns cur cb beheaded r hcb h
    have hcond : ((cur != last_it.node) || (cb != last_it.branch)) = true := by
      have : cb ≠ last_it.branch := by omega
      simp [this]
    unfold erase_loop at h
    rw [if_pos hcond] at h
    obtain ⟨nd, -, h2⟩ := except_bind_ok h
    refine ih _ _ _ _ _ ?_ h2
    split_ifs <;> omega

/-- Where the exact freeing walk returns and the laps are `int`s, the wrapping
walk returns the same. -/
theorem erase_loop_wrapping_eq (head : Int) (last_it : generic_iterator)
    (hl : is_int last_it.branch) :
    ∀ (fuel : Nat) (ns : List (node T)) (cur cb : Int) (beheaded : Bool)
      (r : List (node T) × Bool), is_int cb →
      erase_loop head last_it fuel ns cur cb beheaded = .ok r →
      erase_loop_wrapping head last_it fuel ns cur cb beheaded = .ok r := by
  intro fuel
  induction fuel with
  | zero =>
    intro ns cur cb beheaded r _ h
    cases h
  | succ fuel ih =>
    intro ns cur cb beheaded r hcb h
    unfold erase_loop at h
    unfold erase_loop_wrapping
    by_cases hcond : ((cur != last_it.node) || (cb != last_it.branch)) = true
    · rw [if_pos hcond] at h ⊢
      obtain ⟨nd, hnd, h2⟩ := except_bind_ok h
      rw [hnd]
      simp only [bind, Except.bind]
      simp only at h2
      by_cases hh : (nd.fwd == head) = true
      · rw [if_pos hh] at h2 ⊢
        have hle : ¬ last_it.branch < cb + 1 := fun hc =>
          erase_loop_not_ok_of_gt _ _ _ _ _ _ _ _ hc h2
        have hint : is_int (cb + 1) := ⟨by have := hcb.1; omega, by have := hl.2; omega⟩
        rw [wrap_int_of_is_int hint]
        exact ih _ _ _ _ _ hint h2
      · rw [if_neg hh] at h2 ⊢
        exact ih _ _ _ _ _ hcb h2
    · rw [if_neg hcond] at h ⊢
      exact h

theorem erase_core_wrapping_eq (l l1 : circular_list T) (fuel : Nat)
    (first_it last_it : generic_iterator) (hf : is_int first_it.branch)
    (hl : is_int last_it.branch) (h : l.erase_core fuel first_it last_it = .ok l1) :
    l.erase_core_wrapping fuel first_it last_it = .ok l1 := by
  unfold circular_list.erase_core at h
  obtain ⟨u, ha, h⟩ := except_bind_ok h
  obtain ⟨first_node, hn0, h⟩ := except_bind_ok h
  obtain ⟨⟨ns1, beheaded⟩, hloop, h⟩ := except_bind_ok h
  have hloopw := erase_loop_wrapping_eq _ _ hl _ _ _ _ _ _ hf hloop
  have haw : assert (decide (last_it.branch = first_it.branch) ||
      decide (last_it.branch = wrap_int (first_it.branch + 1))) = .ok () := by
    have hc : last_it.branch = first_it.branch ∨ last_it.branch = first_it.branch + 1 := by
      by_contra hc
      have hb : (decide (last_it.branch = first_it.branch) ||
          decide (last_it.branch = first_it.branch + 1)) = false := by
        simpa [not_or] using hc
      rw [hb] at ha
      cases ha
    rcases hc with hc | hc
    · simp [assert, hc]
    · have : wrap_int (first_it.branch + 1) = first_it.branch + 1 :=
        wrap_int_of_is_int (hc ▸ hl)
      simp [assert, this, hc]
  unfold circular_list.erase_core_wrapping
  rw [haw, hn0]
  simp only [bind, Except.bind, hloopw]
  exact h

theorem erase_wrapping_eq (l : circular_list T) (fuel : Nat)
    (first_it last_it : generic_iterator) (r : circular_list T × generic_iterator)
    (hf : is_int first_it.branch) (hl : is_int last_it.branch)
    (h : l.erase fuel first_it last_it = .ok r) :
    l.erase_wrapping fuel first_it last_it = .ok r := by
  unfold circular_list.erase at h
  obtain ⟨l1, hcore, h⟩ := except_bind_ok h
  unfold circular_list.erase_wrapping
  rw [erase_core_wrapping_eq l l1 fuel first_it last_it hf hl hcore]
  exact h

/-- The wrapping freeing walk along the ring: started `t` steps after position
`a`, it frees the slots up to the first meeting with `last_it`, `m` steps after
position `a`. -/
theorem Fwd.erase_loop_wrapping_at {l : circular_list T} {cy : List Nat} (h : Fwd l cy)
    (hne : cy ≠ []) (last_it : generic_iterator) (b : Int) (a m : Nat)
    (hmeet : cursor_wrapping cy b (a + m) = last_it)
    (hnot : ∀ s, s < m → cursor_wrapping cy b (a + s) ≠ last_it) :
    ∀ (d t : Nat) (ns : List (node T)) (beheaded : Bool) (fuel : Nat), t + d = m →
      (∀ (i : Nat) (nd : node T), l.all_nodes[i]? = some nd →
        ∃ nd1 : node T, ns[i]? = some nd1 ∧ nd1.fwd = nd.fwd) →
      d < fuel →
      erase_loop_wrapping l.head last_it fuel ns (cursor_wrapping cy b (a + t)).node
        (cursor_wrapping cy b (a + t)).branch beheaded =
        .ok (free_all ((List.range' (a + t) d).map (slot cy)) ns,
          beheaded || ((List.range' (a + t) d).map (slot cy)).any
            (fun x => decide ((x : Int) = l.head))) := by
  have hpos : 0 < cy.length := List.length_pos.2 hne
  intro d
  induction d with
  | zero =>
    intro t ns beheaded fuel ht _ hf
    obtain ⟨f, rfl⟩ : ∃ f, fuel = f + 1 := ⟨fuel - 1, by omega⟩
    have : t = m := by omega
    subst this
    rw [hmeet]
    simp [erase_loop_wrapping, free_all]
  | succ d ih =>
    intro t ns beheaded fuel ht hpool hf
    obtain ⟨f, rfl⟩ : ∃ f, fuel = f + 1 := ⟨fuel - 1, by omega⟩
    obtain ⟨nd, hnd, -, hfwd, -⟩ := h.node_of_slot hne (a + t)
    obtain ⟨nd1, hnd1, hfwd1⟩ := hpool _ nd hnd
    rw [← hfwd1] at hfwd
    have hc : (((cursor_wrapping cy b (a + t)).node != last_it.node) ||
        ((cursor_wrapping cy b (a + t)).branch != last_it.branch)) = true := by
      by_contra hc
      simp only [Bool.or_eq_true, bne_iff_ne, ne_eq, not_or, not_not] at hc
      apply hnot t (by omega)
      cases last_it
      cases hx : cursor_wrapping cy b (a + t)
      rw [hx] at hc
      simp only at hc
      rw [hc.1, hc.2]
    have hnode : (cursor_wrapping cy b (a + t)).node = ((slot cy (a + t) : Nat) : Int) := rfl
    have hset : ns.set (slot cy (a + t)) { nd1 with free := true, is_head := false }
        = upd ns (slot cy (a + t)) freed := set_eq_upd hnd1 freed
    have hdiv : ((a + t + 1) / cy.length : Nat)
        = (a + t) / cy.length + if (a + t + 1) % cy.length = 0 then 1 else 0 := by
      rw [Nat.succ_div]
      simp [Nat.dvd_iff_mod_eq_zero]
    have hhead : nd1.fwd = l.head ↔ (a + t + 1) % cy.length = 0 := by
      rw [hfwd, head_eq_slot h.headed hne]
      constructor
      · intro e
        have := slot_inj h.nodup hne (Int.ofNat_inj.1 e)
        simpa using this
      · intro e
        rw [← slot_mod, e]
    have e2 : (if nd1.fwd = l.head then
        wrap_int ((cursor_wrapping cy b (a + t)).branch + 1)
        else (cursor_wrapping cy b (a + t)).branch) = (cursor_wrapping cy b (a + t + 1)).branch := by
      simp only [cursor_wrapping, hdiv]
      by_cases hz : (a + t + 1) % cy.length = 0
      · rw [if_pos (hhead.2 hz), if_pos hz, wrap_int_succ]
        congr 1
        push_cast
        omega
      · have : ¬ nd1.fwd = l.head := fun e => hz (hhead.1 e)
        rw [if_neg this, if_neg hz]
        simp
    have e3 : nd1.fwd = (cursor_wrapping cy b (a + t + 1)).node := hfwd
    have key := ih (t + 1) (upd ns (slot cy (a + t)) freed)
      (if ((slot cy (a + t) : Nat) : Int) = l.head then true else beheaded) f (by omega)
      (by
        intro i ndi hi
        obtain ⟨nd2, hn2, hf2⟩ := hpool i ndi hi
        rw [upd_get]
        by_cases hxi : slot cy (a + t) = i
        · exact ⟨freed nd2, by simp [hxi, hn2], by simpa [freed] using hf2⟩
        · exact ⟨nd2, by simp [hxi, hn2], hf2⟩)
      (by omega)
    have e1 : a + (t + 1) = a + t + 1 := by omega
    rw [e1] at key
    unfold erase_loop_wrapping
    rw [if_pos hc, hnode, node_at_nat hnd1]
    simp only [bind, Except.bind, toNat_natCast, hset, beq_iff_eq]
    rw [← hnode]
    rw [e2, e3]
    rw [hnode, key]
    rw [List.range'_succ, List.map_cons, List.any_cons]
    simp only [free_all]
    congr 2
    by_cases hx : ((slot cy (a + t) : Nat) : Int) = l.head <;> cases beheaded <;> simp [hx]

/-- A range whose end lies behind its start on the same lap: the wrapping walk
from position `a` meets `(slot b, lap)` for the first time after `2^32` laps. -/
theorem cursor_wrapping_behind {cy : List Nat} (hnd : cy.Nodup) (hne : cy ≠ []) (β : Int)
    (a b : Nat) (ha : a < cy.length) (hb : b < a) (hβ : is_int β) :
    cursor_wrapping cy β (a + (2 ^ 32 * cy.length + b - a)) = ⟨((slot cy b : Nat) : Int), β⟩ ∧
    ∀ s, s < 2 ^ 32 * cy.length + b - a →
      cursor_wrapping cy β (a + s) ≠ ⟨((slot cy b : Nat) : Int), β⟩ := by
  have hpos : 0 < cy.length := List.length_pos.2 hne
  have hp : (2 : Nat) ^ 32 = 4294967296 := by norm_num
  have hge : a ≤ 2 ^ 32 * cy.length + b := by
    have : cy.length ≤ 2 ^ 32 * cy.length := Nat.le_mul_of_pos_left _ (by norm_num)
    omega
  constructor
  · have e : a + (2 ^ 32 * cy.length + b - a) = 2 ^ 32 * cy.length + b := by omega
    have hs : slot cy (2 ^ 32 * cy.length + b) = slot cy b := by
      have : (2 ^ 32 * cy.length + b) % cy.length = b % cy.length := by
        rw [Nat.mul_comm, Nat.mul_add_mod]
      simp only [slot, this]
    have hd : (2 ^ 32 * cy.length + b) / cy.length = 2 ^ 32 := by
      rw [Nat.mul_comm, Nat.mul_add_div hpos, Nat.div_eq_of_lt (by omega)]
      rfl
    rw [e]
    simp only [cursor_wrapping, hs, hd]
    congr 1
    exact (wrap_int_eq_iff (2 ^ 32) hβ (le_refl _)).2 (Or.inr rfl)
  · intro s hs e
    have hnode : slot cy (a + s) = slot cy b := by
      have := congrArg generic_iterator.node e
      simp only [cursor_wrapping] at this
      exact Int.ofNat_inj.1 this
    have hbr : wrap_int (β + (((a + s) / cy.length : Nat) : Int)) = β := by
      have := congrArg generic_iterator.branch e
      simpa only [cursor_wrapping] using this
    have hmod := slot_inj hnd hne hnode
    rw [Nat.mod_eq_of_lt (show b < cy.length by omega)] at hmod
    have hq : (a + s) / cy.length ≤ 2 ^ 32 := by
      have hlt : a + s < (2 ^ 32 + 1) * cy.length := by
        have : (2 ^ 32 + 1) * cy.length = 2 ^ 32 * cy.length + cy.length := by ring
        omega
      have := (Nat.div_lt_iff_lt_mul hpos).2 hlt
      omega
    have hdm := Nat.div_add_mod (a + s) cy.length
    rcases (wrap_int_eq_iff _ hβ hq).1 hbr with h0 | h1
    · rw [h0, hmod] at hdm
      omega
    · rw [h1, hmod, hp] at hdm
      rw [hp] at hs
      omega

/-- The wrapping `erase` after a freeing walk of at least one lap: every slot
has been freed, the ring left is empty and `end()` is returned. -/
theorem Rep.erase_wrapping_over {l : circular_list T} {cy : List Nat} (h : Rep l cy)
    (hne : cy ≠ []) (first last : generic_iterator) (a q m fuel : Nat)
    (hfn : first.node = ((slot cy a : Nat) : Int)) (hln : last.node = ((slot cy q : Nat) : Int))
    (hguard : last.branch = first.branch ∨ last.branch = wrap_int (first.branch + 1))
    (ha : a < cy.length) (hm : cy.length ≤ m) (hf : 0 < fuel)
    (hloop : erase_loop_wrapping l.head last fuel l.all_nodes first.node first.branch false =
      .ok (free_all ((List.range' a m).map (slot cy)) l.all_nodes,
        false || ((List.range' a m).map (slot cy)).any (fun x => decide ((x : Int) = l.head)))) :
    ∃ l1, l.erase_wrapping fuel first last = .ok (l1, l1.end_) ∧ Rep l1 [] ∧
      l1.all_nodes.length = l.all_nodes.length := by
  have hpos : 0 < cy.length := List.length_pos.2 hne
  have hF := h.toFwd
  let es := (List.range' a m).map (slot cy)
  let bf := slot cy (a + cy.length - 1)
  let lt := slot cy q
  have hall : ∀ p, slot cy p ∈ es := fun p => mem_run_all h.cyc.nodup hne a m p ha hm
  have hassert : assert (decide (last.branch = first.branch) ||
      decide (last.branch = wrap_int (first.branch + 1))) = .ok () := by
    rcases hguard with e | e <;> simp [assert, e]
  obtain ⟨fnd, hfnd, -, hfbwd, -⟩ := h.node_bwd_of_slot hne (a + cy.length - 1)
  have hsa : slot cy (a + cy.length - 1 + 1) = slot cy a := by
    rw [show a + cy.length - 1 + 1 = a + cy.length by omega]
    simp [slot]
  rw [hsa] at hfnd
  have hany : (es.any fun x => decide ((x : Int) = l.head)) = true := by
    rw [head_eq_slot h.headed hne, any_head_iff es (slot cy 0)]
    simpa using hall 0
  obtain ⟨lnd, hlnd, -⟩ := (h.cyc.occ lt).1 (slot_mem hne q)
  have hlnd1 : (free_all es l.all_nodes)[lt]? = some (if lt ∈ es then freed lnd else lnd) := by
    rw [free_all_get, hlnd]; rfl
  obtain ⟨bnd, hbnd, -⟩ := (h.cyc.occ bf).1 (slot_mem hne (a + cy.length - 1))
  obtain ⟨bnd2, hbnd2⟩ : ∃ nd2, (upd (free_all es l.all_nodes) lt
      (fun nd => { nd with bwd := (bf : Int) }))[bf]? = some nd2 := by
    rw [upd_get, free_all_get, hbnd]
    by_cases hx : lt = bf <;> simp [hx]
  have hset2 := set_eq_upd hlnd1 (fun nd => { nd with bwd := (bf : Int) })
  have hset3 := set_eq_upd hbnd2 (fun nd => { nd with fwd := (lt : Int) })
  have hpt := relinked_get l.all_nodes es bf lt
  have hlnd3 := hpt lt
  rw [hlnd] at hlnd3
  have hflag := h.headed.flag
  have hhead := head_eq_slot h.headed hne
  have hnode_last : node_at (upd (upd (free_all es l.all_nodes) lt
      (fun nd => { nd with bwd := (bf : Int) })) bf (fun nd => { nd with fwd := (lt : Int) }))
      ((lt : Nat) : Int) = .ok (relinked es bf lt lt lnd) := node_at_nat hlnd3
  have hnode1 : node_at (free_all es l.all_nodes) ((lt : Nat) : Int)
      = .ok (if lt ∈ es then freed lnd else lnd) := node_at_nat hlnd1
  have hnode0 : node_at l.all_nodes first.node = .ok fnd := by
    rw [hfn]
    exact node_at_nat hfnd
  have hnodebf : node_at (upd (free_all es l.all_nodes) lt (fun nd => { nd with bwd := (bf : Int) }))
      ((bf : Nat) : Int) = .ok bnd2 := node_at_nat hbnd2
  have hlt_node : last.node = ((lt : Nat) : Int) := hln
  have hfb : fnd.bwd = ((bf : Nat) : Int) := hfbwd
  have hL : lt ∈ es := hall q
  have hcore : l.erase_core_wrapping fuel first last =
      .ok ⟨-1, upd (upd (free_all es l.all_nodes) lt (fun nd => { nd with bwd := (bf : Int) }))
        bf (fun nd => { nd with fwd := (lt : Int) })⟩ := by
    simp only [circular_list.erase_core_wrapping, hassert, hnode0, hloop, hlt_node, hnode1, hfb,
      hset2, hnodebf, toNat_natCast, hset3, hnode_last, hany, bind, Except.bind, pure,
      Except.pure, Bool.false_or]
    simp [relinked, hL]
  generalize hns3 : upd (upd (free_all es l.all_nodes) lt (fun nd => { nd with bwd := (bf : Int) }))
      bf (fun nd => { nd with fwd := (lt : Int) }) = ns3 at *
  have hlen3 : ns3.length = l.all_nodes.length := by
    rw [← hns3, upd_length, upd_length, free_all_length]
  have hrep : Rep (⟨-1, ns3⟩ : circular_list T) [] := by
    refine ⟨⟨List.nodup_nil, ?_, ?_, ?_⟩, rfl, ?_⟩
    · intro i
      constructor
      · intro hi
        cases hi
      · rintro ⟨nd3, hn3, hfr⟩
        exfalso
        rw [hpt] at hn3
        cases hn : l.all_nodes[i]? with
        | none => simp [hn] at hn3
        | some nd =>
          simp only [hn, Option.map_some', Option.some.injEq] at hn3
          subst hn3
          by_cases hie : i ∈ es
          · simp [relinked, hie] at hfr
          · simp only [relinked, hie, if_false] at hfr
            have hic : i ∈ cy := (h.cyc.occ i).2 ⟨nd, hn, hfr⟩
            obtain ⟨p, hp, hget⟩ := List.getElem_of_mem hic
            have hs : slot cy p = i := by
              simp [slot, Nat.mod_eq_of_lt hp, List.getElem?_eq_getElem hp, hget]
            exact hie (hs ▸ hall p)
    · intro p x y hx
      simp at hx
    · intro p x y hx
      simp at hx
    · intro i nd3 hn3
      rw [hpt] at hn3
      cases hn : l.all_nodes[i]? with
      | none => simp [hn] at hn3
      | some nd =>
        simp only [hn, Option.map_some', Option.some.injEq] at hn3
        subst hn3
        have hfl := hflag i nd hn
        constructor
        · intro hh
          exfalso
          by_cases hie : i ∈ es
          · simp [relinked, hie] at hh
          · simp only [relinked, hie, if_false] at hh
            have he := hfl.1 hh
            rw [hhead] at he
            have := Int.ofNat_inj.1 he
            rw [this] at hie
            exact hie (hall 0)
        · intro he
          exfalso
          have : (0 : Int) ≤ (i : Int) := Int.ofNat_nonneg i
          change (i : Int) = -1 at he
          omega
  refine ⟨⟨-1, ns3⟩, ?_, hrep, hlen3⟩
  have hcons : (⟨-1, ns3⟩ : circular_list T)._list_is_consistent fuel = .ok true :=
    hrep.consistent (by simpa using hf)
  have hnode : node_at ns3 last.node = .ok (relinked es bf lt lt lnd) := by
    rw [hlt_node]
    exact hnode_last
  simp only [circular_list.erase_wrapping, hcore, hcons, assert, hnode, bind, Except.bind, pure,
    Except.pure, if_true]
  simp [relinked, hL]

/-! ## Forward steps with a wrapping lap counter -/

theorem Fwd.inc_wrapping_at {l : circular_list T} {cy : List Nat} (h : Fwd l cy) (hne : cy ≠ [])
    (b : Int) (q : Nat) :
    l.inc_wrapping (cursor_wrapping cy b q) = .ok (cursor_wrapping cy b (q + 1)) := by
  obtain ⟨nd, hnd, hfree, hfwd, -⟩ := h.node_of_slot hne q
  obtain ⟨f, hf, hffree, -, hfh⟩ := h.node_of_slot hne (q + 1)
  have hpos : 0 < cy.length := List.length_pos.2 hne
  have hdiv : ((q + 1) / cy.length : Nat) = q / cy.length + if (q + 1) % cy.length = 0 then 1 else 0 := by
    rw [Nat.succ_div]
    simp [Nat.dvd_iff_mod_eq_zero]
  simp only [circular_list.inc_wrapping, cursor_wrapping, node_at_nat hnd, hfwd, node_at_nat hf,
    hfree, hffree, assert, bind, Except.bind, pure, Except.pure]
  by_cases hz : (q + 1) % cy.length = 0
  · have : f.is_head = true := hfh.2 hz
    simp only [this, hdiv, hz, if_true, Bool.not_false]
    rw [wrap_int_succ]
    congr 3
    push_cast
    omega
  · have : f.is_head = false := by
      cases hh : f.is_head
      · rfl
      · exact absurd (hfh.1 hh) hz
    simp [this, hdiv, hz]

theorem Fwd.inc_n_wrapping_at {l : circular_list T} {cy : List Nat} (h : Fwd l cy)
    (hne : cy ≠ []) (b : Int) (k q : Nat) :
    l.inc_n_wrapping k (cursor_wrapping cy b q) = .ok (cursor_wrapping cy b (q + k)) := by
  induction k generalizing q with
  | zero => rfl
  | succ k ih =>
    simp only [circular_list.inc_n_wrapping, h.inc_wrapping_at hne, bind, Except.bind]
    rw [ih (q + 1)]
    congr 2
    omega

theorem wrap_int_pred (x : Int) : wrap_int (wrap_int x - 1) = wrap_int (x - 1) := by
  unfold wrap_int
  omega

theorem Rep.dec_wrapping_at {l : circular_list T} {cy : List Nat} (h : Rep l cy) (hne : cy ≠ [])
    (b : Int) (q : Nat) :
    l.dec_wrapping (cursor_wrapping cy b (q + 1)) = .ok (cursor_wrapping cy b q) := by
  obtain ⟨nd, hnd, hfree, hbwd, hh⟩ := h.node_bwd_of_slot hne q
  obtain ⟨p, hp, hpfree, -, -⟩ := h.toFwd.node_of_slot hne q
  have hdiv : ((q + 1) / cy.length : Nat) = q / cy.length + if (q + 1) % cy.length = 0 then 1 else 0 := by
    rw [Nat.succ_div]
    simp [Nat.dvd_iff_mod_eq_zero]
  simp only [circular_list.dec_wrapping, cursor_wrapping, node_at_nat hnd, hbwd, node_at_nat hp,
    hfree, hpfree, assert, bind, Except.bind, pure, Except.pure]
  by_cases hz : (q + 1) % cy.length = 0
  · have : nd.is_head = true := hh.2 hz
    simp only [this, hdiv, hz, if_true, Bool.not_false]
    rw [wrap_int_pred]
    congr 3
    push_cast
    omega
  · have : nd.is_head = false := by
      cases hx : nd.is_head
      · rfl
      · exact absurd (hh.1 hx) hz
    simp [this, hdiv, hz]

theorem Rep.dec_n_wrapping_at {l : circular_list T} {cy : List Nat} (h : Rep l cy)
    (hne : cy ≠ []) (b : Int) (k q : Nat) :
    l.dec_n_wrapping k (cursor_wrapping cy b (q + k)) = .ok (cursor_wrapping cy b q) := by
  induction k generalizing q with
  | zero => rfl
  | succ k ih =>
    have e : q + (k + 1) = (q + k) + 1 := by omega
    rw [e]
    simp only [circular_list.dec_n_wrapping, h.dec_wrapping_at hne b (q + k), bind, Except.bind]
    exact ih q

theorem cursor_wrapping_shift_mul (cy : List Nat) (hne : cy ≠ []) (b : Int) (q j : Nat) :
    cursor_wrapping cy b (q + j * cy.length) = cursor_wrapping cy (b + (j : Int)) q := by
  have hpos : 0 < cy.length := List.length_pos.2 hne
  simp only [cursor_wrapping, slot, Nat.add_mul_mod_self_right, Nat.add_mul_div_right _ _ hpos]
  congr 2
  push_cast
  omega

theorem cursor_wrapping_of_is_int (cy : List Nat) {β : Int} (hβ : is_int β) {a : Nat}
    (ha : a < cy.length) :
    cursor_wrapping cy β a = ⟨((slot cy a : Nat) : Int), β⟩ := by
  simp [cursor_wrapping, Nat.div_eq_of_lt ha, wrap_int_of_is_int hβ]

/-- A wrapping step that does not overflow is the exact step. -/
theorem inc_wrapping_eq (l : circular_list T) (it : generic_iterator)
    (h : is_int (it.branch + 1)) : l.inc_wrapping it = l.inc it := by
  simp only [circular_list.inc_wrapping, circular_list.inc, wrap_int_of_is_int h]

theorem dec_wrapping_eq (l : circular_list T) (it : generic_iterator)
    (h : is_int (it.branch - 1)) : l.dec_wrapping it = l.dec it := by
  simp only [circular_list.dec_wrapping, circular_list.dec, wrap_int_of_is_int h]

theorem cursor_wrapping_range (n : Nat) (hn : 0 < n) (b : Int) (q : Nat) :
    cursor_wrapping (List.range n) b q
      = ⟨((q : Int) + b * n) % n, wrap_int (((q : Int) + b * n) / n)⟩ := by
  have hn0 : (n : Int) ≠ 0 := by omega
  simp only [cursor_wrapping, slot_range n q hn, List.length_range]
  rw [Int.add_mul_emod_self, Int.add_mul_ediv_right _ _ hn0]
  congr 2
  push_cast
  omega

theorem deref_of_node (l : circular_list T) (it it1 : generic_iterator) (h : it.node = it1.node) :
    l.deref it = l.deref it1 := by
  simp only [circular_list.deref, h]

/-- The closed form of `begin() + k` on a freshly built ring, the lap counted
with wrapping `int` arithmetic. -/
theorem of_vector_next_wrapping (S : List T) (k : Int) (hne : S ≠ [])
    (hlt : k < 0 → S.length < 2 ^ 63) :
    ∃ v, S[(k % (S.length : Int)).toNat]? = some v ∧
      (circular_list.of_vector S).next_wrapping (circular_list.of_vector S).begin k
        = .ok ⟨k % (S.length : Int), wrap_int (k / (S.length : Int))⟩ ∧
      (circular_list.of_vector S).deref ⟨k % (S.length : Int), wrap_int (k / (S.length : Int))⟩
        = .ok v := by
  have hF := of_vector_fwd S hne
  have hn : 0 < S.length := List.length_pos.2 hne
  have hcne : List.range S.length ≠ [] := by simpa using hne
  have hV := of_vector_values S
  have hbegin : (circular_list.of_vector S).begin = cursor_wrapping (List.range S.length) 0 0 := by
    rw [begin_eq_cursor hF.headed hcne]
    simp [cursor_at, cursor_wrapping, wrap_int]
  have key : ∀ (b : Int) (q : Nat), (q : Int) + b * (S.length : Int) = k →
      ∃ v, S[(k % (S.length : Int)).toNat]? = some v ∧
        cursor_wrapping (List.range S.length) b q
          = ⟨k % (S.length : Int), wrap_int (k / (S.length : Int))⟩ ∧
        (circular_list.of_vector S).deref ⟨k % (S.length : Int), wrap_int (k / (S.length : Int))⟩
          = .ok v := by
    intro b q hq
    have hc := cursor_wrapping_range S.length hn b q
    rw [hq] at hc
    obtain ⟨v, hv, hd⟩ := hF.deref_at hcne hV b q
    rw [deref_of_node _ (cursor_at (List.range S.length) b q)
      (cursor_wrapping (List.range S.length) b q) rfl, hc] at hd
    rw [List.length_range] at hv
    refine ⟨v, ?_, hc, hd⟩
    have : (k % (S.length : Int)).toNat = q % S.length := by
      rw [← hq, Int.add_mul_emod_self]
      norm_cast
    rw [this]
    exact hv
  cases k with
  | ofNat j =>
    obtain ⟨v, hv, hc, hd⟩ := key 0 j (by simp)
    refine ⟨v, hv, ?_, hd⟩
    rw [← hc, hbegin]
    have := hF.inc_n_wrapping_at hcne 0 j 0
    simpa [circular_list.next_wrapping, circular_list.advance_wrapping] using this
  | negSucc j =>
    have hR := of_vector_rep S hne (hlt (Int.negSucc_lt_zero j))
    have hge : j + 1 ≤ (j + 1) * S.length := Nat.le_mul_of_pos_right _ hn
    obtain ⟨v, hv, hc, hd⟩ := key (-((j + 1 : Nat) : Int)) ((j + 1) * S.length - (j + 1)) (by
      rw [Int.negSucc_eq]
      push_cast [Nat.cast_sub hge]
      ring)
    refine ⟨v, hv, ?_, hd⟩
    rw [← hc]
    have hb : (circular_list.of_vector S).begin
        = cursor_wrapping (List.range S.length) (-((j + 1 : Nat) : Int))
          (((j + 1) * S.length - (j + 1)) + (j + 1)) := by
      have e : ((j + 1) * S.length - (j + 1)) + (j + 1)
          = 0 + (j + 1) * (List.range S.length).length := by
        rw [List.length_range]
        omega
      rw [e, cursor_wrapping_shift_mul _ hcne, hbegin]
      congr 1
      omega
    have hdec := hR.dec_n_wrapping_at hcne (-((j + 1 : Nat) : Int)) (j + 1)
      ((j + 1) * S.length - (j + 1))
    rw [← hb] at hdec
    exact hdec

/-- The closed form of `begin() + k` on a freshly built ring, in exact
arithmetic. -/
theorem of_vector_next_exact (S : List T) (k : Int) (hne : S ≠ [])
    (hlt : k < 0 → S.length < 2 ^ 63) :
    (circular_list.of_vector S).next (circular_list.of_vector S).begin k
      = .ok ⟨k % (S.length : Int), k / (S.length : Int)⟩ := by
  have hF := of_vector_fwd S hne
  have hn : 0 < S.length := List.length_pos.2 hne
  have hcne : List.range S.length ≠ [] := by simpa using hne
  have hbegin := begin_eq_cursor hF.headed hcne
  have key : ∀ (b : Int) (q : Nat), (q : Int) + b * (S.length : Int) = k →
      cursor_at (List.range S.length) b q = ⟨k % (S.length : Int), k / (S.length : Int)⟩ := by
    intro b q hq
    have hc := cursor_at_range S.length hn b q
    rw [hq] at hc
    exact hc
  cases k with
  | ofNat j =>
    rw [← key 0 j (by simp)]
    exact hF.next_begin hcne j
  | negSucc j =>
    have hR := of_vector_rep S hne (hlt (Int.negSucc_lt_zero j))
    have hge : j + 1 ≤ (j + 1) * S.length := Nat.le_mul_of_pos_right _ hn
    rw [← key (-((j + 1 : Nat) : Int)) ((j + 1) * S.length - (j + 1)) (by
      rw [Int.negSucc_eq]
      push_cast [Nat.cast_sub hge]
      ring)]
    have hb : (circular_list.of_vector S).begin
        = cursor_at (List.range S.length) (-((j + 1 : Nat) : Int))
          (((j + 1) * S.length - (j + 1)) + (j + 1)) := by
      have e : ((j + 1) * S.length - (j + 1)) + (j + 1)
          = 0 + (j + 1) * (List.range S.length).length := by
        rw [List.length_range]
        omega
      rw [e, cursor_at_shift_mul _ hcne, hbegin]
      congr 1
      omega
    have hdec := hR.dec_n_at hcne (-((j + 1 : Nat) : Int)) (j + 1) ((j + 1) * S.length - (j + 1))
    rw [← hb] at hdec
    exact hdec

/-! ## The claims -/

/-- C2 (insert places the values in order immediately before the position):
for a well-formed non-empty ring whose traversal from head is `L`, every
`k ≤ n` and every `V`, the call `insert(begin()+k, V)` returns, after it the
traversal from head is `L.take k ++ V ++ L.drop k`, and `size()` is
`n + |V|`. -/
theorem insert_places_values [Inhabited T] (l : circular_list T) (L V : List T)
    (k fuel0 fuel : Nat) (hwf : well_formed l) (hL : l.to_vector fuel0 = .ok L) (hne : L ≠ [])
    (hk : k ≤ L.length) (hf : l.all_nodes.length + V.length < fuel) :
    ∃ pos l2, l.next l.begin (k : Int) = .ok pos ∧ l.insert fuel pos V = .ok l2 ∧
      l2.to_vector fuel = .ok (L.take k ++ V ++ L.drop k) ∧
      l2.size fuel = .ok (L.length + V.length) := by
  obtain ⟨cy, h⟩ := hwf
  have hV := h.toFwd.values_of_to_vector hL
  have hlen := values_length hV
  have hcne : cy ≠ [] := (h.nonempty_iff hV).2 hne
  have hle := h.cyc.length_le
  have hpos : 0 < cy.length := List.length_pos.2 hcne
  refine ⟨cursor_at cy 0 k, ?_⟩
  by_cases hkn : k < cy.length
  · obtain ⟨l2, news, hins, hrep, hnl, h1, h2, -⟩ := h.insert hcne 0 k hkn V fuel hf
    have hc : cursor_at cy 0 k = ⟨((slot cy k : Nat) : Int), 0⟩ := by
      simp [cursor_at, Nat.div_eq_of_lt hkn]
    have hcyc : insert_cycle cy k (decide ((0 : Int) = 0)) news = cy.take k ++ news ++ cy.drop k := by
      simp [insert_cycle]
    rw [hcyc] at hrep
    refine ⟨l2, h.toFwd.next_begin hcne k, by rw [hc]; exact hins, ?_, ?_⟩
    · exact hrep.toFwd.to_vector (insert_cycle_values hV h1 h2 k) (by simp; omega)
    · have : l2.size fuel = .ok (cy.take k ++ news ++ cy.drop k).length :=
        hrep.toFwd.size (by simp; omega)
      rw [this]
      congr 1
      simp
      omega
  · have hkn2 : k = cy.length := by omega
    obtain ⟨l2, news, hins, hrep, hnl, h1, h2, -⟩ := h.insert hcne 1 0 hpos V fuel hf
    have hc : cursor_at cy 0 k = ⟨((slot cy 0 : Nat) : Int), 1⟩ := by
      rw [hkn2]
      simp [cursor_at, slot, Nat.div_self hpos]
    have hcyc : insert_cycle cy 0 (decide ((1 : Int) = 0)) news = cy.take k ++ news ++ cy.drop k := by
      rw [hkn2]
      simp [insert_cycle]
    rw [hcyc] at hrep
    refine ⟨l2, h.toFwd.next_begin hcne k, by rw [hc]; exact hins, ?_, ?_⟩
    · exact hrep.toFwd.to_vector (insert_cycle_values hV h1 h2 k) (by simp; omega)
    · have : l2.size fuel = .ok (cy.take k ++ news ++ cy.drop k).length :=
        hrep.toFwd.size (by simp; omega)
      rw [this]
      congr 1
      simp
      omega

theorem insert_places_values_witness :
    well_formed (circular_list.of_vector ([0, 1, 2] : List Int)) ∧
    (circular_list.of_vector ([0, 1, 2] : List Int)).to_vector 4 = .ok [0, 1, 2] ∧
    ∃ pos l2,
      (circular_list.of_vector ([0, 1, 2] : List Int)).next
        (circular_list.of_vector ([0, 1, 2] : List Int)).begin ((1 : Nat) : Int) = .ok pos ∧
      (circular_list.of_vector ([0, 1, 2] : List Int)).insert 7 pos [0, 1, 2] = .ok l2 ∧
      l2.to_vector 7 = .ok (([0, 1, 2] : List Int).take 1 ++ [0, 1, 2] ++ ([0, 1, 2] : List Int).drop 1) ∧
      l2.size 7 = .ok (([0, 1, 2] : List Int).length + ([0, 1, 2] : List Int).length) :=
  ⟨of_vector_wf _ (by decide) (by norm_num), rfl,
    insert_places_values _ [0, 1, 2] [0, 1, 2] 1 4 7 (of_vector_wf _ (by decide) (by norm_num)) rfl
      (by decide) (by decide) (by decide)⟩

/-- C3 (erase of a run that does not pass the head), as amended to non-empty
rings: for a well-formed non-empty ring whose traversal from head is `L` and
`i ≤ j ≤ n`, the call `erase(begin()+i, begin()+j)` returns and leaves the
traversal `L.take i ++ L.drop j`; the head index is unchanged when `i > 0`, and
when `i = 0` and `j < n` the new head is the slot addressed by `begin()+j`,
which held `L[j]`. -/
theorem erase_within_lap (l : circular_list T) (L : List T) (i j fuel0 fuel : Nat)
    (hwf : well_formed l) (hL : l.to_vector fuel0 = .ok L) (hne : L ≠ [])
    (hij : i ≤ j) (hj : j ≤ L.length) (hf : l.all_nodes.length < fuel) :
    ∃ first last l1 ret, l.next l.begin (i : Int) = .ok first ∧
      l.next l.begin (j : Int) = .ok last ∧
      l.erase fuel first last = .ok (l1, ret) ∧
      l1.to_vector fuel = .ok (L.take i ++ L.drop j) ∧
      (0 < i → l1.head = l.head) ∧
      (i = 0 → j < L.length → l1.head = last.node ∧ ∃ v, L[j]? = some v ∧ l.deref last = .ok v) := by
  obtain ⟨cy, h⟩ := hwf
  have hV := h.toFwd.values_of_to_vector hL
  have hlen := values_length hV
  have hcne : cy ≠ [] := (h.nonempty_iff hV).2 hne
  have hle := h.cyc.length_le
  have hpos : 0 < cy.length := List.length_pos.2 hcne
  refine ⟨cursor_at cy 0 i, cursor_at cy 0 j, ?_⟩
  have hvals : ∀ (l1 : circular_list T), (∀ x, value_at l1.all_nodes x = value_at l.all_nodes x) →
      (cy.take i ++ cy.drop j).map (value_at l1.all_nodes) = (L.take i ++ L.drop j).map some := by
    intro l1 hval
    have e : value_at l1.all_nodes = value_at l.all_nodes := funext hval
    rw [e]
    simp only [List.map_append, List.map_take, List.map_drop, hV]
  by_cases hi : i < cy.length
  · obtain ⟨l1, he, hrep, hlen1, hval, hh1, hh2⟩ :=
      h.erase hcne 0 i (j - i) fuel hi (by omega) (by omega)
    have hij2 : i + (j - i) = j := by omega
    rw [hij2] at he hh1 hh2
    rw [erase_cycle_within i j hij (by omega)] at hrep
    refine ⟨l1, _, h.toFwd.next_begin hcne i, h.toFwd.next_begin hcne j, he, ?_, ?_, ?_⟩
    · refine hrep.toFwd.to_vector (hvals l1 hval) ?_
      have : (cy.take i ++ cy.drop j).length ≤ cy.length := by simp; omega
      omega
    · intro hi0
      exact hh2 (by omega)
    · intro hi0 hjn
      obtain ⟨v, hv, hd⟩ := h.toFwd.deref_at hcne hV 0 j
      rw [Nat.mod_eq_of_lt (by omega)] at hv
      refine ⟨?_, v, hv, hd⟩
      by_cases hj0 : j = 0
      · subst hj0
        subst hi0
        rw [hh2 (by omega), head_eq_slot h.headed hcne]
        rfl
      · exact hh1 (by omega) (Or.inl ⟨hi0, by omega⟩)
  · have hin : i = cy.length := by omega
    have hjn : j = cy.length := by omega
    obtain ⟨l1, he, hrep, hlen1, hval, hh1, hh2⟩ :=
      h.erase hcne 1 0 0 fuel hpos (by omega) (by omega)
    have hc : cursor_at cy 1 0 = cursor_at cy 0 cy.length := by
      have := cursor_at_shift cy hcne 0 0
      simpa using this.symm
    rw [Nat.add_zero, hc] at he
    have hcyc : erase_cycle cy 0 0 = cy.take i ++ cy.drop j := by
      rw [hin, hjn]
      simp [erase_cycle]
    rw [hcyc] at hrep
    subst hin
    subst hjn
    refine ⟨l1, _, h.toFwd.next_begin hcne _, h.toFwd.next_begin hcne _, he, ?_, ?_, ?_⟩
    · refine hrep.toFwd.to_vector (hvals l1 hval) ?_
      simp
      omega
    · intro _
      exact hh2 (by omega)
    · intro hi0
      omega

theorem erase_within_lap_witness :
    well_formed (circular_list.of_vector ([0, 1, 2] : List Int)) ∧
    (circular_list.of_vector ([0, 1, 2] : List Int)).to_vector 4 = .ok [0, 1, 2] ∧
    ∃ first last l1 ret,
      (circular_list.of_vector ([0, 1, 2] : List Int)).next
        (circular_list.of_vector ([0, 1, 2] : List Int)).begin ((1 : Nat) : Int) = .ok first ∧
      (circular_list.of_vector ([0, 1, 2] : List Int)).next
        (circular_list.of_vector ([0, 1, 2] : List Int)).begin ((2 : Nat) : Int) = .ok last ∧
      (circular_list.of_vector ([0, 1, 2] : List Int)).erase 4 first last = .ok (l1, ret) ∧
      l1.to_vector 4 = .ok (([0, 1, 2] : List Int).take 1 ++ ([0, 1, 2] : List Int).drop 2) ∧
      (0 < 1 → l1.head = (circular_list.of_vector ([0, 1, 2] : List Int)).head) ∧
      (1 = 0 → 2 < ([0, 1, 2] : List Int).length →
        l1.head = last.node ∧ ∃ v, ([0, 1, 2] : List Int)[2]? = some v ∧
          (circular_list.of_vector ([0, 1, 2] : List Int)).deref last = .ok v) :=
  ⟨of_vector_wf _ (by decide) (by norm_num), rfl,
    erase_within_lap _ [0, 1, 2] 1 2 4 4 (of_vector_wf _ (by decide) (by norm_num)) rfl
      (by decide) (by decide) (by decide) (by decide)⟩

/-- C3 as stated fails on the empty ring: the default-constructed ring is
well-formed with traversal `[]`, `begin() + 0` is `begin()`, and
`erase(begin(), begin())` reads `all_nodes[-1]`, outside the pool, whatever the
fuel. -/
theorem erase_within_lap_empty_counterexample :
    well_formed (circular_list.mk_empty : circular_list Int) ∧
    (circular_list.mk_empty : circular_list Int).to_vector 1 = .ok [] ∧
    (circular_list.mk_empty : circular_list Int).next
      (circular_list.mk_empty : circular_list Int).begin ((0 : Nat) : Int)
      = .ok (circular_list.mk_empty : circular_list Int).begin ∧
    ∀ fuel : Nat, (circular_list.mk_empty : circular_list Int).erase fuel
      (circular_list.mk_empty : circular_list Int).begin
      (circular_list.mk_empty : circular_list Int).begin = .error Fault.bounds :=
  ⟨mk_empty_wf, rfl, rfl, fun _ => rfl⟩

/-- C4 (erase of a run that wraps past the head): for a well-formed ring whose
traversal from head is `L` and `0 < i < n < j ≤ i + n`, the call
`erase(begin()+i, begin()+j)` returns and leaves as traversal the elements of
`L` at the indices `j - n, ..., i - 1`; when `j < i + n` the new head is the
slot addressed by `begin()+j`, which held `L[j - n]`. -/
theorem erase_across_head (l : circular_list T) (L : List T) (i j fuel0 fuel : Nat)
    (hwf : well_formed l) (hL : l.to_vector fuel0 = .ok L)
    (_hi0 : 0 < i) (hin : i < L.length) (hnj : L.length < j) (hj : j ≤ i + L.length)
    (hf : l.all_nodes.length < fuel) :
    ∃ first last l1 ret, l.next l.begin (i : Int) = .ok first ∧
      l.next l.begin (j : Int) = .ok last ∧
      l.erase fuel first last = .ok (l1, ret) ∧
      l1.to_vector fuel = .ok ((L.take i).drop (j - L.length)) ∧
      (j < i + L.length →
        l1.head = last.node ∧ ∃ v, L[j - L.length]? = some v ∧ l.deref last = .ok v) := by
  obtain ⟨cy, h⟩ := hwf
  have hV := h.toFwd.values_of_to_vector hL
  have hlen := values_length hV
  have hne : L ≠ [] := fun e => by simp [e] at hin
  have hcne : cy ≠ [] := (h.nonempty_iff hV).2 hne
  have hle := h.cyc.length_le
  obtain ⟨l1, he, hrep, hlen1, hval, hh1, hh2⟩ :=
    h.erase hcne 0 i (j - i) fuel (by omega) (by omega) (by omega)
  have hij2 : i + (j - i) = j := by omega
  rw [hij2] at he hh1 hh2
  rw [erase_cycle_wrap i j (by omega) (by omega)] at hrep
  refine ⟨cursor_at cy 0 i, cursor_at cy 0 j, l1, _, h.toFwd.next_begin hcne i,
    h.toFwd.next_begin hcne j, he, ?_, ?_⟩
  · refine hrep.toFwd.to_vector ?_ ?_
    · have e : value_at l1.all_nodes = value_at l.all_nodes := funext hval
      rw [e, hlen]
      simp only [List.map_take, List.map_drop, hV]
    · have : ((cy.take i).drop (j - cy.length)).length ≤ cy.length := by simp
      omega
  · intro hjn
    obtain ⟨v, hv, hd⟩ := h.toFwd.deref_at hcne hV 0 j
    have hmod : j % cy.length = j - L.length := by
      rw [Nat.mod_eq_sub_mod (by omega), Nat.mod_eq_of_lt (by omega), hlen]
    rw [hmod] at hv
    exact ⟨hh1 (by omega) (Or.inr (by omega)), v, hv, hd⟩

theorem erase_across_head_witness :
    well_formed (circular_list.of_vector ([0, 1, 2] : List Int)) ∧
    (circular_list.of_vector ([0, 1, 2] : List Int)).to_vector 4 = .ok [0, 1, 2] ∧
    ∃ first last l1 ret,
      (circular_list.of_vector ([0, 1, 2] : List Int)).next
        (circular_list.of_vector ([0, 1, 2] : List Int)).begin ((2 : Nat) : Int) = .ok first ∧
      (circular_list.of_vector ([0, 1, 2] : List Int)).next
        (circular_list.of_vector ([0, 1, 2] : List Int)).begin ((4 : Nat) : Int) = .ok last ∧
      (circular_list.of_vector ([0, 1, 2] : List Int)).erase 4 first last = .ok (l1, ret) ∧
      l1.to_vector 4 = .ok ((([0, 1, 2] : List Int).take 2).drop (4 - ([0, 1, 2] : List Int).length)) ∧
      (4 < 2 + ([0, 1, 2] : List Int).length →
        l1.head = last.node ∧ ∃ v, ([0, 1, 2] : List Int)[4 - ([0, 1, 2] : List Int).length]? = some v ∧
          (circular_list.of_vector ([0, 1, 2] : List Int)).deref last = .ok v) :=
  ⟨of_vector_wf _ (by decide) (by norm_num), rfl,
    erase_across_head _ [0, 1, 2] 2 4 4 4 (of_vector_wf _ (by decide) (by norm_num)) rfl
      (by decide) (by decide) (by decide) (by decide) (by decide)⟩

/-- C5 (erase everything): for a well-formed non-empty ring,
`erase(begin(), end())` returns and leaves an empty ring: `head` is the
sentinel `-1`, every slot of the pool is free and none has the head flag,
`size()` is `0` and `begin() == end()`. -/
theorem erase_everything (l : circular_list T) (fuel : Nat) (hwf : well_formed l)
    (hne : l.empty = false) (hf : l.all_nodes.length < fuel) :
    ∃ l1 ret, l.erase fuel l.begin l.end_ = .ok (l1, ret) ∧
      l1.head = -1 ∧ l1.empty = true ∧
      (∀ nd ∈ l1.all_nodes, nd.free = true ∧ nd.is_head = false) ∧
      l1.size fuel = .ok 0 ∧ l1.begin.eq l1.end_ = true := by
  obtain ⟨cy, h⟩ := hwf
  have hcne : cy ≠ [] := by
    intro e
    rw [(h.empty_iff).2 e] at hne
    exact Bool.noConfusion hne
  have hpos : 0 < cy.length := List.length_pos.2 hcne
  have hle := h.cyc.length_le
  obtain ⟨l1, he, hrep, hlen1, hval, hh1, hh2⟩ :=
    h.erase hcne 0 0 cy.length fuel hpos (le_refl _) (by omega)
  rw [Nat.zero_add, ← begin_eq_cursor h.headed hcne, ← end_eq_cursor h.headed hcne] at he
  have hcyc : erase_cycle cy 0 cy.length = [] := by
    simp [erase_cycle, hpos]
  rw [hcyc] at hrep
  refine ⟨l1, _, he, head_of_nil hrep.headed, (hrep.empty_iff).2 rfl, ?_, ?_,
    begin_eq_end_of_nil hrep.headed⟩
  · intro nd hnd
    obtain ⟨k, hk⟩ := List.getElem?_of_mem hnd
    constructor
    · cases hfr : nd.free
      · have := (hrep.cyc.occ k).2 ⟨nd, hk, hfr⟩
        simp at this
      · rfl
    · cases hh : nd.is_head
      · rfl
      · have := (hrep.headed.flag k nd hk).1 hh
        rw [head_of_nil hrep.headed] at this
        omega
  · have : l1.size fuel = .ok ([] : List Nat).length := hrep.toFwd.size (by simp; omega)
    simpa using this

theorem erase_everything_witness :
    well_formed (circular_list.of_vector ([0, 1, 2] : List Int)) ∧
    (circular_list.of_vector ([0, 1, 2] : List Int)).empty = false ∧
    ∃ l1 ret, (circular_list.of_vector ([0, 1, 2] : List Int)).erase 4
        (circular_list.of_vector ([0, 1, 2] : List Int)).begin
        (circular_list.of_vector ([0, 1, 2] : List Int)).end_ = .ok (l1, ret) ∧
      l1.head = -1 ∧ l1.empty = true ∧
      (∀ nd ∈ l1.all_nodes, nd.free = true ∧ nd.is_head = false) ∧
      l1.size 4 = .ok 0 ∧ l1.begin.eq l1.end_ = true :=
  ⟨of_vector_wf _ (by decide) (by norm_num), rfl,
    erase_everything _ 4 (of_vector_wf _ (by decide) (by norm_num)) rfl (by decide)⟩

/-- C6 (ring equality is equality of traversals): for two well-formed rings
`a` and `b` whose traversals from their own heads are `La` and `Lb`, the
comparison `a == b` returns, and it returns true exactly when `La = Lb`. -/
theorem ring_eq_iff_traversals [DecidableEq T] (a b : circular_list T) (La Lb : List T)
    (fa fb fuel : Nat) (hwa : well_formed a) (hwb : well_formed b)
    (hLa : a.to_vector fa = .ok La) (hLb : b.to_vector fb = .ok Lb)
    (hf : La.length < fuel) :
    a.eq b fuel = .ok (decide (La = Lb)) ∧ (a.eq b fuel = .ok true ↔ La = Lb) := by
  obtain ⟨ca, ha⟩ := hwa
  obtain ⟨cb, hb⟩ := hwb
  have h := ha.toFwd.eq_spec hb.toFwd (ha.toFwd.values_of_to_vector hLa)
    (hb.toFwd.values_of_to_vector hLb) hf
  refine ⟨h, ?_⟩
  rw [h]
  constructor
  · intro e
    have : decide (La = Lb) = true := Except.ok.inj e
    exact of_decide_eq_true this
  · intro e
    rw [decide_eq_true e]

theorem ring_eq_iff_traversals_witness :
    well_formed (circular_list.of_vector ([0, 2] : List Int)) ∧
    well_formed (circular_list.of_vector ([0, 1, 2] : List Int)) ∧
    (circular_list.of_vector ([0, 2] : List Int)).to_vector 3 = .ok [0, 2] ∧
    (circular_list.of_vector ([0, 1, 2] : List Int)).to_vector 4 = .ok [0, 1, 2] ∧
    (circular_list.of_vector ([0, 2] : List Int)).eq (circular_list.of_vector ([0, 1, 2] : List Int)) 3
      = .ok (decide (([0, 2] : List Int) = [0, 1, 2])) ∧
    ((circular_list.of_vector ([0, 2] : List Int)).eq
      (circular_list.of_vector ([0, 1, 2] : List Int)) 3 = .ok true ↔
      ([0, 2] : List Int) = [0, 1, 2]) :=
  ⟨of_vector_wf _ (by decide) (by norm_num), of_vector_wf _ (by decide) (by norm_num), rfl, rfl,
    ring_eq_iff_traversals _ _ [0, 2] [0, 1, 2] 3 4 3 (of_vector_wf _ (by decide) (by norm_num))
      (of_vector_wf _ (by decide) (by norm_num)) rfl rfl (by decide)⟩

/-- C7 (`size()` counts the occupied slots): for a well-formed ring, empty or
not, `size()` returns the number of pool slots whose `free` flag is false. -/
theorem size_counts_occupied (l : circular_list T) (fuel : Nat) (hwf : well_formed l)
    (hf : l.all_nodes.length < fuel) : l.size fuel = .ok l.occupied_count := by
  obtain ⟨cy, h⟩ := hwf
  have hle := h.cyc.length_le
  rw [h.toFwd.size (by omega), circular_list.occupied_count,
    occupied_count_eq l.all_nodes cy h.cyc.nodup h.cyc.occ]

theorem size_counts_occupied_witness :
    well_formed (circular_list.of_vector ([0, 1, 2] : List Int)) ∧
    (circular_list.of_vector ([0, 1, 2] : List Int)).size 4
      = .ok (circular_list.of_vector ([0, 1, 2] : List Int)).occupied_count :=
  ⟨of_vector_wf _ (by decide) (by norm_num),
    size_counts_occupied _ 4 (of_vector_wf _ (by decide) (by norm_num)) (by decide)⟩

/-- C8 (`begin() == end()` exactly on the empty ring): the default-constructed
ring has `empty()` true, `size()` zero and `begin() == end()`; and for a
well-formed ring whose traversal is `L`, `begin() == end()` holds exactly when
`L` is empty, so that on a non-empty ring `begin() != end()`; in both cases
`begin() == end()` is the value of `empty()`. The members `cbegin` and `cend`
are `begin` and `end_` in this development. -/
theorem begin_eq_end_iff_empty (l : circular_list T) (L : List T) (fuel0 fuel : Nat)
    (hwf : well_formed l) (hL : l.to_vector fuel0 = .ok L) :
    ((circular_list.mk_empty : circular_list T).empty = true ∧
      (circular_list.mk_empty : circular_list T).size (fuel + 1) = .ok 0 ∧
      (circular_list.mk_empty : circular_list T).begin.eq
        (circular_list.mk_empty : circular_list T).end_ = true) ∧
    (l.begin.eq l.end_ = true ↔ L = []) ∧
    (L ≠ [] → l.begin.ne l.end_ = true) ∧
    l.begin.eq l.end_ = l.empty := by
  obtain ⟨cy, h⟩ := hwf
  have hV := h.toFwd.values_of_to_vector hL
  have hiff : l.begin.eq l.end_ = true ↔ L = [] := by
    constructor
    · intro e
      by_contra hne
      have hcne := (h.nonempty_iff hV).2 hne
      rw [begin_eq_cursor h.headed hcne, end_eq_cursor h.headed hcne,
        cursor_at_ne_end hcne (List.length_pos.2 hcne)] at e
      exact Bool.noConfusion e
    · intro e
      have hc : cy = [] := by
        by_contra hcne
        exact (h.nonempty_iff hV).1 hcne e
      subst hc
      exact begin_eq_end_of_nil h.headed
  refine ⟨⟨rfl, rfl, rfl⟩, hiff, ?_, ?_⟩
  · intro hne
    have : l.begin.eq l.end_ = false := by
      cases hx : l.begin.eq l.end_
      · rfl
      · exact absurd (hiff.1 hx) hne
    simp [generic_iterator.ne, this]
  · simp [generic_iterator.eq, circular_list.begin, circular_list.end_, circular_list.empty]

theorem begin_eq_end_iff_empty_witness :
    well_formed (circular_list.of_vector ([0, 1, 2] : List Int)) ∧
    (circular_list.of_vector ([0, 1, 2] : List Int)).to_vector 4 = .ok [0, 1, 2] ∧
    ((circular_list.mk_empty : circular_list Int).empty = true ∧
      (circular_list.mk_empty : circular_list Int).size (0 + 1) = .ok 0 ∧
      (circular_list.mk_empty : circular_list Int).begin.eq
        (circular_list.mk_empty : circular_list Int).end_ = true) ∧
    ((circular_list.of_vector ([0, 1, 2] : List Int)).begin.eq
      (circular_list.of_vector ([0, 1, 2] : List Int)).end_ = true ↔ ([0, 1, 2] : List Int) = []) ∧
    (([0, 1, 2] : List Int) ≠ [] → (circular_list.of_vector ([0, 1, 2] : List Int)).begin.ne
      (circular_list.of_vector ([0, 1, 2] : List Int)).end_ = true) ∧
    (circular_list.of_vector ([0, 1, 2] : List Int)).begin.eq
      (circular_list.of_vector ([0, 1, 2] : List Int)).end_
      = (circular_list.of_vector ([0, 1, 2] : List Int)).empty :=
  ⟨of_vector_wf _ (by decide) (by norm_num), rfl,
    begin_eq_end_iff_empty _ [0, 1, 2] 4 0 (of_vector_wf _ (by decide) (by norm_num)) rfl⟩

/-- C9, evaluated on the code: the constructor applied to the empty sequence
sets `head = 0` on an empty pool, so `empty()` is false, `begin() != end()`,
and `size()` and the traversal read `all_nodes[0]`, outside the pool. -/
theorem of_vector_nil_not_empty :
    (circular_list.of_vector ([] : List Int)).head = 0 ∧
    (circular_list.of_vector ([] : List Int)).all_nodes = [] ∧
    (circular_list.of_vector ([] : List Int)).empty = false ∧
    (circular_list.of_vector ([] : List Int)).begin.eq
      (circular_list.of_vector ([] : List Int)).end_ = false ∧
    (∀ fuel : Nat, (circular_list.of_vector ([] : List Int)).size (fuel + 1) = .error Fault.bounds) ∧
    (∀ fuel : Nat, (circular_list.of_vector ([] : List Int)).to_vector (fuel + 1)
      = .error Fault.bounds) :=
  ⟨rfl, rfl, rfl, rfl, fun _ => rfl, fun _ => rfl⟩

/-- C10 (head ownership under insert): for a well-formed ring, a position
iterator on an occupied slot and a non-empty `V`, the call `insert(pos, V)`
returns; if `pos` addresses the head slot with lap `0`, afterwards `head` is a
slot that was not occupied before, holds `V[0]` and has the head flag, and the
old head slot has lost its flag; otherwise `head` and the head flag of every
slot are unchanged, the slots appended to the pool having no head flag. -/
theorem insert_head_ownership [Inhabited T] (l : circular_list T) (V : List T)
    (pos : generic_iterator) (posN fuel : Nat) (hwf : well_formed l) (hV : V ≠ [])
    (hposN : pos.node = (posN : Int))
    (hocc : ∃ nd, l.all_nodes[posN]? = some nd ∧ nd.free = false)
    (hf : l.all_nodes.length + V.length < fuel) :
    ∃ l2, l.insert fuel pos V = .ok l2 ∧
      (pos.node = l.head ∧ pos.branch = 0 →
        ∃ (hN oldN : Nat) (nd old : node T), l2.head = (hN : Int) ∧
          l2.all_nodes[hN]? = some nd ∧ nd.is_head = true ∧ nd.free = false ∧
          V[0]? = some nd.value ∧
          (¬ ∃ nd0, l.all_nodes[hN]? = some nd0 ∧ nd0.free = false) ∧
          l.head = (oldN : Int) ∧ l2.all_nodes[oldN]? = some old ∧ old.is_head = false) ∧
      (¬ (pos.node = l.head ∧ pos.branch = 0) →
        l2.head = l.head ∧
        ∀ i : Nat, ((l2.all_nodes[i]?).map node.is_head).getD false
          = ((l.all_nodes[i]?).map node.is_head).getD false) := by
  obtain ⟨cy, h⟩ := hwf
  have hmem : posN ∈ cy := (h.cyc.occ posN).2 hocc
  have hcne : cy ≠ [] := fun e => by simp [e] at hmem
  obtain ⟨p, hp⟩ := List.getElem?_of_mem hmem
  have hplt := get_lt hp
  have hslot : slot cy p = posN := slot_of_get hp
  have hhead := head_eq_slot h.headed hcne
  obtain ⟨l2, news, hins, hrep, hnl, h1, h2, h3, h4, h5, h6⟩ :=
    h.insert hcne pos.branch p hplt V fuel hf
  have hpe : pos = ⟨((slot cy p : Nat) : Int), pos.branch⟩ := by
    rw [hslot, ← hposN]
  rw [← hpe] at hins
  have hiff : (pos.node = l.head ∧ pos.branch = 0) ↔ (p = 0 ∧ pos.branch = 0) := by
    rw [hposN, hhead, ← hslot, Nat.cast_inj, slot_eq_zero_iff h.cyc.nodup hcne hplt]
  refine ⟨l2, hins, ?_, ?_⟩
  · intro hc
    have hc2 := hiff.1 hc
    rw [if_pos hc2] at h6
    obtain ⟨k, rest, hk⟩ : ∃ k rest, news = k :: rest := by
      cases news with
      | nil =>
        exfalso
        apply hV
        exact List.length_eq_zero.1 (by simpa using hnl.symm)
      | cons k rest => exact ⟨k, rest, rfl⟩
    subst hk
    simp only [List.head?_cons, Option.map_some', Option.getD_some] at h6
    have hkmem : k ∈ insert_cycle cy p (decide (pos.branch = 0)) (k :: rest) := by
      simp [insert_cycle, hc2.2]
    obtain ⟨nd, hnd, hfree⟩ := (hrep.cyc.occ k).1 hkmem
    have hval : V[0]? = some nd.value := by
      have e : ((k :: rest).map (value_at l2.all_nodes))[0]? = (V.map some)[0]? := by rw [h2]
      simp only [List.map_cons, List.getElem?_cons_zero, value_at, hnd, Option.map_some',
        List.getElem?_map] at e
      cases hv : V[0]? with
      | none => simp [hv] at e
      | some v =>
        simp only [hv, Option.map_some', Option.some.injEq] at e
        rw [e]
    have hold : slot cy 0 ∈ insert_cycle cy p (decide (pos.branch = 0)) (k :: rest) := by
      have := slot_mem hcne 0
      simp only [insert_cycle, hc2.2, decide_True, Bool.true_eq_false, and_false, if_false,
        List.mem_append]
      rcases List.mem_append.1 (by rw [List.take_append_drop]; exact this :
        slot cy 0 ∈ cy.take p ++ cy.drop p) with hx | hx
      · exact Or.inl (Or.inl hx)
      · exact Or.inr hx
    obtain ⟨old, hnold, -⟩ := (hrep.cyc.occ _).1 hold
    refine ⟨k, slot cy 0, nd, old, h6, hnd, ?_, hfree, hval, ?_, hhead, hnold, ?_⟩
    · exact (hrep.headed.flag k nd hnd).2 h6.symm
    · intro hex
      exact h3 k (List.mem_cons_self _ _) ((h.cyc.occ k).2 hex)
    · cases hx : old.is_head
      · rfl
      · exfalso
        have := (hrep.headed.flag _ old hnold).1 hx
        rw [h6] at this
        have hk0 : slot cy 0 = k := Int.ofNat_inj.1 this
        exact h3 k (List.mem_cons_self _ _) (hk0 ▸ slot_mem hcne 0)
  · intro hc
    have hc2 : ¬ (p = 0 ∧ pos.branch = 0) := fun e => hc (hiff.2 e)
    rw [if_neg hc2] at h6
    refine ⟨h6, ?_⟩
    intro i
    have hflag2 := hrep.headed.flag i
    have hflag := h.headed.flag i
    rw [h6] at hflag2
    cases hn2 : l2.all_nodes[i]? with
    | none =>
      have : l.all_nodes[i]? = none := by
        apply List.getElem?_eq_none
        have := List.getElem?_eq_none_iff.1 hn2
        omega
      simp [this]
    | some nd2 =>
      cases hn : l.all_nodes[i]? with
      | none =>
        simp only [Option.map_some', Option.getD_some, Option.map_none', Option.getD_none]
        cases hx : nd2.is_head
        · rfl
        · exfalso
          have := (hflag2 nd2 hn2).1 hx
          rw [hhead] at this
          have hi0 : i = slot cy 0 := Int.ofNat_inj.1 this
          obtain ⟨nd0, hnd0, -⟩ := (h.cyc.occ _).1 (slot_mem hcne 0)
          rw [← hi0, hn] at hnd0
          exact Option.noConfusion hnd0
      | some nd =>
        simp only [Option.map_some', Option.getD_some]
        have a1 := hflag2 nd2 hn2
        have a2 := hflag nd hn
        cases hx : nd2.is_head <;> cases hy : nd.is_head
        · rfl
        · exact absurd (a1.2 (a2.1 hy)) (by simp [hx])
        · exact absurd (a2.2 (a1.1 hx)) (by simp [hy])
        · rfl

theorem insert_head_ownership_witness :
    well_formed (circular_list.of_vector ([0, 1, 2] : List Int)) ∧
    ([3, 4, 5] : List Int) ≠ [] ∧
    (∃ nd, (circular_list.of_vector ([0, 1, 2] : List Int)).all_nodes[0]? = some nd ∧
      nd.free = false) ∧
    ∃ l2, (circular_list.of_vector ([0, 1, 2] : List Int)).insert 7 ⟨((0 : Nat) : Int), 0⟩ [3, 4, 5]
        = .ok l2 ∧
      ((⟨((0 : Nat) : Int), 0⟩ : generic_iterator).node
          = (circular_list.of_vector ([0, 1, 2] : List Int)).head ∧
        (⟨((0 : Nat) : Int), 0⟩ : generic_iterator).branch = 0 →
        ∃ (hN oldN : Nat) (nd old : node Int), l2.head = (hN : Int) ∧
          l2.all_nodes[hN]? = some nd ∧ nd.is_head = true ∧ nd.free = false ∧
          ([3, 4, 5] : List Int)[0]? = some nd.value ∧
          (¬ ∃ nd0, (circular_list.of_vector ([0, 1, 2] : List Int)).all_nodes[hN]? = some nd0 ∧
            nd0.free = false) ∧
          (circular_list.of_vector ([0, 1, 2] : List Int)).head = (oldN : Int) ∧
          l2.all_nodes[oldN]? = some old ∧ old.is_head = false) ∧
      (¬ ((⟨((0 : Nat) : Int), 0⟩ : generic_iterator).node
          = (circular_list.of_vector ([0, 1, 2] : List Int)).head ∧
        (⟨((0 : Nat) : Int), 0⟩ : generic_iterator).branch = 0) →
        l2.head = (circular_list.of_vector ([0, 1, 2] : List Int)).head ∧
        ∀ i : Nat, ((l2.all_nodes[i]?).map node.is_head).getD false
          = (((circular_list.of_vector ([0, 1, 2] : List Int)).all_nodes[i]?).map
              node.is_head).getD false) :=
  ⟨of_vector_wf _ (by decide) (by norm_num), by decide, ⟨_, rfl, rfl⟩,
    insert_head_ownership (circular_list.of_vector ([0, 1, 2] : List Int)) [3, 4, 5]
      ⟨((0 : Nat) : Int), 0⟩ 0 7 (of_vector_wf _ (by decide) (by norm_num)) (by decide) rfl
      ⟨_, rfl, rfl⟩ (by decide)⟩

/-- C11 (return value of erase): for a well-formed ring, a cursor `first` on an
occupied slot and the cursor `last` reached from it by `m` forward steps, `m`
at most the number of occupied slots, `erase(first, last)` returns; when the
slot addressed by `last` is still occupied afterwards the returned cursor is
`last` itself, and otherwise the whole ring was erased, the resulting ring is
empty and the returned cursor is its `end()`, to which it compares equal. -/
theorem erase_returns_cursor (l : circular_list T) (first last : generic_iterator)
    (i m fuel : Nat) (hwf : well_formed l) (hfirst : first.node = (i : Int))
    (hocc : ∃ nd, l.all_nodes[i]? = some nd ∧ nd.free = false)
    (hlast : l.inc_n m first = .ok last) (hm : m ≤ l.occupied_count)
    (hf : l.all_nodes.length < fuel) :
    ∃ l1 ret nd, l.erase fuel first last = .ok (l1, ret) ∧
      node_at l1.all_nodes last.node = .ok nd ∧
      (nd.free = false → ret = last) ∧
      (nd.free = true → m = l.occupied_count ∧ l1.occupied_count = 0 ∧ l1.empty = true ∧
        ret = l1.end_ ∧ ret.eq l1.end_ = true) := by
  obtain ⟨cy, h⟩ := hwf
  obtain ⟨hne, a, ha, -, hf1, hl1⟩ := h.range_cursors first last i m hfirst hocc hlast
  rw [h.count_eq] at hm ⊢
  have hle := h.cyc.length_le
  obtain ⟨l1, he, hrep, hlen, -, -, -⟩ := h.erase hne first.branch a m fuel ha hm (by omega)
  rw [← hf1, ← hl1] at he
  have hin : slot cy (a + m) < l1.all_nodes.length := by
    obtain ⟨nd, hn, -⟩ := (h.cyc.occ _).1 (slot_mem hne (a + m))
    rw [hlen]
    exact get_lt hn
  obtain ⟨nd1, hn1⟩ : ∃ nd1, l1.all_nodes[slot cy (a + m)]? = some nd1 :=
    ⟨_, List.getElem?_eq_getElem hin⟩
  have hnode : node_at l1.all_nodes last.node = .ok nd1 := by
    rw [hl1]
    exact node_at_nat hn1
  have hfree : nd1.free = false ↔ m < cy.length := by
    rw [← erase_cycle_last_mem h.cyc.nodup hne a m ha hm, hrep.cyc.occ]
    constructor
    · intro hfr
      exact ⟨nd1, hn1, hfr⟩
    · rintro ⟨nd2, hn2, hfr⟩
      rw [hn1] at hn2
      cases hn2
      exact hfr
  refine ⟨l1, _, nd1, he, hnode, ?_, ?_⟩
  · intro hfr
    rw [if_pos (hfree.1 hfr)]
  · intro hfr
    have hmn : ¬ m < cy.length := fun hlt => by
      rw [hfree.2 hlt] at hfr
      cases hfr
    have hmeq : m = cy.length := by omega
    have hnil : erase_cycle cy a m = [] := by
      apply List.eq_nil_of_length_eq_zero
      rw [erase_cycle_length a m ha]
      omega
    rw [hnil] at hrep
    rw [if_neg hmn]
    refine ⟨hmeq, ?_, ?_, rfl, ?_⟩
    · rw [hrep.count_eq]
      rfl
    · have := head_of_nil hrep.headed
      simp [circular_list.empty, this]
    · simp [generic_iterator.eq]

theorem erase_returns_cursor_witness :
    well_formed (circular_list.of_vector ([0, 1, 2] : List Int)) ∧
    (circular_list.of_vector ([0, 1, 2] : List Int)).inc_n 3 ⟨1, 0⟩ = .ok ⟨1, 1⟩ ∧
    ∃ l1 ret nd, (circular_list.of_vector ([0, 1, 2] : List Int)).erase 4 ⟨1, 0⟩ ⟨1, 1⟩
        = .ok (l1, ret) ∧
      node_at l1.all_nodes (⟨1, 1⟩ : generic_iterator).node = .ok nd ∧
      (nd.free = false → ret = ⟨1, 1⟩) ∧
      (nd.free = true → 3 = (circular_list.of_vector ([0, 1, 2] : List Int)).occupied_count ∧
        l1.occupied_count = 0 ∧ l1.empty = true ∧ ret = l1.end_ ∧ ret.eq l1.end_ = true) :=
  ⟨of_vector_wf _ (by decide) (by norm_num), rfl,
    erase_returns_cursor _ ⟨1, 0⟩ ⟨1, 1⟩ 1 3 4 (of_vector_wf _ (by decide) (by norm_num)) rfl
      ⟨_, rfl, rfl⟩ rfl (by decide) (by decide)⟩

/-- C12 (forward and backward steps are inverse): for a well-formed ring, a
cursor `C` on an occupied slot with any `int` lap, and every `n`, `n` forward
steps from `C` reach a cursor from which `n` backward steps lead back to `C`,
same slot and same lap, and `n` backward steps from `C` reach a cursor from
which `n` forward steps lead back to `C`; the same through `operator+` and
`operator-`. The steps are those with the wrapping lap counter, so that laps
at the limits of `int` are covered; where the exact steps end on an `int` lap,
they end on the same cursor. -/
theorem steps_are_inverse (l : circular_list T) (C : generic_iterator) (i n : Nat)
    (hwf : well_formed l) (hC : C.node = (i : Int))
    (hocc : ∃ nd, l.all_nodes[i]? = some nd ∧ nd.free = false)
    (hCb : is_int C.branch) :
    (∃ D, l.inc_n_wrapping n C = .ok D ∧ l.dec_n_wrapping n D = .ok C ∧
      l.next_wrapping C (n : Int) = .ok D ∧ l.prev_wrapping D (n : Int) = .ok C ∧
      ∀ D1, l.inc_n n C = .ok D1 → is_int D1.branch → D1 = D) ∧
    (∃ E, l.dec_n_wrapping n C = .ok E ∧ l.inc_n_wrapping n E = .ok C ∧
      l.prev_wrapping C (n : Int) = .ok E ∧ l.next_wrapping E (n : Int) = .ok C ∧
      ∀ E1, l.dec_n n C = .ok E1 → is_int E1.branch → E1 = E) := by
  obtain ⟨cy, h⟩ := hwf
  obtain ⟨hne, a, ha, hsa, hcur⟩ := h.cursor_of_occupied i hocc
  have hpos : 0 < cy.length := List.length_pos.2 hne
  have hCe : C = cursor_at cy C.branch a := by rw [← hcur C.branch, ← hC]
  have hCw : C = cursor_wrapping cy C.branch a := by
    rw [cursor_wrapping_of_is_int cy hCb ha, hsa, ← hC]
  have hnext : ∀ it : generic_iterator, l.next_wrapping it (n : Int) = l.inc_n_wrapping n it :=
    fun it => rfl
  have hprev : ∀ it : generic_iterator, l.prev_wrapping it (n : Int) = l.dec_n_wrapping n it := by
    intro it
    cases n with
    | zero => rfl
    | succ k => rfl
  have hagree : ∀ (b : Int) (q : Nat), is_int (cursor_at cy b q).branch →
      cursor_at cy b q = cursor_wrapping cy b q := by
    intro b q hq
    simp only [cursor_at, cursor_wrapping] at hq ⊢
    rw [wrap_int_of_is_int hq]
  -- the same cursor seen `n` laps further on
  have hge : n ≤ n * cy.length := Nat.le_mul_of_pos_right n hpos
  have e : (a + n * cy.length - n) + n = a + n * cy.length := by omega
  have hbr : C.branch - (n : Int) + (n : Int) = C.branch := by omega
  have hCs : C = cursor_at cy (C.branch - (n : Int)) ((a + n * cy.length - n) + n) := by
    rw [e, cursor_at_shift_mul cy hne, hbr]
    exact hCe
  have hCsw : C = cursor_wrapping cy (C.branch - (n : Int)) ((a + n * cy.length - n) + n) := by
    rw [e, cursor_wrapping_shift_mul cy hne, hbr]
    exact hCw
  constructor
  · have h1 : l.inc_n_wrapping n C = .ok (cursor_wrapping cy C.branch (a + n)) := by
      conv_lhs => rw [hCw]
      exact h.toFwd.inc_n_wrapping_at hne _ n a
    have h2 : l.dec_n_wrapping n (cursor_wrapping cy C.branch (a + n)) = .ok C := by
      conv_rhs => rw [hCw]
      exact h.dec_n_wrapping_at hne _ n a
    refine ⟨_, h1, h2, (hnext C).trans h1, (hprev _).trans h2, ?_⟩
    intro D1 hD1 hint
    have hx : l.inc_n n C = .ok (cursor_at cy C.branch (a + n)) := by
      conv_lhs => rw [hCe]
      exact h.toFwd.inc_n_at hne _ n a
    rw [hx] at hD1
    have := Except.ok.inj hD1
    rw [← this] at hint ⊢
    exact hagree _ _ hint
  · have h3 : l.dec_n_wrapping n C
        = .ok (cursor_wrapping cy (C.branch - (n : Int)) (a + n * cy.length - n)) := by
      conv_lhs => rw [hCsw]
      exact h.dec_n_wrapping_at hne _ n _
    have h4 : l.inc_n_wrapping n (cursor_wrapping cy (C.branch - (n : Int))
        (a + n * cy.length - n)) = .ok C := by
      conv_rhs => rw [hCsw]
      exact h.toFwd.inc_n_wrapping_at hne _ n _
    refine ⟨_, h3, h4, (hprev C).trans h3, (hnext _).trans h4, ?_⟩
    intro E1 hE1 hint
    have hx : l.dec_n n C = .ok (cursor_at cy (C.branch - (n : Int)) (a + n * cy.length - n)) := by
      conv_lhs => rw [hCs]
      exact h.dec_n_at hne _ n _
    rw [hx] at hE1
    have := Except.ok.inj hE1
    rw [← this] at hint ⊢
    exact hagree _ _ hint

theorem steps_are_inverse_witness :
    well_formed (circular_list.of_vector ([0, 1, 2] : List Int)) ∧
    is_int (⟨1, 2 ^ 31 - 1⟩ : generic_iterator).branch ∧
    (∃ D, (circular_list.of_vector ([0, 1, 2] : List Int)).inc_n_wrapping 5 ⟨1, 2 ^ 31 - 1⟩
        = .ok D ∧
      (circular_list.of_vector ([0, 1, 2] : List Int)).dec_n_wrapping 5 D
        = .ok ⟨1, 2 ^ 31 - 1⟩ ∧
      (circular_list.of_vector ([0, 1, 2] : List Int)).next_wrapping ⟨1, 2 ^ 31 - 1⟩
        ((5 : Nat) : Int) = .ok D ∧
      (circular_list.of_vector ([0, 1, 2] : List Int)).prev_wrapping D ((5 : Nat) : Int)
        = .ok ⟨1, 2 ^ 31 - 1⟩ ∧
      ∀ D1, (circular_list.of_vector ([0, 1, 2] : List Int)).inc_n 5 ⟨1, 2 ^ 31 - 1⟩ = .ok D1 →
        is_int D1.branch → D1 = D) ∧
    (∃ E, (circular_list.of_vector ([0, 1, 2] : List Int)).dec_n_wrapping 5 ⟨1, 2 ^ 31 - 1⟩
        = .ok E ∧
      (circular_list.of_vector ([0, 1, 2] : List Int)).inc_n_wrapping 5 E
        = .ok ⟨1, 2 ^ 31 - 1⟩ ∧
      (circular_list.of_vector ([0, 1, 2] : List Int)).prev_wrapping ⟨1, 2 ^ 31 - 1⟩
        ((5 : Nat) : Int) = .ok E ∧
      (circular_list.of_vector ([0, 1, 2] : List Int)).next_wrapping E ((5 : Nat) : Int)
        = .ok ⟨1, 2 ^ 31 - 1⟩ ∧
      ∀ E1, (circular_list.of_vector ([0, 1, 2] : List Int)).dec_n 5 ⟨1, 2 ^ 31 - 1⟩ = .ok E1 →
        is_int E1.branch → E1 = E) :=
  ⟨of_vector_wf _ (by decide) (by norm_num), by decide,
    steps_are_inverse _ ⟨1, 2 ^ 31 - 1⟩ 1 5 (of_vector_wf _ (by decide) (by norm_num)) rfl
      ⟨_, rfl, rfl⟩ (by decide)⟩

/-- C14 (invariants established and preserved): the ring built from a
non-empty sequence (of a length a `std::vector` can have) is well-formed; for a
well-formed ring, `insert` at a position on an occupied slot, with any lap, and
`erase` of a range that starts on an occupied slot and spans at most one lap
both return, so their closing `assert(_list_is_consistent())` holds, and leave
a well-formed ring; and every well-formed ring has the invariants in the words
of the specification and passes `_list_is_consistent`. -/
theorem invariants_preserved [Inhabited T] (l : circular_list T) (S V : List T)
    (pos first last : generic_iterator) (p i m fuel : Nat)
    (hS : S ≠ []) (hSlt : S.length < 2 ^ 63) (hwf : well_formed l)
    (hpos : pos.node = (p : Int))
    (hpocc : ∃ nd, l.all_nodes[p]? = some nd ∧ nd.free = false)
    (hfirst : first.node = (i : Int))
    (hocc : ∃ nd, l.all_nodes[i]? = some nd ∧ nd.free = false)
    (hlast : l.inc_n m first = .ok last) (hm : m ≤ l.occupied_count)
    (hf : l.all_nodes.length + V.length < fuel) :
    well_formed (circular_list.of_vector S) ∧
    (∃ l2, l.insert fuel pos V = .ok l2 ∧ well_formed l2) ∧
    (∃ l1 ret, l.erase fuel first last = .ok (l1, ret) ∧ well_formed l1) ∧
    (∀ r : circular_list T, well_formed r →
      r.invariants ∧ r._list_is_consistent (r.all_nodes.length + 1) = .ok true) := by
  obtain ⟨cy, h⟩ := hwf
  have hle := h.cyc.length_le
  refine ⟨of_vector_wf S hS hSlt, ?_, ?_, ?_⟩
  · obtain ⟨hne, a, ha, hs, hcur⟩ := h.cursor_of_occupied p hpocc
    obtain ⟨l2, news, hins, hrep, -⟩ := h.insert hne pos.branch a ha V fuel hf
    refine ⟨l2, ?_, _, hrep⟩
    rw [← hins, hs, ← hpos]
  · obtain ⟨hne, a, ha, -, hf1, hl1⟩ := h.range_cursors first last i m hfirst hocc hlast
    rw [h.count_eq] at hm
    obtain ⟨l1, he, hrep, -⟩ := h.erase hne first.branch a m fuel ha hm (by omega)
    rw [← hf1, ← hl1] at he
    exact ⟨l1, _, he, _, hrep⟩
  · rintro r ⟨cr, hr⟩
    have := hr.cyc.length_le
    exact ⟨hr.invariants, hr.consistent (by omega)⟩

theorem invariants_preserved_witness :
    well_formed (circular_list.of_vector ([0, 1, 2] : List Int)) ∧
    (circular_list.of_vector ([0, 1, 2] : List Int)).inc_n 2 ⟨2, 0⟩ = .ok ⟨1, 1⟩ ∧
    well_formed (circular_list.of_vector ([5, 6] : List Int)) ∧
    (∃ l2, (circular_list.of_vector ([0, 1, 2] : List Int)).insert 6 ⟨1, 3⟩ [7, 8] = .ok l2 ∧
      well_formed l2) ∧
    (∃ l1 ret, (circular_list.of_vector ([0, 1, 2] : List Int)).erase 6 ⟨2, 0⟩ ⟨1, 1⟩
      = .ok (l1, ret) ∧ well_formed l1) ∧
    (∀ r : circular_list Int, well_formed r →
      r.invariants ∧ r._list_is_consistent (r.all_nodes.length + 1) = .ok true) :=
  ⟨of_vector_wf _ (by decide) (by norm_num), rfl,
    invariants_preserved (circular_list.of_vector ([0, 1, 2] : List Int)) [5, 6] [7, 8]
      ⟨1, 3⟩ ⟨2, 0⟩ ⟨1, 1⟩ 1 2 2 6 (by decide) (by norm_num)
      (of_vector_wf _ (by decide) (by norm_num)) rfl ⟨_, rfl, rfl⟩ rfl ⟨_, rfl, rfl⟩ rfl
      (by decide) (by decide)⟩

/-- C15 as amended (lap update rule of single steps): for a well-formed ring
and a cursor on an occupied slot, a forward step moves to the `fwd` neighbour
and increments the lap exactly when the node arrived at is the head; a backward
step moves to the `bwd` neighbour and decrements the lap exactly when the node
the cursor was on before the move is the head. The lap is an `int`: the
increment and the decrement are the wrapping ones, equal to `lap + 1` and
`lap - 1` whenever these are `int`s. -/
theorem step_lap_rule (l : circular_list T) (C : generic_iterator) (i : Nat) (nd : node T)
    (hwf : well_formed l) (hC : C.node = (i : Int))
    (hnd : l.all_nodes[i]? = some nd) (hfree : nd.free = false) :
    l.inc_wrapping C
      = .ok ⟨nd.fwd, if nd.fwd = l.head then wrap_int (C.branch + 1) else C.branch⟩ ∧
    l.dec_wrapping C
      = .ok ⟨nd.bwd, if C.node = l.head then wrap_int (C.branch - 1) else C.branch⟩ ∧
    (is_int (C.branch + 1) → wrap_int (C.branch + 1) = C.branch + 1) ∧
    (is_int (C.branch - 1) → wrap_int (C.branch - 1) = C.branch - 1) := by
  obtain ⟨cy, h⟩ := hwf
  obtain ⟨⟨j, nf, hj, hnf, hff, -⟩, ⟨k, nb, hk, hnb, hfb, -⟩, -⟩ :=
    h.invariants.2.2 i nd hnd hfree
  have hfh : nf.is_head = decide (nd.fwd = l.head) := by
    have := h.headed.flag j nf hnf
    rw [← hj] at this
    cases hx : nf.is_head
    · rw [hx] at this
      simp at this
      simp [this]
    · simp [this.1 hx]
  have hdh : nd.is_head = decide (C.node = l.head) := by
    have := h.headed.flag i nd hnd
    rw [← hC] at this
    cases hx : nd.is_head
    · rw [hx] at this
      simp at this
      simp [this]
    · simp [this.1 hx]
  have hn1 : node_at l.all_nodes C.node = .ok nd := by rw [hC]; exact node_at_nat hnd
  have hn2 : node_at l.all_nodes nd.fwd = .ok nf := by rw [hj]; exact node_at_nat hnf
  have hn3 : node_at l.all_nodes nd.bwd = .ok nb := by rw [hk]; exact node_at_nat hnb
  refine ⟨?_, ?_, wrap_int_of_is_int, wrap_int_of_is_int⟩
  · simp only [circular_list.inc_wrapping, hn1, hn2, hfree, hff, assert, bind, Except.bind, pure,
      Except.pure, hfh]
    simp
  · simp only [circular_list.dec_wrapping, hn1, hn3, hfree, hfb, assert, bind, Except.bind, pure,
      Except.pure, hdh]
    simp

theorem step_lap_rule_witness :
    well_formed (circular_list.of_vector ([0, 1, 2] : List Int)) ∧
    (circular_list.of_vector ([0, 1, 2] : List Int)).inc_wrapping ⟨2, 2 ^ 31 - 1⟩
      = .ok ⟨0, if (0 : Int) = (circular_list.of_vector ([0, 1, 2] : List Int)).head
          then wrap_int (2 ^ 31 - 1 + 1) else 2 ^ 31 - 1⟩ ∧
    (circular_list.of_vector ([0, 1, 2] : List Int)).dec_wrapping ⟨2, 2 ^ 31 - 1⟩
      = .ok ⟨1, if (2 : Int) = (circular_list.of_vector ([0, 1, 2] : List Int)).head
          then wrap_int (2 ^ 31 - 1 - 1) else 2 ^ 31 - 1⟩ ∧
    (is_int ((2 : Int) ^ 31 - 1 + 1) → wrap_int (2 ^ 31 - 1 + 1) = 2 ^ 31 - 1 + 1) ∧
    (is_int ((2 : Int) ^ 31 - 1 - 1) → wrap_int (2 ^ 31 - 1 - 1) = 2 ^ 31 - 1 - 1) :=
  ⟨of_vector_wf _ (by decide) (by norm_num),
    step_lap_rule (circular_list.of_vector ([0, 1, 2] : List Int)) ⟨2, 2 ^ 31 - 1⟩ 2
      ⟨0, 1, 2, false, false⟩ (of_vector_wf _ (by decide) (by norm_num)) rfl rfl rfl⟩

/-- C15 as stated fails on the ring built from `[0, 1, 2]`, whose head is slot
`0`: the forward step from `(slot 0, lap 0)`, a cursor on the head, arrives at
`(slot 1, lap 0)` with the lap unchanged, and the backward step from
`(slot 1, lap 0)` arrives at the head, `(slot 0, lap 0)`, with the lap
unchanged. -/
theorem step_lap_rule_counterexample :
    well_formed (circular_list.of_vector ([0, 1, 2] : List Int)) ∧
    (circular_list.of_vector ([0, 1, 2] : List Int)).head = 0 ∧
    (circular_list.of_vector ([0, 1, 2] : List Int)).inc_wrapping ⟨0, 0⟩ = .ok ⟨1, 0⟩ ∧
    (circular_list.of_vector ([0, 1, 2] : List Int)).dec_wrapping ⟨1, 0⟩ = .ok ⟨0, 0⟩ ∧
    (circular_list.of_vector ([0, 1, 2] : List Int)).inc ⟨0, 0⟩ = .ok ⟨1, 0⟩ ∧
    (circular_list.of_vector ([0, 1, 2] : List Int)).dec ⟨1, 0⟩ = .ok ⟨0, 0⟩ :=
  ⟨of_vector_wf _ (by decide) (by norm_num), rfl, rfl, rfl, rfl, rfl⟩

/-- C16 (erase terminates under its stated contract): for a well-formed ring and
cursors `first`, `last` on occupied slots whose laps are `int`s with
`last.lap = first.lap` or `last.lap = first.lap + 1`, the freeing walk of
`erase(first, last)` meets `(last.node, last.lap)` and ends, and `erase`
returns. The walk is the one with the wrapping lap counter: when `last` lies
behind `first` on the same lap it meets `last` only after the counter has gone
round all `2^32` values of `int`, which is the bound on the number of steps. -/
theorem erase_terminates (l : circular_list T) (first last : generic_iterator)
    (i j fuel : Nat) (hwf : well_formed l) (hfirst : first.node = (i : Int))
    (hocc : ∃ nd, l.all_nodes[i]? = some nd ∧ nd.free = false)
    (hlast : last.node = (j : Int))
    (hoccl : ∃ nd, l.all_nodes[j]? = some nd ∧ nd.free = false)
    (hfb : is_int first.branch) (hlb : is_int last.branch)
    (hlap : last.branch = first.branch ∨ last.branch = first.branch + 1)
    (hf : 2 ^ 32 * l.all_nodes.length + 2 * l.all_nodes.length < fuel) :
    (∃ ns1 beheaded, erase_loop_wrapping l.head last fuel l.all_nodes first.node first.branch
      false = .ok (ns1, beheaded)) ∧
    ∃ l1 ret, l.erase_wrapping fuel first last = .ok (l1, ret) := by
  obtain ⟨cy, h⟩ := hwf
  obtain ⟨hne, a, ha, hsa, hca⟩ := h.cursor_of_occupied i hocc
  obtain ⟨-, b, hb, hsb, hcb⟩ := h.cursor_of_occupied j hoccl
  have hpos : 0 < cy.length := List.length_pos.2 hne
  have hle := h.cyc.length_le
  have hmul : 2 ^ 32 * cy.length ≤ 2 ^ 32 * l.all_nodes.length := Nat.mul_le_mul_left _ hle
  have hf1 : first = cursor_at cy first.branch a := by rw [← hca first.branch, ← hfirst]
  have hl0 : last = ⟨((slot cy b : Nat) : Int), last.branch⟩ := by rw [hsb, ← hlast]
  -- a range that is walked forward without overflow: the exact walk applies
  have forward : ∀ m, m < 2 * cy.length → last = cursor_at cy first.branch (a + m) →
      (a + m < 2 * cy.length) →
      (∃ ns1 beheaded, erase_loop_wrapping l.head last fuel l.all_nodes first.node first.branch
        false = .ok (ns1, beheaded)) ∧
      ∃ l1 ret, l.erase_wrapping fuel first last = .ok (l1, ret) := by
    intro m hm hl1 hm2
    constructor
    · have htrace := h.toFwd.erase_trace_at hne first.branch a m m 0 (by omega)
      have hloop := erase_loop_spec l.head (cursor_at cy first.branch (a + m)) _ l.all_nodes _ _
        false fuel htrace (by simp; omega)
      rw [Nat.add_zero, ← hf1, ← hl1] at hloop
      exact ⟨_, _, erase_loop_wrapping_eq _ _ hlb _ _ _ _ _ _ hfb hloop⟩
    · by_cases hmn : m ≤ cy.length
      · obtain ⟨l1, he, -⟩ := h.erase hne first.branch a m fuel ha hmn (by omega)
        rw [← hf1, ← hl1] at he
        exact ⟨l1, _, erase_wrapping_eq _ _ _ _ _ hfb hlb he⟩
      · obtain ⟨l1, he, -⟩ := h.erase_over hne first.branch a m fuel ha (by omega) hm2 (by omega)
        rw [← hf1, ← hl1] at he
        exact ⟨l1, _, erase_wrapping_eq _ _ _ _ _ hfb hlb he⟩
  rcases hlap with hsame | hnext
  · by_cases hab : a ≤ b
    · -- same lap, `last` not behind `first`
      refine forward (b - a) (by omega) ?_ (by omega)
      have e : a + (b - a) = b := by omega
      rw [e, hl0, hsame]
      simp [cursor_at, Nat.div_eq_of_lt hb]
    · -- same lap, `last` behind `first`: the counter wraps
      obtain ⟨hmeet, hnot⟩ := cursor_wrapping_behind h.cyc.nodup hne first.branch a b ha
        (by omega) hfb
      have hl1 : (⟨((slot cy b : Nat) : Int), first.branch⟩ : generic_iterator) = last := by
        rw [← hsame]
        exact hl0.symm
      rw [hl1] at hmeet hnot
      have hstart : cursor_wrapping cy first.branch (a + 0) = first := by
        conv_rhs => rw [hf1]
        simp [cursor_wrapping, cursor_at, Nat.div_eq_of_lt ha, wrap_int_of_is_int hfb]
      have hloop := h.toFwd.erase_loop_wrapping_at hne last first.branch a
        (2 ^ 32 * cy.length + b - a) hmeet hnot (2 ^ 32 * cy.length + b - a) 0 l.all_nodes
        false fuel (by omega) (fun i nd hi => ⟨nd, hi, rfl⟩) (by omega)
      rw [hstart, Nat.add_zero] at hloop
      refine ⟨⟨_, _, hloop⟩, ?_⟩
      have hge : cy.length ≤ 2 ^ 32 * cy.length + b - a := by
        have : 2 * cy.length ≤ 2 ^ 32 * cy.length :=
          Nat.mul_le_mul_right _ (by norm_num)
        omega
      obtain ⟨l1, he, -⟩ := h.erase_wrapping_over hne first last a b
        (2 ^ 32 * cy.length + b - a) fuel (by rw [hsa]; exact hfirst) (by rw [hsb]; exact hlast)
        (Or.inl hsame) ha hge (by omega) hloop
      exact ⟨l1, _, he⟩
  · -- the next lap
    refine forward (cy.length + b - a) (by omega) ?_ (by omega)
    have e : a + (cy.length + b - a) = b + cy.length := by omega
    rw [e, cursor_at_shift cy hne, hl0, hnext]
    simp [cursor_at, Nat.div_eq_of_lt hb]

theorem erase_terminates_witness :
    well_formed (circular_list.of_vector ([0, 1, 2] : List Int)) ∧
    is_int (⟨2, 0⟩ : generic_iterator).branch ∧ is_int (⟨1, 0⟩ : generic_iterator).branch ∧
    (∃ ns1 beheaded, erase_loop_wrapping (circular_list.of_vector ([0, 1, 2] : List Int)).head
      ⟨1, 0⟩ (2 ^ 32 * 3 + 7) (circular_list.of_vector ([0, 1, 2] : List Int)).all_nodes
      (⟨2, 0⟩ : generic_iterator).node (⟨2, 0⟩ : generic_iterator).branch false
      = .ok (ns1, beheaded)) ∧
    ∃ l1 ret, (circular_list.of_vector ([0, 1, 2] : List Int)).erase_wrapping (2 ^ 32 * 3 + 7)
      ⟨2, 0⟩ ⟨1, 0⟩ = .ok (l1, ret) :=
  ⟨of_vector_wf _ (by decide) (by norm_num), by decide, by decide,
    erase_terminates (circular_list.of_vector ([0, 1, 2] : List Int)) ⟨2, 0⟩ ⟨1, 0⟩ 2 1
      (2 ^ 32 * 3 + 7) (of_vector_wf _ (by decide) (by norm_num)) rfl ⟨_, rfl, rfl⟩ rfl
      ⟨_, rfl, rfl⟩ (by decide) (by decide) (Or.inl rfl) (by decide)⟩

/-- C17 (insert into an empty ring) does not hold of the code: on the
default-constructed ring, and on the ring built from `[0, 1, 2]` after
`erase(begin(), end())`, both well-formed and empty, `begin()` is `(-1, 0)` and
`insert(begin(), V)` starts by reading `all_nodes[-1]`, outside the pool, for
every `V` and whatever the number of steps allowed; no ring results. -/
theorem insert_into_empty_ring_out_of_bounds :
    well_formed (circular_list.mk_empty : circular_list Int) ∧
    (circular_list.mk_empty : circular_list Int).empty = true ∧
    (circular_list.mk_empty : circular_list Int).begin = ⟨-1, 0⟩ ∧
    (∀ (V : List Int) (fuel : Nat),
      node_at (circular_list.mk_empty : circular_list Int).all_nodes
        (circular_list.mk_empty : circular_list Int).begin.node = .error Fault.bounds ∧
      (circular_list.mk_empty : circular_list Int).insert fuel
        (circular_list.mk_empty : circular_list Int).begin V = .error Fault.bounds) ∧
    ∃ l1 ret, (circular_list.of_vector ([0, 1, 2] : List Int)).erase 4
        (circular_list.of_vector ([0, 1, 2] : List Int)).begin
        (circular_list.of_vector ([0, 1, 2] : List Int)).end_ = .ok (l1, ret) ∧
      l1.empty = true ∧ l1.size 1 = .ok 0 ∧ l1.begin = ⟨-1, 0⟩ ∧
      ∀ (V : List Int) (fuel : Nat),
        node_at l1.all_nodes l1.begin.node = .error Fault.bounds ∧
        l1.insert fuel l1.begin V = .error Fault.bounds :=
  ⟨mk_empty_wf, rfl, rfl, fun _ _ => ⟨rfl, rfl⟩, _, _, rfl, rfl, rfl, rfl,
    fun _ _ => ⟨rfl, rfl⟩⟩

/-- C18 as amended (closed form of the lap-aware cursor): for the ring built
from a non-empty sequence `S` of length `n` and every integer `k`, the cursor
`begin() + k`, `k` forward steps from `begin()` when `k ≥ 0` and `|k|` backward
steps when `k < 0`, addresses slot `k mod n`, has as lap the `int` congruent to
`floor(k / n)` modulo `2^32`, and dereferences to `S[k mod n]`; when
`floor(k / n)` is an `int` the lap is `floor(k / n)` itself and the exact steps
give the same cursor; and `begin() + n` is `end()`. Backward steps read the
`bwd` links, which the constructor computes in `size_t`, hence the bound on `n`
for negative `k`. -/
theorem cursor_closed_form (S : List T) (k : Int) (hne : S ≠ [])
    (hlt : k < 0 → S.length < 2 ^ 63) :
    (∃ v, S[(k % (S.length : Int)).toNat]? = some v ∧
      (circular_list.of_vector S).next_wrapping (circular_list.of_vector S).begin k
        = .ok ⟨k % (S.length : Int), wrap_int (k / (S.length : Int))⟩ ∧
      (circular_list.of_vector S).deref ⟨k % (S.length : Int), wrap_int (k / (S.length : Int))⟩
        = .ok v) ∧
    (is_int (k / (S.length : Int)) →
      wrap_int (k / (S.length : Int)) = k / (S.length : Int) ∧
      (circular_list.of_vector S).next (circular_list.of_vector S).begin k
        = .ok ⟨k % (S.length : Int), k / (S.length : Int)⟩) ∧
    (circular_list.of_vector S).next_wrapping (circular_list.of_vector S).begin (S.length : Int)
      = .ok (circular_list.of_vector S).end_ := by
  refine ⟨of_vector_next_wrapping S k hne hlt,
    fun hk => ⟨wrap_int_of_is_int hk, of_vector_next_exact S k hne hlt⟩, ?_⟩
  have hF := of_vector_fwd S hne
  have hn : 0 < S.length := List.length_pos.2 hne
  have hcne : List.range S.length ≠ [] := by simpa using hne
  obtain ⟨v, -, hnext, -⟩ := of_vector_next_wrapping S (S.length : Int) hne (fun hc => by omega)
  rw [hnext, end_eq_cursor hF.headed hcne]
  have h1 : ((S.length : Nat) : Int) % (S.length : Int) = 0 := Int.emod_self
  have h2 : ((S.length : Nat) : Int) / (S.length : Int) = 1 := Int.ediv_self (by omega)
  rw [h1, h2]
  simp [cursor_at, slot, wrap_int, Nat.div_self hn]
  rw [List.getElem?_range hn]
  rfl

theorem cursor_closed_form_witness :
    ((-4 : Int) < 0 → ([10, 20, 30] : List Int).length < 2 ^ 63) ∧
    (∃ v, ([10, 20, 30] : List Int)[((-4 : Int) % (([10, 20, 30] : List Int).length : Int)).toNat]?
        = some v ∧
      (circular_list.of_vector ([10, 20, 30] : List Int)).next_wrapping
        (circular_list.of_vector ([10, 20, 30] : List Int)).begin (-4)
        = .ok ⟨(-4 : Int) % (([10, 20, 30] : List Int).length : Int),
          wrap_int ((-4 : Int) / (([10, 20, 30] : List Int).length : Int))⟩ ∧
      (circular_list.of_vector ([10, 20, 30] : List Int)).deref
        ⟨(-4 : Int) % (([10, 20, 30] : List Int).length : Int),
          wrap_int ((-4 : Int) / (([10, 20, 30] : List Int).length : Int))⟩ = .ok v) ∧
    (is_int ((-4 : Int) / (([10, 20, 30] : List Int).length : Int)) →
      wrap_int ((-4 : Int) / (([10, 20, 30] : List Int).length : Int))
        = (-4 : Int) / (([10, 20, 30] : List Int).length : Int) ∧
      (circular_list.of_vector ([10, 20, 30] : List Int)).next
        (circular_list.of_vector ([10, 20, 30] : List Int)).begin (-4)
        = .ok ⟨(-4 : Int) % (([10, 20, 30] : List Int).length : Int),
          (-4 : Int) / (([10, 20, 30] : List Int).length : Int)⟩) ∧
    (circular_list.of_vector ([10, 20, 30] : List Int)).next_wrapping
      (circular_list.of_vector ([10, 20, 30] : List Int)).begin
      ((([10, 20, 30] : List Int).length : Nat) : Int)
      = .ok (circular_list.of_vector ([10, 20, 30] : List Int)).end_ :=
  ⟨fun _ => by norm_num, cursor_closed_form [10, 20, 30] (-4) (by decide) (fun _ => by norm_num)⟩

/-- C18 as stated fails on the ring built from `[7]` with `k = 2^31`: the claim
gives the cursor the lap `floor(2^31 / 1) = 2^31`, which is not a value of
`int`; after `2^31` forward steps from `begin()` the lap counter has wrapped
and the cursor is `(slot 0, lap -2^31)`. -/
theorem cursor_closed_form_counterexample :
    (circular_list.of_vector ([7] : List Int)).next_wrapping
      (circular_list.of_vector ([7] : List Int)).begin (2 ^ 31) = .ok ⟨0, -2 ^ 31⟩ ∧
    (2 : Int) ^ 31 / ((([7] : List Int).length : Nat) : Int) = 2 ^ 31 ∧
    ¬ is_int ((2 : Int) ^ 31 / ((([7] : List Int).length : Nat) : Int)) ∧
    (-2 ^ 31 : Int) ≠ (2 : Int) ^ 31 / ((([7] : List Int).length : Nat) : Int) := by
  refine ⟨?_, by norm_num, by norm_num [is_int], by norm_num⟩
  obtain ⟨v, -, hnext, -⟩ := of_vector_next_wrapping ([7] : List Int) (2 ^ 31) (by decide)
    (fun hc => by norm_num at hc)
  rw [hnext]
  have h1 : (2 : Int) ^ 31 % ((([7] : List Int).length : Nat) : Int) = 0 := by norm_num
  have h2 : wrap_int ((2 : Int) ^ 31 / ((([7] : List Int).length : Nat) : Int)) = -2 ^ 31 := by
    norm_num [wrap_int]
  rw [h1, h2]

/-- C19 (slot stability of surviving elements): for a well-formed ring, after
`insert` at a position on an occupied slot every slot occupied before is still
occupied, at the same index, with the same value, and a slot whose value
differs from before was free or lies beyond the old pool; after `erase` of a
range that starts on an occupied slot and spans at most one lap every slot
occupied before that the freeing walk did not visit is still occupied, at the
same index, with the same value, and no slot at all has changed its value. -/
theorem slots_are_stable [Inhabited T] (l : circular_list T) (V : List T)
    (pos first last : generic_iterator) (p i m fuel : Nat) (hwf : well_formed l)
    (hpos : pos.node = (p : Int))
    (hpocc : ∃ nd, l.all_nodes[p]? = some nd ∧ nd.free = false)
    (hfirst : first.node = (i : Int))
    (hocc : ∃ nd, l.all_nodes[i]? = some nd ∧ nd.free = false)
    (hlast : l.inc_n m first = .ok last) (hm : m ≤ l.occupied_count)
    (hf : l.all_nodes.length + V.length < fuel) :
    (∃ l2, l.insert fuel pos V = .ok l2 ∧
      (∀ (j : Nat) (nd : node T), l.all_nodes[j]? = some nd → nd.free = false →
        ∃ nd2, l2.all_nodes[j]? = some nd2 ∧ nd2.free = false ∧ nd2.value = nd.value) ∧
      (∀ j : Nat, value_at l2.all_nodes j ≠ value_at l.all_nodes j →
        l.all_nodes.length ≤ j ∨ ∃ nd, l.all_nodes[j]? = some nd ∧ nd.free = true)) ∧
    (∃ l1 ret, l.erase fuel first last = .ok (l1, ret) ∧
      (∀ (j : Nat) (nd : node T), l.all_nodes[j]? = some nd → nd.free = false →
        (∀ t, t < m → ∀ it, l.inc_n t first = .ok it → it.node ≠ (j : Int)) →
        ∃ nd1, l1.all_nodes[j]? = some nd1 ∧ nd1.free = false ∧ nd1.value = nd.value) ∧
      (∀ j : Nat, value_at l1.all_nodes j = value_at l.all_nodes j)) := by
  obtain ⟨cy, h⟩ := hwf
  have hle := h.cyc.length_le
  constructor
  · obtain ⟨hne, a, ha, hs, -⟩ := h.cursor_of_occupied p hpocc
    obtain ⟨l2, news, hins, hrep, -, hold, -⟩ := h.insert hne pos.branch a ha V fuel hf
    refine ⟨l2, by rw [← hins, hs, ← hpos], ?_, ?_⟩
    · intro j nd hj hfree
      have hjc : j ∈ cy := (h.cyc.occ j).2 ⟨nd, hj, hfree⟩
      obtain ⟨nd2, hj2, hfree2⟩ := (hrep.cyc.occ j).1
        ((insert_cycle_mem cy news a _ j).2 (Or.inl hjc))
      exact ⟨nd2, hj2, hfree2, value_of_value_at hj hj2 (hold j hjc)⟩
    · intro j hdiff
      by_cases hjl : l.all_nodes.length ≤ j
      · exact Or.inl hjl
      · right
        refine ⟨l.all_nodes[j], List.getElem?_eq_getElem (by omega), ?_⟩
        cases hfr : (l.all_nodes[j]).free
        · exfalso
          exact hdiff (hold j ((h.cyc.occ j).2 ⟨_, List.getElem?_eq_getElem (by omega), hfr⟩))
        · rfl
  · obtain ⟨hne, a, ha, -, hf1, hl1⟩ := h.range_cursors first last i m hfirst hocc hlast
    rw [h.count_eq] at hm
    obtain ⟨l1, he, hrep, -, hval, -⟩ := h.erase hne first.branch a m fuel ha hm (by omega)
    rw [← hf1, ← hl1] at he
    refine ⟨l1, _, he, ?_, hval⟩
    intro j nd hj hfree hrun
    have hjc : j ∈ cy := (h.cyc.occ j).2 ⟨nd, hj, hfree⟩
    rw [hf1] at hrun
    have hnot := h.run_slots hne first.branch a m j hrun
    obtain ⟨nd1, hj1, hfree1⟩ := (hrep.cyc.occ j).1
      ((erase_cycle_mem_iff h.cyc.nodup hne a m ha hm j hjc).2 hnot)
    exact ⟨nd1, hj1, hfree1, value_of_value_at hj hj1 (hval j)⟩

theorem slots_are_stable_witness :
    well_formed (circular_list.of_vector ([0, 1, 2] : List Int)) ∧
    (circular_list.of_vector ([0, 1, 2] : List Int)).inc_n 2 ⟨2, 0⟩ = .ok ⟨1, 1⟩ ∧
    (∃ l2, (circular_list.of_vector ([0, 1, 2] : List Int)).insert 6 ⟨1, 3⟩ [7, 8] = .ok l2 ∧
      (∀ (j : Nat) (nd : node Int),
        (circular_list.of_vector ([0, 1, 2] : List Int)).all_nodes[j]? = some nd →
        nd.free = false →
        ∃ nd2, l2.all_nodes[j]? = some nd2 ∧ nd2.free = false ∧ nd2.value = nd.value) ∧
      (∀ j : Nat, value_at l2.all_nodes j
          ≠ value_at (circular_list.of_vector ([0, 1, 2] : List Int)).all_nodes j →
        (circular_list.of_vector ([0, 1, 2] : List Int)).all_nodes.length ≤ j ∨
          ∃ nd, (circular_list.of_vector ([0, 1, 2] : List Int)).all_nodes[j]? = some nd ∧
            nd.free = true)) ∧
    (∃ l1 ret, (circular_list.of_vector ([0, 1, 2] : List Int)).erase 6 ⟨2, 0⟩ ⟨1, 1⟩
        = .ok (l1, ret) ∧
      (∀ (j : Nat) (nd : node Int),
        (circular_list.of_vector ([0, 1, 2] : List Int)).all_nodes[j]? = some nd →
        nd.free = false →
        (∀ t, t < 2 → ∀ it, (circular_list.of_vector ([0, 1, 2] : List Int)).inc_n t ⟨2, 0⟩
          = .ok it → it.node ≠ (j : Int)) →
        ∃ nd1, l1.all_nodes[j]? = some nd1 ∧ nd1.free = false ∧ nd1.value = nd.value) ∧
      (∀ j : Nat, value_at l1.all_nodes j
        = value_at (circular_list.of_vector ([0, 1, 2] : List Int)).all_nodes j)) :=
  ⟨of_vector_wf _ (by decide) (by norm_num), rfl,
    slots_are_stable (circular_list.of_vector ([0, 1, 2] : List Int)) [7, 8]
      ⟨1, 3⟩ ⟨2, 0⟩ ⟨1, 1⟩ 1 2 2 6 (of_vector_wf _ (by decide) (by norm_num))
      rfl ⟨_, rfl, rfl⟩ rfl ⟨_, rfl, rfl⟩ rfl (by decide) (by decide)⟩

/-- C20 (first-fit allocation and lazy growth): for a well-formed ring with `f`
free slots and pool length `p`, and `V` inserted at a position on an occupied
slot, `insert` returns; for every `t < f` the value `V[t]` is stored in the
slot that was free and had exactly `t` free slots below it; the pool length
afterwards is `p + (|V| - f)`, the difference being `0` when `|V| ≤ f`, so the
pool does not shrink; `erase` of a range that starts on an occupied slot and
spans at most one lap returns and leaves the pool length unchanged; and on any
ring whatever, a call of `insert` that returns has not shortened the pool and a
call of `erase` that returns has kept its length. -/
theorem first_fit_lazy_growth [Inhabited T] (l : circular_list T) (V : List T)
    (pos first last : generic_iterator) (p i m fuel : Nat) (hwf : well_formed l)
    (hpos : pos.node = (p : Int))
    (hpocc : ∃ nd, l.all_nodes[p]? = some nd ∧ nd.free = false)
    (hfirst : first.node = (i : Int))
    (hocc : ∃ nd, l.all_nodes[i]? = some nd ∧ nd.free = false)
    (hlast : l.inc_n m first = .ok last) (hm : m ≤ l.occupied_count)
    (hf : l.all_nodes.length + V.length < fuel) :
    (∃ l2, l.insert fuel pos V = .ok l2 ∧
      (∀ (t : Nat) (v : T), V[t]? = some v → t < l.free_count →
        ∃ (k : Nat) (nd nd2 : node T), l.all_nodes[k]? = some nd ∧ nd.free = true ∧
          List.countP (fun x => x.free) (l.all_nodes.take k) = t ∧
          l2.all_nodes[k]? = some nd2 ∧ nd2.free = false ∧ nd2.value = v) ∧
      l2.all_nodes.length = l.all_nodes.length + (V.length - l.free_count) ∧
      l.all_nodes.length ≤ l2.all_nodes.length) ∧
    (∃ l1 ret, l.erase fuel first last = .ok (l1, ret) ∧
      l1.all_nodes.length = l.all_nodes.length) ∧
    (∀ (r r2 : circular_list T) (n : Nat) (it : generic_iterator) (W : List T),
      r.insert n it W = .ok r2 → r.all_nodes.length ≤ r2.all_nodes.length) ∧
    (∀ (r r1 : circular_list T) (n : Nat) (a b ret : generic_iterator),
      r.erase n a b = .ok (r1, ret) → r1.all_nodes.length = r.all_nodes.length) := by
  obtain ⟨cy, h⟩ := hwf
  have hle := h.cyc.length_le
  have hfc := h.free_count_eq
  refine ⟨?_, ?_, fun r r2 n it W hr => insert_length r r2 n it W hr,
    fun r r1 n a b ret hr => erase_length r r1 n a b ret hr⟩
  · obtain ⟨hne, a, ha, hs, -⟩ := h.cursor_of_occupied p hpocc
    obtain ⟨l2, news, hins, hrep, hnl, -, hnewv, hdis, hff, hgrow, -, hpool⟩ :=
      h.insert_alloc hne pos.branch a ha V fuel hf
    have hnd := insert_cycle_news_nodup hrep.cyc.nodup
    have hin2 : ∀ j, j ∈ cy ∨ j ∈ news → ∃ nd2, l2.all_nodes[j]? = some nd2 ∧ nd2.free = false :=
      fun j hj => (hrep.cyc.occ j).1 ((insert_cycle_mem cy news a _ j).2 hj)
    refine ⟨l2, by rw [← hins, hs, ← hpos], ?_, ?_, hgrow⟩
    · intro t v hv htf
      have htl : t < news.length := by rw [hnl]; exact get_lt hv
      have ht : news[t]? = some news[t] := List.getElem?_eq_getElem htl
      have hk : news[t] < l.all_nodes.length := new_slot_in_pool hff ht (by omega)
      obtain ⟨⟨nd, hn, hfr⟩, hcount⟩ :=
        free_below_new_slot h.cyc.nodup h.cyc.occ hnd hdis hff ht hk
      obtain ⟨nd2, hn2, hfr2⟩ := hin2 news[t] (Or.inr (List.getElem?_mem ht))
      refine ⟨news[t], nd, nd2, hn, hfr, hcount, hn2, hfr2, ?_⟩
      have hget := congrArg (fun xs => xs[t]?) hnewv
      simp only [List.getElem?_map, ht, hv, Option.map_some', value_at, hn2,
        Option.some.injEq] at hget
      exact hget
    · have := pool_length_after h.cyc.nodup hnd hdis hle hff
        (fun j hj => by
          obtain ⟨nd2, hn2, -⟩ := hin2 j hj
          exact get_lt hn2) hpool
      rw [this, hnl]
      congr 2
      omega
  · obtain ⟨hne, a, ha, -, hf1, hl1⟩ := h.range_cursors first last i m hfirst hocc hlast
    rw [h.count_eq] at hm
    obtain ⟨l1, he, -, hlen, -⟩ := h.erase hne first.branch a m fuel ha hm (by omega)
    rw [← hf1, ← hl1] at he
    exact ⟨l1, _, he, hlen⟩

theorem first_fit_lazy_growth_witness :
    well_formed (⟨0, [⟨2, 2, 0, false, true⟩, ⟨2, 0, 1, true, false⟩, ⟨0, 0, 2, false, false⟩]⟩ :
      circular_list Int) ∧
    (⟨0, [⟨2, 2, 0, false, true⟩, ⟨2, 0, 1, true, false⟩, ⟨0, 0, 2, false, false⟩]⟩ :
      circular_list Int).free_count = 1 ∧
    (∃ l2, (⟨0, [⟨2, 2, 0, false, true⟩, ⟨2, 0, 1, true, false⟩, ⟨0, 0, 2, false, false⟩]⟩ :
        circular_list Int).insert 8 ⟨2, 0⟩ [7, 8, 9] = .ok l2 ∧
      (∀ (t : Nat) (v : Int), ([7, 8, 9] : List Int)[t]? = some v →
        t < (⟨0, [⟨2, 2, 0, false, true⟩, ⟨2, 0, 1, true, false⟩, ⟨0, 0, 2, false, false⟩]⟩ :
          circular_list Int).free_count →
        ∃ (k : Nat) (nd nd2 : node Int),
          (⟨0, [⟨2, 2, 0, false, true⟩, ⟨2, 0, 1, true, false⟩, ⟨0, 0, 2, false, false⟩]⟩ :
            circular_list Int).all_nodes[k]? = some nd ∧ nd.free = true ∧
          List.countP (fun x => x.free)
            ((⟨0, [⟨2, 2, 0, false, true⟩, ⟨2, 0, 1, true, false⟩, ⟨0, 0, 2, false, false⟩]⟩ :
              circular_list Int).all_nodes.take k) = t ∧
          l2.all_nodes[k]? = some nd2 ∧ nd2.free = false ∧ nd2.value = v) ∧
      l2.all_nodes.length = 3 + (3 - 1) ∧ 3 ≤ l2.all_nodes.length) ∧
    (∃ l1 ret, (⟨0, [⟨2, 2, 0, false, true⟩, ⟨2, 0, 1, true, false⟩, ⟨0, 0, 2, false, false⟩]⟩ :
        circular_list Int).erase 8 ⟨0, 0⟩ ⟨2, 0⟩ = .ok (l1, ret) ∧
      l1.all_nodes.length = 3) ∧
    (∀ (r r2 : circular_list Int) (n : Nat) (it : generic_iterator) (W : List Int),
      r.insert n it W = .ok r2 → r.all_nodes.length ≤ r2.all_nodes.length) ∧
    (∀ (r r1 : circular_list Int) (n : Nat) (a b ret : generic_iterator),
      r.erase n a b = .ok (r1, ret) → r1.all_nodes.length = r.all_nodes.length) :=
  ⟨gap_ring_wf, rfl,
    first_fit_lazy_growth
      (⟨0, [⟨2, 2, 0, false, true⟩, ⟨2, 0, 1, true, false⟩, ⟨0, 0, 2, false, false⟩]⟩ :
        circular_list Int) [7, 8, 9] ⟨2, 0⟩ ⟨0, 0⟩ ⟨2, 0⟩ 2 0 1 8 gap_ring_wf
      rfl ⟨_, rfl, rfl⟩ rfl ⟨_, rfl, rfl⟩ rfl (by decide) (by decide)⟩

end ext_std
